import Mathlib

/-! RepSnapper slicing core: cross-section reconstruction, component splitting, infill cache.

Shallow embedding of `src/src/shape.cpp`, `src/src/slicer/layer.cpp` and
`src/src/slicer/infill.cpp`.

Conventions of the embedding:
* `std::vector<T>` is `List T`; `v[i]` is `List.getD` with a default that is never
  reached on the paths that are analysed (indices are proved in range where it matters);
* `uint`/`ulong` loop counters and indices are `Nat` (no list here is longer than `2^32`);
* `double` is exact rational arithmetic (`ℚ`);
* a `while` loop whose termination is not syntactically evident takes a fuel argument and
  returns `none` when the fuel runs out before the loop condition fails.
-/

namespace Repsnapper

/-! ## Segments and `getLineSequences` (shape.cpp 607-655) -/

/-- Segment of a slice: two indices into the per-slice vertex list (`start`, `end`). -/
structure Segment where
  start : Int
  end_ : Int
deriving DecidableEq

/-- Element access `lines[l]`; the default is the `Segment line(-1,-1)` of the source. -/
def lineAt (lines : List Segment) (l : Nat) : Segment :=
  lines.getD l ⟨-1, -1⟩

/-- Local variables of `getLineSequences` that live across passes of its `while` loop. -/
structure SeqState where
  linedone : List Bool
  sequence : List Nat
  donelines : Nat
  connectedlines : List (List Nat)
deriving DecidableEq

/-- The inner `for` loop "add next connecting line": all not yet used lines that continue
the current sequence (every unused line when the sequence is empty), in index order. -/
def findConnections (lines : List Segment) (linedone : List Bool) (sequence : List Nat) :
    List Nat :=
  (List.range lines.length).filter (fun l =>
    !(linedone.getD l false) &&
      (sequence.isEmpty ||
        decide ((lineAt lines l).start = (lineAt lines (sequence.getLastD 0)).end_)))

/-- The inner `for` loop "add next best undone line": the first unused line, if any. -/
def firstUndone (lines : List Segment) (linedone : List Bool) : Option Nat :=
  (List.range lines.length).find? (fun l => !(linedone.getD l false))

/-- One pass of the body of `while (donelines < nlines)`. -/
def linePass (lines : List Segment) (s : SeqState) : SeqState :=
  match findConnections lines s.linedone s.sequence with
  | c :: _ =>
    let sequence := s.sequence ++ [c]
    let linedone := s.linedone.set c true
    if (lineAt lines (sequence.headD 0)).start = (lineAt lines (sequence.getLastD 0)).end_ then
      { linedone := linedone, sequence := [], donelines := s.donelines + 1,
        connectedlines := s.connectedlines ++ [sequence] }
    else
      { linedone := linedone, sequence := sequence, donelines := s.donelines + 1,
        connectedlines := s.connectedlines }
  | [] =>
    let connectedlines := s.connectedlines ++ [s.sequence]
    match firstUndone lines s.linedone with
    | some l =>
      { linedone := s.linedone.set l true, sequence := [l], donelines := s.donelines + 1,
        connectedlines := connectedlines }
    | none =>
      { linedone := s.linedone, sequence := [], donelines := s.donelines,
        connectedlines := connectedlines }

/-- The loop `while (donelines < nlines)`, with fuel: `none` when the fuel is used up
while the loop condition still holds. -/
def lineLoop (lines : List Segment) : Nat → SeqState → Option SeqState
  | 0, s => if s.donelines < lines.length then none else some s
  | fuel + 1, s =>
    if s.donelines < lines.length then lineLoop lines fuel (linePass lines s) else some s

/-- State of `getLineSequences` when its `while` loop is entered. -/
def lineInit (lines : List Segment) (connectedlines : List (List Nat)) : SeqState :=
  { linedone := List.replicate lines.length false, sequence := [], donelines := 0,
    connectedlines := connectedlines }

/-- Embedding of `getLineSequences(lines, connectedlines)`: the returned flag and the new value of
`connectedlines`; `none` when the loop does not finish within `fuel` passes. -/
def getLineSequences (fuel : Nat) (lines : List Segment) (connectedlines : List (List Nat)) :
    Option (Bool × List (List Nat)) :=
  if lines.length = 0 then some (true, connectedlines)
  else
    match lineLoop lines fuel (lineInit lines connectedlines) with
    | none => none
    | some s =>
      if s.sequence.length > 0 then some (true, s.connectedlines ++ [s.sequence])
      else some (true, s.connectedlines)

/-- Signed-degree balance of a segment list: every vertex index occurs as a segment start
exactly as often as it occurs as a segment end. -/
def Balanced (lines : List Segment) : Prop :=
  ∀ v : Int, lines.countP (fun s => decide (s.start = v)) =
    lines.countP (fun s => decide (s.end_ = v))

/-- An index sequence is a closed loop of `lines`: it is non-empty, each line starts where its
predecessor ends, and the last line ends where the first starts. -/
def ClosedLoop (lines : List Segment) (s : List Nat) : Prop :=
  s ≠ [] ∧
  (∀ k, k + 1 < s.length →
    (lineAt lines (s.getD (k + 1) 0)).start = (lineAt lines (s.getD k 0)).end_) ∧
  (lineAt lines (s.getLastD 0)).end_ = (lineAt lines (s.headD 0)).start

/-- Indices marked so far, in marking order: the sealed sequences followed by the current one. -/
def visited (s : SeqState) : List Nat :=
  s.connectedlines.flatten ++ s.sequence

/-- Loop invariant of `getLineSequences`: `linedone` flags exactly the indices visited so far,
each of them valid and visited once, and `donelines` counts them. -/
structure SeqInv (lines : List Segment) (s : SeqState) : Prop where
  len : s.linedone.length = lines.length
  done_iff : ∀ l, l < lines.length → (s.linedone.getD l false = true ↔ l ∈ visited s)
  nodup : (visited s).Nodup
  bound : ∀ l ∈ visited s, l < lines.length
  count : s.donelines = (visited s).length

/-- Number of not yet used lines whose segment satisfies `p`. -/
def undoneCount (p : Segment → Bool) : List Segment → List Bool → Nat
  | l :: ls, d :: ds => (if !d && p l then 1 else 0) + undoneCount p ls ds
  | _, _ => 0

/-- Additional loop invariant of `getLineSequences` on a balanced segment list: sealed sequences
are closed loops, the current sequence is an open chain, and among the unused lines every
vertex is balanced except for the two ends of the current chain. -/
structure LoopInv (lines : List Segment) (s : SeqState) : Prop where
  closed : ∀ sq ∈ s.connectedlines, ClosedLoop lines sq
  chain : List.Chain' (fun a b => (lineAt lines b).start = (lineAt lines a).end_) s.sequence
  opened : s.sequence ≠ [] →
    (lineAt lines (s.sequence.headD 0)).start ≠ (lineAt lines (s.sequence.getLastD 0)).end_
  degree : ∀ v : Int,
    undoneCount (fun x => decide (x.start = v)) lines s.linedone +
        (if s.sequence ≠ [] ∧ (lineAt lines (s.sequence.headD 0)).start = v then 1 else 0) =
      undoneCount (fun x => decide (x.end_ = v)) lines s.linedone +
        (if s.sequence ≠ [] ∧ (lineAt lines (s.sequence.getLastD 0)).end_ = v then 1 else 0)

/-! ## `CleanupSharedSegments` and `CleanupConnectSegments` (shape.cpp 1095-1294) -/

/-- Two-dimensional point of the per-slice vertex list, with exact coordinates. -/
structure Vector2d where
  x : ℚ
  y : ℚ
deriving DecidableEq

/-- Squared Euclidean distance (`Vector2d::squared_distance`). -/
def Vector2d.squared_distance (p q : Vector2d) : ℚ :=
  (p.x - q.x) * (p.x - q.x) + (p.y - q.y) * (p.y - q.y)

/-- Element access `vertices[i]`. -/
def vertexAt (vertices : List Vector2d) (i : Nat) : Vector2d :=
  vertices.getD i ⟨0, 0⟩

/-- The statement `vertex_types[i] += d` (`++` and `--` in the source). -/
def bump (vt : List Int) (i : Int) (d : Int) : List Int :=
  vt.set i.toNat (vt.getD i.toNat 0 + d)

/-- The first loop of `CleanupConnectSegments`: `vertex_types` starts as zeros, one entry per
vertex, and every line increments the entry of its start and decrements that of its end. -/
def vertexTypes (nverts : Nat) (lines : List Segment) : List Int :=
  lines.foldl (fun vt l => bump (bump vt l.start 1) l.end_ (-1)) (List.replicate nverts 0)

/-- The second loop: indices of the vertices with a nonzero `vertex_types` entry, ascending. -/
def detachedPoints (vt : List Int) : List Int :=
  ((List.range vt.length).filter (fun i => decide (vt.getD i 0 ≠ 0))).map Int.ofNat

/-- One iteration (index `j`) of the inner search loop; the state is `nearest_dist_sq` (`none`
stands for its initial value, the largest double, taken as `+∞`) and `nearest`. -/
def nearestStep (vertices : List Vector2d) (vt : List Int) (detached : List Int) (n : Nat)
    (st : Option ℚ × Nat) (j : Nat) : Option ℚ × Nat :=
  if detached.getD j 0 < 0 then st
  else
    let pt := (detached.getD j 0).toNat
    if vt.getD n 0 = vt.getD pt 0 then st
    else
      let dist_sq := (vertexAt vertices n).squared_distance (vertexAt vertices pt)
      match st.1 with
      | none => (some dist_sq, j)
      | some best => if dist_sq < best then (some dist_sq, j) else st

/-- The inner loop `for (j = i + 1; j < detached_points.size(); j++)`. -/
def findNearest (vertices : List Vector2d) (vt : List Int) (detached : List Int) (i n : Nat) :
    Option ℚ × Nat :=
  (List.range' (i + 1) (detached.length - (i + 1))).foldl
    (nearestStep vertices vt detached n) (none, 0)

/-- The comparison `nearest_dist_sq > bound`, with `none` as `+∞`. -/
def distExceeds (d : Option ℚ) (bound : ℚ) : Bool :=
  match d with
  | none => true
  | some x => decide (bound < x)

/-- `Segment::Swap`. -/
def Segment.Swap (s : Segment) : Segment :=
  ⟨s.end_, s.start⟩

/-- One iteration (index `i`) of the pairing loop; the state is `detached_points` and `lines`. -/
def connectStep (vertices : List Vector2d) (vt : List Int) (connect_all : Bool)
    (st : List Int × List Segment) (i : Nat) : List Int × List Segment :=
  if st.1.getD i 0 < 0 then st
  else
    let n := (st.1.getD i 0).toNat
    let found := findNearest vertices vt st.1 i n
    if found.2 = 0 then st
    else if !connect_all && distExceeds found.1 100 then st
    else
      let seg : Segment := ⟨(n : Int), st.1.getD found.2 0⟩
      let seg := if vt.getD n 0 > 0 then seg.Swap else seg
      (st.1.set found.2 (-1), st.2 ++ [seg])

/-- Embedding of `CleanupConnectSegments(vertices, lines, connect_all)`: the returned flag and
the new value of `lines`. -/
def CleanupConnectSegments (vertices : List Vector2d) (lines : List Segment)
    (connect_all : Bool) : Bool × List Segment :=
  let vt := vertexTypes vertices.length lines
  let detached := detachedPoints vt
  if detached.length % 2 ≠ 0 then (false, lines)
  else
    (true, ((List.range detached.length).foldl (connectStep vertices vt connect_all)
      (detached, lines)).2)

/-- Signed degree of a vertex index: segments starting there minus segments ending there. -/
def signedDegree (lines : List Segment) (v : Int) : Int :=
  (lines.countP (fun s => decide (s.start = v)) : Int) -
    (lines.countP (fun s => decide (s.end_ = v)) : Int)

/-- All segment indices refer to entries of a vertex list with `nverts` entries. -/
def ValidSegments (nverts : Nat) (lines : List Segment) : Prop :=
  ∀ l ∈ lines, (0 ≤ l.start ∧ l.start < nverts) ∧ (0 ≤ l.end_ ∧ l.end_ < nverts)

/-- The dangling vertices: vertex indices with a nonzero signed degree. -/
def danglingVertices (nverts : Nat) (lines : List Segment) : List Nat :=
  (List.range nverts).filter (fun v => decide (signedDegree lines v ≠ 0))

/-- Facts about the initial `detached_points` list `D0` of a valid segment list: its entries
are the vertices with nonzero signed degree, each listed once. -/
structure Detached (n : Nat) (lines : List Segment) (D0 : List Int) : Prop where
  range : ∀ j, j < D0.length →
    0 ≤ D0.getD j 0 ∧ D0.getD j 0 < n ∧ signedDegree lines (D0.getD j 0) ≠ 0
  inj : ∀ j k, j < D0.length → k < D0.length → D0.getD j 0 = D0.getD k 0 → j = k
  all : ∀ v : Int, signedDegree lines v ≠ 0 → ∃ j, j < D0.length ∧ D0.getD j 0 = v

/-- Invariant of the pairing loop of `CleanupConnectSegments` before iteration `i`: entries of
`detached_points` are the original ones or the mark `-1`, and the vertices that still have a
nonzero signed degree are exactly the unmarked entries at positions `i` and later, with their
original degree. -/
structure ConnInv (n : Nat) (lines : List Segment) (D0 : List Int) (i : Nat)
    (st : List Int × List Segment) : Prop where
  len : st.1.length = D0.length
  marks : ∀ j, j < D0.length → st.1.getD j 0 = D0.getD j 0 ∨ st.1.getD j 0 = -1
  valid : ValidSegments n st.2
  pending : ∀ v : Int, (∃ j, i ≤ j ∧ j < D0.length ∧ st.1.getD j 0 = v ∧ 0 ≤ v) →
    signedDegree st.2 v = signedDegree lines v
  settled : ∀ v : Int, (¬ ∃ j, i ≤ j ∧ j < D0.length ∧ st.1.getD j 0 = v ∧ 0 ≤ v) →
    signedDegree st.2 v = 0

/-- Index `j` is acceptable to the inner search loop for the detached vertex `n`: it is not
marked and its `vertex_types` entry differs from that of `n`. -/
def Candidate (vt : List Int) (detached : List Int) (n j : Nat) : Prop :=
  ¬ detached.getD j 0 < 0 ∧ vt.getD n 0 ≠ vt.getD (detached.getD j 0).toNat 0

/-- The search state holds a found partner: `nearest` is a candidate index after `i` and
`nearest_dist_sq` is the squared distance to it. -/
def NearestOk (vertices : List Vector2d) (vt : List Int) (detached : List Int) (i n : Nat)
    (st : Option ℚ × Nat) : Prop :=
  (i < st.2 ∧ st.2 < detached.length) ∧ Candidate vt detached n st.2 ∧
    st.1 = some ((vertexAt vertices n).squared_distance
      (vertexAt vertices (detached.getD st.2 0).toNat))

/-- Every dangling vertex has a dangling partner of opposite sign within the squared distance
`budget`. -/
def HasPartners (vertices : List Vector2d) (lines : List Segment) (budget : ℚ) : Prop :=
  ∀ u ∈ danglingVertices vertices.length lines,
    ∃ v ∈ danglingVertices vertices.length lines,
      signedDegree lines u * signedDegree lines v < 0 ∧
        (vertexAt vertices u).squared_distance (vertexAt vertices v) ≤ budget

/-- The duplicate test of `CleanupSharedSegments`: `kr` is an exact or a reversed copy of
`jr`. -/
def sharedWith (jr kr : Segment) : Bool :=
  (decide (jr.start = kr.start) && decide (jr.end_ = kr.end_)) ||
    (decide (jr.end_ = kr.start) && decide (jr.start = kr.end_))

/-- The search loops of `CleanupSharedSegments`: index `j` is pushed to `lines_to_delete` when
some later line `k > j` is an exact or reversed copy of line `j`. -/
def linesToDelete (lines : List Segment) : List Nat :=
  (List.range lines.length).filter (fun j =>
    (List.range' (j + 1) (lines.length - (j + 1))).any
      (fun k => sharedWith (lineAt lines j) (lineAt lines k)))

/-- Embedding of `CleanupSharedSegments(lines)`: the indices found are sorted and erased from the
highest to the lowest; the function always returns true. -/
def CleanupSharedSegments (lines : List Segment) : Bool × List Segment :=
  (true, ((linesToDelete lines).insertionSort (· ≤ ·)).reverse.foldl
    (fun ls r => ls.eraseIdx r) lines)

/-! ## `Shape::getCutlines` and `Shape::getPolygonsAtZ` (shape.cpp 657-830) -/

/-- Polygon of a layer: vertex sequence, height and hole flag. -/
structure Poly where
  vertices : List Vector2d
  z : ℚ
  hole : Bool
deriving DecidableEq

/-- Result of `Triangle::CutWithPlane`: the number of cut points and the two out-parameters. -/
structure Cut where
  num_cutpoints : Nat
  lineStart : Vector2d
  lineEnd : Vector2d
deriving DecidableEq

/-- The members of `Triangle`, `Matrix4d` and `Poly` that the slicing code calls and whose
source files are not part of the repository sources at hand; they are parameters of the
embedding. `normalAbsZ t` is `abs(t.Normal.z())`; `misaligned t lineStart lineEnd` is the test
`(triangleNormal - segmentNormal).squared_length() > 0.2` on the normalized vectors;
`supportPoly t z` is the polygon built from one support triangle by the loop body at
shape.cpp 690-730; `calcHole` is `Poly::calcHole`; `cleanup` is `Poly::cleanup`. -/
structure Geometry (Triangle Matrix4d : Type) where
  mul : Matrix4d → Matrix4d → Matrix4d
  CutWithPlane : Triangle → ℚ → Matrix4d → Cut
  isInZrange : Triangle → ℚ → ℚ → Matrix4d → Bool
  slopeAngle : Triangle → Matrix4d → ℚ
  transformed : Triangle → Matrix4d → Triangle
  normalAbsZ : Triangle → ℚ
  misaligned : Triangle → Matrix4d → Vector2d → Vector2d → Bool
  supportPoly : Triangle → ℚ → Poly
  calcHole : Poly → Poly
  cleanup : Poly → ℚ → Poly

/-- The part of a `Shape` used by the slicer: its triangles and its own transform. -/
structure Shape (Triangle Matrix4d : Type) where
  triangles : List Triangle
  transform3D : Matrix4d

/-- Search `find_vertex(vertices, v)` with the default `delta = 0.0001`: index of the first
vertex closer (squared) than `delta`, or `-1`. -/
def find_vertex (vertices : List Vector2d) (v : Vector2d) : Int :=
  match (List.range vertices.length).find?
      (fun i => decide (v.squared_distance (vertexAt vertices i) < 1 / 10000)) with
  | some i => (i : Int)
  | none => -1

/-- Variables of `getCutlines` that are updated by its loop over the triangles. -/
structure CutState (Triangle : Type) where
  lines : List Segment
  vertices : List Vector2d
  max_gradient : ℚ
  support_triangles : List Triangle

/-- Body of the loop over the triangles in `getCutlines`. -/
def cutStep {Triangle Matrix4d : Type} (g : Geometry Triangle Matrix4d) (transform : Matrix4d)
    (z supportangle thickness : ℚ) (st : CutState Triangle) (t : Triangle) :
    CutState Triangle :=
  let cut := g.CutWithPlane t z transform
  if cut.num_cutpoints = 0 then
    if 0 ≤ supportangle ∧ 0 < thickness ∧ g.isInZrange t (z - thickness) z transform = true ∧
        supportangle ≤ -g.slopeAngle t transform then
      { st with support_triangles := st.support_triangles ++ [g.transformed t transform] }
    else st
  else
    -- num_cutpoints > 0
    let havev := find_vertex st.vertices cut.lineStart
    let start : Int := if 0 ≤ havev then havev else (st.vertices.length : Int)
    let vertices := if 0 ≤ havev then st.vertices else st.vertices ++ [cut.lineStart]
    let max_gradient := if st.max_gradient < g.normalAbsZ t then g.normalAbsZ t
      else st.max_gradient
    let support_triangles :=
      if 0 ≤ supportangle ∧ supportangle ≤ -g.slopeAngle t transform then
        st.support_triangles ++ [g.transformed t transform]
      else st.support_triangles
    -- num_cutpoints > 1
    let havee := find_vertex vertices cut.lineEnd
    let end_ : Int :=
      if 1 < cut.num_cutpoints then (if 0 ≤ havee then havee else (vertices.length : Int))
      else -1
    let vertices :=
      if 1 < cut.num_cutpoints ∧ ¬ 0 ≤ havee then vertices ++ [cut.lineEnd] else vertices
    let lines :=
      if start ≠ -1 ∧ end_ ≠ -1 ∧ end_ ≠ start then
        st.lines ++ [if g.misaligned t transform cut.lineStart cut.lineEnd = true
          then ⟨end_, start⟩ else ⟨start, end_⟩]
      else st.lines
    { lines := lines, vertices := vertices, max_gradient := max_gradient,
      support_triangles := support_triangles }

/-- Embedding of `Shape::getCutlines`: the returned lines together with the updated reference
parameters `vertices`, `max_gradient` and `support_triangles`. -/
def getCutlines {Triangle Matrix4d : Type} (g : Geometry Triangle Matrix4d)
    (shape : Shape Triangle Matrix4d) (T : Matrix4d) (z : ℚ) (vertices : List Vector2d)
    (max_gradient : ℚ) (support_triangles : List Triangle) (supportangle thickness : ℚ) :
    CutState Triangle :=
  shape.triangles.foldl (cutStep g (g.mul T shape.transform3D) z supportangle thickness)
    { lines := [], vertices := vertices, max_gradient := max_gradient,
      support_triangles := support_triangles }

/-- The polygon built by `getPolygonsAtZ` from one sequence of connected lines. -/
def sequencePoly {Triangle Matrix4d : Type} (g : Geometry Triangle Matrix4d) (z : ℚ)
    (vertices : List Vector2d) (lines : List Segment) (sq : List Nat) : Poly :=
  let starts := sq.map (fun j => vertexAt vertices (lineAt lines j).start.toNat)
  let pts :=
    if (lineAt lines (sq.getLastD 0)).end_ ≠ (lineAt lines (sq.headD 0)).start then
      starts ++ [vertexAt vertices (lineAt lines (sq.getLastD 0)).end_.toNat]
    else starts
  g.calcHole { vertices := pts, z := z, hole := false }

/-- Values that `Shape::getPolygonsAtZ` returns or writes through its reference parameters. -/
structure SliceResult where
  ok : Bool
  polys : List Poly
  max_gradient : ℚ
  supportpolys : List Poly
deriving DecidableEq

/-- Embedding of `Shape::getPolygonsAtZ`. `none` only if `getLineSequences` ran out of fuel. -/
def getPolygonsAtZ {Triangle Matrix4d : Type} (g : Geometry Triangle Matrix4d)
    (shape : Shape Triangle Matrix4d) (T : Matrix4d) (z : ℚ) (polys : List Poly)
    (max_gradient : ℚ) (supportpolys : List Poly) (max_supportangle thickness : ℚ) :
    Option SliceResult :=
  let cut := getCutlines g shape T z [] max_gradient [] max_supportangle thickness
  let shared := CleanupSharedSegments cut.lines
  if shared.1 = false then
    some ⟨false, polys, cut.max_gradient, supportpolys⟩
  else
    let connected := CleanupConnectSegments cut.vertices shared.2 true
    if connected.1 = false then
      some ⟨false, polys, cut.max_gradient, supportpolys⟩
    else
      match getLineSequences connected.2.length connected.2 [] with
      | none => none
      | some (false, _) => some ⟨false, polys, cut.max_gradient, supportpolys⟩
      | some (true, connectedlines) =>
        some ⟨true,
          polys ++ connectedlines.map (sequencePoly g z cut.vertices connected.2),
          cut.max_gradient,
          supportpolys ++ cut.support_triangles.map (fun t => g.supportPoly t z)⟩

/-! ## `Layer::addShape` (layer.cpp 147-188) -/

/-- The members of `Layer` read or written by `addShape`. -/
structure Layer where
  Z : ℚ
  thickness : ℚ
  polygons : List Poly
  toSupportPolygons : List Poly
deriving DecidableEq

/-- The constant `CLEANFACTOR` of layer.cpp. -/
def CLEANFACTOR : ℚ := 7

/-- `Poly::setZ`. -/
def Poly.setZ (p : Poly) (z : ℚ) : Poly :=
  { p with z := z }

/-- `Layer::addPolygons`. -/
def Layer.addPolygons (l : Layer) (polys : List Poly) : Layer :=
  { l with polygons := l.polygons ++ polys.map (fun p => p.setZ l.Z) }

/-- `Layer::cleanupPolygons`. -/
def Layer.cleanupPolygons {Triangle Matrix4d : Type} (g : Geometry Triangle Matrix4d)
    (l : Layer) : Layer :=
  { l with polygons := l.polygons.map (fun p => g.cleanup p (l.thickness / CLEANFACTOR)) }

/-- Variables of `Layer::addShape` across passes of its retry loop. `calls` is a history
variable: the heights at which `getPolygonsAtZ` has been called, oldest first. -/
structure AddState where
  layer : Layer
  hackedZ : ℚ
  polys_ok : Bool
  polys : List Poly
  num_polys : Int
  max_gradient : ℚ
  calls : List ℚ

/-- One pass of the body of `while (!polys_ok && hackedZ < Z + thickness)`. -/
def addShapePass {Triangle Matrix4d : Type} (g : Geometry Triangle Matrix4d)
    (T : Matrix4d) (shape : Shape Triangle Matrix4d) (max_supportangle : ℚ) (s : AddState) :
    Option AddState :=
  match getPolygonsAtZ g shape T s.hackedZ [] s.max_gradient s.layer.toSupportPolygons
      max_supportangle s.layer.thickness with
  | none => none
  | some r =>
    if r.ok = true then
      some { layer := ({ s.layer with toSupportPolygons := r.supportpolys }).addPolygons r.polys,
             hackedZ := s.hackedZ, polys_ok := true, polys := r.polys,
             num_polys := s.num_polys + r.polys.length, max_gradient := r.max_gradient,
             calls := s.calls ++ [s.hackedZ] }
    else
      some { layer := { s.layer with toSupportPolygons := r.supportpolys },
             hackedZ := s.hackedZ + s.layer.thickness / 10, polys_ok := false,
             polys := r.polys, num_polys := -1, max_gradient := r.max_gradient,
             calls := s.calls ++ [s.hackedZ] }

/-- The retry loop of `Layer::addShape`, with fuel. -/
def addShapeLoop {Triangle Matrix4d : Type} (g : Geometry Triangle Matrix4d)
    (T : Matrix4d) (shape : Shape Triangle Matrix4d) (max_supportangle : ℚ) :
    Nat → AddState → Option AddState
  | 0, s =>
    if s.polys_ok = false ∧ s.hackedZ < s.layer.Z + s.layer.thickness then none else some s
  | fuel + 1, s =>
    if s.polys_ok = false ∧ s.hackedZ < s.layer.Z + s.layer.thickness then
      match addShapePass g T shape max_supportangle s with
      | none => none
      | some s2 => addShapeLoop g T shape max_supportangle fuel s2
    else some s

/-- State of `Layer::addShape` when its retry loop is entered. -/
def addShapeInit (layer : Layer) (max_gradient : ℚ) : AddState :=
  { layer := layer, hackedZ := layer.Z, polys_ok := false, polys := [], num_polys := -1,
    max_gradient := max_gradient, calls := [] }

/-- Embedding of `Layer::addShape`: the returned `num_polys`, the layer afterwards and the
updated reference parameter `max_gradient`. -/
def Layer.addShape {Triangle Matrix4d : Type} (g : Geometry Triangle Matrix4d) (fuel : Nat)
    (layer : Layer) (T : Matrix4d) (shape : Shape Triangle Matrix4d) (max_gradient : ℚ)
    (max_supportangle : ℚ) : Option (Int × Layer × ℚ) :=
  match addShapeLoop g T shape max_supportangle fuel (addShapeInit layer max_gradient) with
  | none => none
  | some s => some (s.num_polys, s.layer.cleanupPolygons g, s.max_gradient)

/-- Success flag of `getPolygonsAtZ` at height `z`: whether `CleanupConnectSegments` accepts the
cut lines. -/
def sliceOk {Triangle Matrix4d : Type} (g : Geometry Triangle Matrix4d)
    (shape : Shape Triangle Matrix4d) (T : Matrix4d) (z max_supportangle thickness : ℚ) :
    Bool :=
  (CleanupConnectSegments
    (getCutlines g shape T z [] 0 [] max_supportangle thickness).vertices
    (CleanupSharedSegments
      (getCutlines g shape T z [] 0 [] max_supportangle thickness).lines).2 true).1

/-- The height of the `k`-th attempt of `Layer::addShape`: `Z + k * thickness / 10`. -/
def retryHeight (layer : Layer) (k : Nat) : ℚ :=
  layer.Z + (k : ℚ) * (layer.thickness / 10)

/-- Sample triangle for concrete evaluations: it records how every horizontal plane cuts it
(a wall of a vertical prism) and whether it is steep enough to need support. -/
structure WallTriangle where
  cut : Cut
  steep : Bool
deriving DecidableEq

/-- Sample geometry over `WallTriangle`: transforms are trivial, `CutWithPlane` returns the
recorded cut, a steep triangle has slope `1`, and polygons are left as they are built. -/
def wallGeometry : Geometry WallTriangle Unit where
  mul := fun _ _ => ()
  CutWithPlane := fun t _ _ => t.cut
  isInZrange := fun _ _ _ _ => true
  slopeAngle := fun t _ => if t.steep then -1 else 0
  transformed := fun t _ => t
  normalAbsZ := fun _ => 0
  misaligned := fun _ _ _ _ => false
  supportPoly := fun t z => ⟨[t.cut.lineStart, t.cut.lineEnd], z, false⟩
  calcHole := fun p => p
  cleanup := fun p _ => p

/-- Sample open mesh: two walls that leave the common point `(0,0)`, the second one steep. Its
cut lines are `0 → 1` and `0 → 2`, so three vertices dangle. -/
def openShape : Shape WallTriangle Unit where
  triangles := [⟨⟨2, ⟨0, 0⟩, ⟨1, 0⟩⟩, false⟩, ⟨⟨2, ⟨0, 0⟩, ⟨0, 1⟩⟩, true⟩]
  transform3D := ()

/-- Sample closed mesh: three walls around a triangle, the last one steep. -/
def closedShape : Shape WallTriangle Unit where
  triangles := [⟨⟨2, ⟨0, 0⟩, ⟨1, 0⟩⟩, false⟩, ⟨⟨2, ⟨1, 0⟩, ⟨0, 1⟩⟩, false⟩,
    ⟨⟨2, ⟨0, 1⟩, ⟨0, 0⟩⟩, true⟩]
  transform3D := ()

/-! ## `Infill::makeInfillPattern` (infill.cpp 90-165) -/

/-- A `while (cond) body` loop with fuel: `none` when the fuel is used up while the loop
condition still holds. -/
def whileFuel {σ : Type} (cond : σ → Bool) (body : σ → σ) : Nat → σ → Option σ
  | 0, s => if cond s then none else some s
  | fuel + 1, s => if cond s then whileFuel cond body fuel (body s) else some s

/-- The double constant `M_PI` (`0x400921FB54442D18`), as an exact rational. -/
def M_PI : ℚ := 884279719003555 / 281474976710656

/-- The fill styles named in `makeInfillPattern`; `other` stands for any further enumerator,
which the `switch` sends to its `default` branch. -/
inductive InfillType where
  | ParallelInfill
  | LinesInfill
  | SupportInfill
  | other (code : Nat)
deriving DecidableEq

/-- `ClipperLib::Polygons`: polygons with integer coordinates. -/
abbrev ClipperPolygons := List (List (Int × Int))

/-- `struct Infill::pattern`, an entry of the pattern cache `savedPatterns`. -/
structure pattern where
  type : InfillType
  angle : ℚ
  distance : ℚ
  cpolys : ClipperPolygons
deriving DecidableEq

/-- The members of `CuttingPlane` read by the infill code: bounding box and height. -/
structure CuttingPlane where
  Min : Vector2d
  Max : Vector2d
  Z : ℚ
deriving DecidableEq

/-- The members of `Infill` used by `makeInfillPattern` and `addInfillPoly`. -/
structure Infill where
  plane : CuttingPlane
  type : InfillType
  angle : ℚ
  infillpolys : List Poly
deriving DecidableEq

/-- Functions called by `makeInfillPattern` whose source is not part of the repository sources
at hand: `Poly::rotate(center, angle)` and `CuttingPlane::getClipperPolygons(polys)`. -/
structure InfillEnv where
  rotate : Poly → Vector2d → ℚ → Poly
  getClipperPolygons : CuttingPlane → List Poly → ClipperPolygons

/-- The loop `while (rotation>2*M_PI) rotation -= 2*M_PI;`. -/
def reduceRotation (fuel : Nat) (rotation : ℚ) : Option ℚ :=
  whileFuel (fun r => decide (2 * M_PI < r)) (fun r => r - 2 * M_PI) fuel rotation

/-- The loop `while (rotation<0) rotation += 2*M_PI;`. -/
def raiseRotation (fuel : Nat) (rotation : ℚ) : Option ℚ :=
  whileFuel (fun r => decide (r < 0)) (fun r => r + 2 * M_PI) fuel rotation

/-- The cache test of `makeInfillPattern` for one saved pattern. -/
def patternMatches (type : InfillType) (infillDistance rotation : ℚ) (p : pattern) : Bool :=
  decide (p.type = type) && decide (|p.distance - infillDistance| < 1 / 100) &&
    decide (|p.angle - rotation| < 1 / 100)

/-- The loop of the `ParallelInfill`/`SupportInfill` case; the state is the loop variable `x`
and the vertices of `poly`. -/
def stripLoop (infillDistance : ℚ) (Min Max : Vector2d) (fuel : Nat) :
    Option (ℚ × List Vector2d) :=
  whileFuel (fun s : ℚ × List Vector2d => decide (s.1 < Max.x))
    (fun s => (s.1 + 2 * infillDistance,
      s.2 ++ [⟨s.1, Min.y⟩, ⟨s.1 + infillDistance, Min.y⟩, ⟨s.1 + infillDistance, Max.y⟩,
        ⟨s.1 + 2 * infillDistance, Max.y⟩]))
    fuel (Min.x, [])

/-- The loop of the `LinesInfill` case; the state is the loop variable `x`, the polygon `poly`
(declared before the loop and never cleared) and the list `polys`. -/
def linesLoop (env : InfillEnv) (infillDistance rotation : ℚ) (center Min Max : Vector2d)
    (plane : CuttingPlane) (fuel : Nat) : Option (ℚ × Poly × List Poly) :=
  whileFuel (fun s : ℚ × Poly × List Poly => decide (s.1 < Max.x))
    (fun s =>
      let poly := env.rotate
        { s.2.1 with vertices := s.2.1.vertices ++ [⟨s.1, Min.y⟩, ⟨s.1, Max.y⟩] } center rotation
      (s.1 + infillDistance, poly, s.2.2 ++ [poly]))
    fuel (Min.x, ⟨[], plane.Z, false⟩, [])

/-- The part of `makeInfillPattern` after a cache miss that builds `cpolys`. -/
def buildPattern (env : InfillEnv) (fuel : Nat) (plane : CuttingPlane) (type : InfillType)
    (infillDistance rotation : ℚ) : Option ClipperPolygons :=
  let center : Vector2d := ⟨(plane.Min.x + plane.Max.x) / 2, (plane.Min.y + plane.Max.y) / 2⟩
  let Min : Vector2d :=
    ⟨center.x + (plane.Min.x - center.x) * 2, center.y + (plane.Min.y - center.y) * 2⟩
  let Max : Vector2d :=
    ⟨center.x + (plane.Max.x - center.x) * 2, center.y + (plane.Max.y - center.y) * 2⟩
  match type with
  | InfillType.SupportInfill | InfillType.ParallelInfill =>
    match stripLoop infillDistance Min Max fuel with
    | none => none
    | some s =>
      let poly : Poly :=
        ⟨s.2 ++ [⟨Max.x, Min.y - infillDistance⟩, ⟨Min.x, Min.y - infillDistance⟩],
          plane.Z, false⟩
      some (env.getClipperPolygons plane [env.rotate poly center rotation])
  | InfillType.LinesInfill =>
    match linesLoop env infillDistance rotation center Min Max plane fuel with
    | none => none
    | some s => some (env.getClipperPolygons plane s.2.2)
  | InfillType.other _ => some []

/-- What `makeInfillPattern` returns and leaves behind: the `Infill` object, the static cache
`savedPatterns` and the returned polygons. -/
structure InfillResult where
  infill : Infill
  savedPatterns : List pattern
  cpolys : ClipperPolygons
deriving DecidableEq

set_option linter.unusedVariables false in
/-- Embedding of `Infill::makeInfillPattern`; every loop gets `fuel` passes. -/
def makeInfillPattern (env : InfillEnv) (fuel : Nat) (self : Infill)
    (savedPatterns : List pattern) (type : InfillType)
    (infillDistance offsetDistance rotation : ℚ) : Option InfillResult :=
  match reduceRotation fuel rotation with
  | none => none
  | some r1 =>
    match raiseRotation fuel r1 with
    | none => none
    | some r2 =>
      let self2 : Infill := { self with type := type, angle := r2 }
      match savedPatterns.find? (patternMatches type infillDistance r2) with
      | some p => some ⟨self2, savedPatterns, p.cpolys⟩
      | none =>
        match buildPattern env fuel self.plane type infillDistance r2 with
        | none => none
        | some cpolys =>
          some ⟨self2, savedPatterns ++ [⟨type, r2, infillDistance, cpolys⟩], cpolys⟩

/-- Sample environment for concrete evaluations: `rotate` keeps the polygon, and
`getClipperPolygons` rounds nothing but lists the truncated coordinates. -/
def sampleEnv : InfillEnv where
  rotate := fun p _ _ => p
  getClipperPolygons := fun _ polys =>
    polys.map (fun p => p.vertices.map (fun v => (⌊v.x⌋, ⌊v.y⌋)))

/-- The normalized rotation angle computed by the two loops at the start of
`makeInfillPattern`, when they finish within `fuel` passes. -/
def normalizeRotation (fuel : Nat) (rotation : ℚ) : Option ℚ :=
  match reduceRotation fuel rotation with
  | none => none
  | some r1 => raiseRotation fuel r1

/-- A computation with fuel converges to `r`: every sufficiently large fuel yields `r`. -/
def Converges {α : Type} (f : Nat → Option α) (r : α) : Prop :=
  ∃ N, ∀ fuel, N ≤ fuel → f fuel = some r

/-! ## `addtoshape` and `Shape::splitshapes` (shape.cpp 101-176) -/

/-- Embedding of the recursive `addtoshape(i, adj, tr, done)`; the state is `(tr, done)`. The
fuel bounds the recursion depth: `none` when it is used up. -/
def addtoshape (adj : List (List Nat)) : Nat → Nat → List Nat × List Bool →
    Option (List Nat × List Bool)
  | 0, _, _ => none
  | fuel + 1, i, st =>
    if st.2.getD i false = true then some st
    else
      (adj.getD i []).foldlM
        (fun s j => if j ≠ i then addtoshape adj fuel j s else some s)
        (st.1 ++ [i], st.2.set i true)

/-- The member of `ViewProgress` read by `splitshapes`. -/
structure ViewProgress where
  do_continue : Bool

/-- The test `triangles[i].isConnectedTo(triangles[j], 0.01)`; `isConnectedTo` belongs to
`Triangle`, whose source is not part of the repository sources at hand, and is a parameter. -/
def connectedAt {Triangle : Type} (isConnectedTo : Triangle → Triangle → Bool)
    (triangles : List Triangle) (i j : Nat) : Bool :=
  match triangles[i]?, triangles[j]? with
  | some a, some b => isConnectedTo a b
  | _, _ => false

/-- The indices visited by a loop `for (i = 0; i < n_tr; i++) { ...;
if (!progress->do_continue) i = n_tr; }`: all of them, or only the first after a stop
request. -/
def loopIndices (progress : ViewProgress) (n_tr : Nat) : List Nat :=
  if progress.do_continue = true then List.range n_tr else (List.range n_tr).take 1

/-- The first loop of `splitshapes`: the list of adjacent triangles of each triangle. Pass `i`
takes `j` when `i` is already listed for `j` or when the two triangles are connected. -/
def buildAdj {Triangle : Type} (isConnectedTo : Triangle → Triangle → Bool)
    (triangles : List Triangle) (progress : ViewProgress) : List (List Nat) :=
  (loopIndices progress triangles.length).foldl
    (fun adj i => adj.set i ((List.range triangles.length).filter (fun j =>
      decide (i ≠ j) &&
        ((decide (j < i) && (adj.getD j []).contains i) ||
          connectedAt isConnectedTo triangles i j))))
    (List.replicate triangles.length [])

/-- The second loop of `splitshapes`: the state is the list of the `current` index vectors of
the shapes created so far and `done`. -/
def buildShapes (adj : List (List Nat)) (fuel : Nat) (progress : ViewProgress) (n_tr : Nat) :
    Option (List (List Nat) × List Bool) :=
  (loopIndices progress n_tr).foldlM
    (fun s i =>
      if s.2.getD i false = true then some s
      else
        match addtoshape adj fuel i ([], s.2) with
        | none => none
        | some r => some (s.1 ++ [r.1], r.2))
    ([], List.replicate n_tr false)

/-- The triangle index lists (`current`) of the shapes that `splitshapes` creates, in order.
`none` for a null `progress` (it is dereferenced without a check) or when the recursion of
`addtoshape` is deeper than `fuel`. -/
def splitIndices {Triangle : Type} (isConnectedTo : Triangle → Triangle → Bool)
    (triangles : List Triangle) (progress : Option ViewProgress) (fuel : Nat) :
    Option (List (List Nat)) :=
  match progress with
  | none => none
  | some p =>
    match buildShapes (buildAdj isConnectedTo triangles p) fuel p triangles.length with
    | none => none
    | some r => some r.1

/-- Embedding of `Shape::splitshapes(shapes, progress)`: the new value of `shapes`, each new
shape given by its triangles `triangles[current[i]]`. -/
def splitshapes {Triangle : Type} (isConnectedTo : Triangle → Triangle → Bool)
    (triangles : List Triangle) (shapes : List (List Triangle))
    (progress : Option ViewProgress) (fuel : Nat) : Option (List (List Triangle)) :=
  match splitIndices isConnectedTo triangles progress fuel with
  | none => none
  | some cs => some (shapes ++ cs.map (fun current => current.filterMap (fun i => triangles[i]?)))

/-- Adjacency of triangle indices: both are triangles of the mesh and they are connected. -/
def Adjacent {Triangle : Type} (isConnectedTo : Triangle → Triangle → Bool)
    (triangles : List Triangle) (a b : Nat) : Prop :=
  a < triangles.length ∧ b < triangles.length ∧ connectedAt isConnectedTo triangles a b = true

/-- Reachability along the adjacency lists: a chain `a = u0, u1, ..., b` with each `u(k+1)`
listed in `adj[u(k)]`. -/
def Reach (adj : List (List Nat)) (a b : Nat) : Prop :=
  Relation.ReflTransGen (fun u v => v ∈ adj.getD u []) a b

/-- Effect of one call of `addtoshape` (or of a run of calls) started below `root`: `new` are
the indices appended to `tr`; they are exactly the newly marked ones, each was unmarked before,
is reachable from `root`, and has all its neighbours marked at the end. -/
structure DfsPost (adj : List (List Nat)) (n root : Nat) (done : List Bool) (new : List Nat)
    (done2 : List Bool) : Prop where
  len : done2.length = n
  marks : ∀ k, done2.getD k false = true ↔ (done.getD k false = true ∨ k ∈ new)
  nodup : new.Nodup
  fresh : ∀ k ∈ new, done.getD k false = false ∧ k < n ∧ Reach adj root k
  closed : ∀ k ∈ new, ∀ j ∈ adj.getD k [], done2.getD j false = true

/-- Invariant of the shape-building loop of `splitshapes` before pass `k`: `done` is closed
under adjacency and marks exactly the indices placed in a shape so far (each once), all
triangles before `k` are placed, and every shape is a full reachability class. -/
structure ShapesInv (adj : List (List Nat)) (n k : Nat) (s : List (List Nat) × List Bool) :
    Prop where
  len : s.2.length = n
  closed : ∀ u, s.2.getD u false = true → ∀ v ∈ adj.getD u [], s.2.getD v false = true
  before : ∀ i, i < k → s.2.getD i false = true
  marks : ∀ u, s.2.getD u false = true ↔ u ∈ s.1.flatten
  nodup : s.1.flatten.Nodup
  bound : ∀ u ∈ s.1.flatten, u < n
  comp : ∀ c ∈ s.1, ∃ root, ∀ v, v ∈ c ↔ Reach adj root v

/-! ## Device reply classification: `fived_handle_reply` (fived.c) -/

/-- The telemetry kinds passed to the reply callback. -/
inductive rr_reply where
  | RR_NOZZLE_TEMP
  | RR_BED_TEMP
  | RR_X_POS
  | RR_Y_POS
  | RR_Z_POS
  | RR_E_POS
deriving DecidableEq

/-- The error codes passed to `rr_dev_emit_error` by `fived_handle_reply`. -/
inductive rr_error where
  | RR_E_UNKNOWN_REPLY
  | RR_E_UNSENT_RESEND
  | RR_E_MALFORMED_RESEND_REQUEST
  | RR_E_HARDWARE_FAULT
deriving DecidableEq

/-- A call that `fived_handle_reply` makes on the device: the reply callback with a telemetry
kind and value, `rr_dev_emit_error`, `rr_dev_resend` or `rr_dev_reset_lineno`. These functions
are defined outside fived.c; the embedding records the calls, in order. -/
inductive DevCall (F : Type) where
  | reply_cb (type : rr_reply) (value : F)
  | emit_error (e : rr_error)
  | resend (lineno : Int)
  | reset_lineno
deriving DecidableEq

/-- The `int` that `fived_handle_reply` returns: the literal `0`, or whatever
`rr_dev_emit_error` or `rr_dev_resend` returned. -/
inductive RetVal where
  | zero
  | of_emit_error
  | of_resend
deriving DecidableEq

/-- The fields of `rr_dev` that `fived_handle_reply` reads: the line counter `lineno` and
whether a reply callback `reply_cb` is set. -/
structure rr_dev where
  lineno : Int
  reply_cb : Bool
deriving DecidableEq

/-- What one call of `fived_handle_reply` does: the calls made on the device and the value
returned. -/
structure HandleResult (F : Type) where
  calls : List (DevCall F)
  ret : RetVal
deriving DecidableEq

/-- The test `!strncasecmp(word, reply, n)` for a lower-case `word` of length `n`. -/
def strncasecmp_eq (word : String) (reply : List Char) : Bool :=
  decide ((reply.take word.length).map Char.toLower = word.toList)

/-- The test `!strncmp(word, reply, n)` for a `word` of length `n`. -/
def strncmp_eq (word : String) (reply : List Char) : Bool :=
  decide (reply.take word.length = word.toList)

/-- The call `strcspn(reply, "123456789")`: the number of leading characters that are not one
of the digits `1` to `9`. -/
def strcspn_digits (reply : List Char) : Nat :=
  (reply.takeWhile (fun c => !("123456789".toList.contains c))).length

/-- The call `strtoll(s, NULL, 10)` of the C library: leading white space, an optional sign, the
longest run of decimal digits (value `0` when there is none), clamped to the range of
`long long`. -/
def strtoll (s : List Char) : Int :=
  let s1 := s.dropWhile (fun c => c.isWhitespace)
  let neg := decide (s1.head? = some '-')
  let s2 := if s1.head? = some '-' ∨ s1.head? = some '+' then s1.drop 1 else s1
  let v : Int := (s2.takeWhile Char.isDigit).foldl
    (fun acc c => acc * 10 + ((c.toNat : Int) - 48)) 0
  let v2 := if neg then -v else v
  if v2 < -(2 : Int) ^ 63 then -(2 : Int) ^ 63
  else if (2 : Int) ^ 63 - 1 < v2 then (2 : Int) ^ 63 - 1 else v2

/-- The `switch (toupper(*i))` of the `ok` branch: `some (some type)` for a telemetry letter,
`some none` for `C` (skipped), `none` for the `default` case. -/
def fieldOf (c : Char) : Option (Option rr_reply) :=
  if c.toUpper = 'T' then some (some rr_reply.RR_NOZZLE_TEMP)
  else if c.toUpper = 'B' then some (some rr_reply.RR_BED_TEMP)
  else if c.toUpper = 'C' then some none
  else if c.toUpper = 'X' then some (some rr_reply.RR_X_POS)
  else if c.toUpper = 'Y' then some (some rr_reply.RR_Y_POS)
  else if c.toUpper = 'Z' then some (some rr_reply.RR_Z_POS)
  else if c.toUpper = 'E' then some (some rr_reply.RR_E_POS)
  else none

/-- The loop `for (i = reply; i < reply + nbytes; ++i)` of the `ok` branch. `i` is the offset
into `reply`; `strtof s` gives the parsed value and the number of characters consumed;
`float_reply` parses at `i + 2` and moves `i` to the end of the number, but only when a reply
callback is set. Every pass moves `i` forward, so `nbytes` passes of fuel are enough. -/
def okLoop {F : Type} (strtof : List Char → F × Nat) (dev : rr_dev) (reply : List Char)
    (nbytes : Nat) : Nat → Nat → List (DevCall F) → Option (HandleResult F)
  | 0, i, calls => if i < nbytes then none else some ⟨calls, RetVal.zero⟩
  | fuel + 1, i, calls =>
    if i < nbytes then
      match fieldOf (reply.getD i '\x00') with
      | some (some type) =>
        if dev.reply_cb = true then
          okLoop strtof dev reply nbytes fuel (i + 2 + (strtof (reply.drop (i + 2))).2 + 1)
            (calls ++ [DevCall.reply_cb type (strtof (reply.drop (i + 2))).1])
        else okLoop strtof dev reply nbytes fuel (i + 1) calls
      | some none => okLoop strtof dev reply nbytes fuel (i + 1) calls
      | none =>
        some ⟨calls ++ [DevCall.emit_error rr_error.RR_E_UNKNOWN_REPLY], RetVal.of_emit_error⟩
    else some ⟨calls, RetVal.zero⟩

/-- Embedding of `fived_handle_reply(dev, reply, nbytes)`; `reply` is the string without its
terminating NUL. `none` only if the `ok` loop ran out of its `nbytes` passes. -/
def fived_handle_reply {F : Type} (strtof : List Char → F × Nat) (dev : rr_dev)
    (reply : List Char) (nbytes : Nat) : Option (HandleResult F) :=
  if strncasecmp_eq "ok" reply = true then
    okLoop strtof dev reply nbytes nbytes 0 []
  else if strncasecmp_eq "rs" reply = true ∨ strncasecmp_eq "resend" reply = true then
    if strcspn_digits reply ≠ 0 then
      if strtoll (reply.drop (strcspn_digits reply)) < dev.lineno ∧
          reply.getD (strcspn_digits reply - 1) '\x00' ≠ '-' then
        some ⟨[DevCall.resend (strtoll (reply.drop (strcspn_digits reply)))], RetVal.of_resend⟩
      else some ⟨[DevCall.emit_error rr_error.RR_E_UNSENT_RESEND], RetVal.of_emit_error⟩
    else
      some ⟨[DevCall.emit_error rr_error.RR_E_MALFORMED_RESEND_REQUEST], RetVal.of_emit_error⟩
  else if strncmp_eq "!!" reply = true then
    some ⟨[DevCall.emit_error rr_error.RR_E_HARDWARE_FAULT], RetVal.of_emit_error⟩
  else if strncasecmp_eq "start" reply = true then
    some ⟨[DevCall.reset_lineno], RetVal.zero⟩
  else some ⟨[DevCall.emit_error rr_error.RR_E_UNKNOWN_REPLY], RetVal.of_emit_error⟩

/-- Sample `strtof` for concrete evaluations: an optional `-`, digits, and an optional fraction
`.digits`; the value as a rational and the number of characters read. -/
def decimalStrtof (s : List Char) : ℚ × Nat :=
  let neg := decide (s.head? = some '-')
  let s1 := if neg then s.drop 1 else s
  let ip := s1.takeWhile Char.isDigit
  let rest := s1.drop ip.length
  let fp := if rest.head? = some '.' then (rest.drop 1).takeWhile Char.isDigit else []
  let iv : ℚ := ip.foldl (fun acc c => acc * 10 + ((c.toNat : ℚ) - 48)) 0
  let fv : ℚ := fp.foldr (fun c acc => (acc + ((c.toNat : ℚ) - 48)) / 10) 0
  let len := (if neg then 1 else 0) + ip.length +
    (if rest.head? = some '.' then 1 + fp.length else 0)
  if ip = [] ∧ fp = [] then (0, 0)
  else (if neg then -(iv + fv) else iv + fv, len)

/-- The character that follows the line number of a resend request (the digits that start at
the first digit `1`-`9`), or NUL at the end of the reply. -/
def charAfterNumber (reply : List Char) : Char :=
  reply.getD (strcspn_digits reply +
    ((reply.drop (strcspn_digits reply)).takeWhile Char.isDigit).length) '\x00'

/-! ## `Layer::setSupportPolygons` (layer.cpp 496-513) -/

/-- Variables written by the loop of `Layer::setSupportPolygons`: the support polygons and the
layer's bounding box. -/
structure SupportState where
  supportPolygons : List Poly
  Min : Vector2d
  Max : Vector2d

/-- One pass (index `i`) of the loop of `setSupportPolygons`. `cleanup` is `Poly::cleanup`,
`Area` is `Clipping::Area` and `getMinMax` is `Poly::getMinMax`, none of which is part of the
repository sources at hand. -/
def supportStep (cleanup : Poly → ℚ → Poly) (Area : Poly → ℚ)
    (getMinMax : Poly → Vector2d × Vector2d) (thickness : ℚ) (s : SupportState) (i : Nat) :
    SupportState :=
  let cleaned := cleanup (s.supportPolygons.getD i ⟨[], 0, false⟩) (thickness / CLEANFACTOR)
  if |Area cleaned| < 10 * thickness * thickness then
    { s with supportPolygons := (s.supportPolygons.set i cleaned).eraseIdx i }
  else
    { supportPolygons := s.supportPolygons.set i cleaned,
      Min := ⟨min (getMinMax cleaned).1.x s.Min.x, min (getMinMax cleaned).1.y s.Min.y⟩,
      Max := ⟨max (getMinMax cleaned).2.x s.Max.x, max (getMinMax cleaned).2.y s.Max.y⟩ }

/-- Embedding of `Layer::setSupportPolygons(polys)`: the loop runs from the last index down to
`0`. -/
def setSupportPolygons (cleanup : Poly → ℚ → Poly) (Area : Poly → ℚ)
    (getMinMax : Poly → Vector2d × Vector2d) (thickness : ℚ) (Min Max : Vector2d)
    (polys : List Poly) : SupportState :=
  (List.range polys.length).reverse.foldl (supportStep cleanup Area getMinMax thickness)
    ⟨polys, Min, Max⟩

/-! ## Bridge angles (`Layer::calcBridgeAngles`, layer.cpp)

For one bridge region the pillars are the polygons the clipping engine returns for the
intersection with the inner shell of the layer below; only their `center` fields are read. -/

/-- The vector `dir` accumulated by the double loop of `Layer::calcBridgeAngles`:
`for p in 0..n-1, for q in p+1..n-1 : dir += pillars[q].center - pillars[p].center`,
starting from `(0,0)`; `centers` are the pillar centres in order. -/
def bridgeDir (centers : List Vector2d) : Vector2d :=
  (List.range centers.length).foldl (fun dir p =>
    (List.range' (p + 1) (centers.length - (p + 1))).foldl (fun dir q =>
      ⟨dir.x + ((vertexAt centers q).x - (vertexAt centers p).x),
       dir.y + ((vertexAt centers q).y - (vertexAt centers p).y)⟩) dir) ⟨0, 0⟩

/-- The value stored in `bridge_angles[i]`:
`bridge_angles[i] = atan2(dir.y, dir.x); if (bridge_angles[i] < 0) bridge_angles[i] += M_PI;`
read over the reals: `atan2 (y, x)` is the argument of `x + i y` in `(-π, π]` (and `0` at the
origin), and `M_PI` is `π`.  The relation holds for exactly one `t`. -/
def IsBridgeAngle (dir : Vector2d) (t : ℝ) : Prop :=
  (Complex.arg ⟨(dir.x : ℝ), (dir.y : ℝ)⟩ < 0 ∧
      t = Complex.arg ⟨(dir.x : ℝ), (dir.y : ℝ)⟩ + Real.pi) ∨
  (¬ Complex.arg ⟨(dir.x : ℝ), (dir.y : ℝ)⟩ < 0 ∧
      t = Complex.arg ⟨(dir.x : ℝ), (dir.y : ℝ)⟩)

/-! ## Fill regions of a layer (`addBridgePolygons`, `addFullPolygons`, `mergeFullPolygons`)

The polygon vectors `fillPolygons`, `fullFillPolygons`, `bridgePolygons`, `decorPolygons` are
read as regions: elements of a generalized Boolean algebra `R` (sets of points, finite sets of
cells, ...).  `Clipping::intersect`, `subtract`, `subtractMerged` and `getMerged` are the exact
operations `⊓`, `\` and the identity on regions, `cleanup` does not change a region, and
appending polygons to a vector is `⊔`. -/

/-- The four fill regions of a `Layer`. -/
structure FillRegions (R : Type) where
  fillPolygons : R
  fullFillPolygons : R
  bridgePolygons : R
  decorPolygons : R

/-- Region covered by a vector of polygons (`clipp.addPolys (polys, ...)`). -/
def regionOf {R : Type} [GeneralizedBooleanAlgebra R] (polys : List R) : R :=
  polys.foldr (fun p acc => p ⊔ acc) ⊥

/-- `Layer::addBridgePolygons (newexpolys)`: nothing happens for an empty vector; otherwise
`bridgePolygons` is cleared, receives `fillPolygons ∩ newexpolys[i]` for every `i`, and
`fillPolygons` becomes `fillPolygons \ newexpolys`. -/
def addBridgePolygons {R : Type} [GeneralizedBooleanAlgebra R] (l : FillRegions R)
    (newexpolys : List R) : FillRegions R :=
  if newexpolys.length = 0 then l
  else
    { l with
      bridgePolygons := regionOf (newexpolys.map (fun n => l.fillPolygons ⊓ n))
      fillPolygons := l.fillPolygons \ regionOf newexpolys }

/-- `Layer::addFullPolygons (newpolys, decor)`: nothing happens for an empty vector.  The subject
is `fillPolygons`, together with `fullFillPolygons` when `decor` is set; `inter` is its
intersection with `newpolys` and `normals` its difference.  With `decor` the intersection is
appended to `decorPolygons` and subtracted from `fullFillPolygons`; without, it is appended to
`fullFillPolygons`.  In both cases `fillPolygons` becomes `normals`. -/
def addFullPolygons {R : Type} [GeneralizedBooleanAlgebra R] (l : FillRegions R)
    (newpolys : List R) (decor : Bool) : FillRegions R :=
  if newpolys.length = 0 then l
  else
    let subject := if decor then l.fillPolygons ⊔ l.fullFillPolygons else l.fillPolygons
    let inter := subject ⊓ regionOf newpolys
    let normals := subject \ regionOf newpolys
    if decor then
      { l with
        decorPolygons := l.decorPolygons ⊔ inter
        fullFillPolygons := l.fullFillPolygons \ inter
        fillPolygons := normals }
    else
      { l with
        fullFillPolygons := l.fullFillPolygons ⊔ inter
        fillPolygons := normals }

/-- `Layer::mergeFullPolygons`: `fullFillPolygons` is merged with itself (the same region) and
`fillPolygons` becomes `fillPolygons \ (fullFillPolygons ∪ decorPolygons)`. -/
def mergeFullPolygons {R : Type} [GeneralizedBooleanAlgebra R] (l : FillRegions R) :
    FillRegions R :=
  { l with fillPolygons := l.fillPolygons \ (l.fullFillPolygons ⊔ l.decorPolygons) }

/-- The normal-fill, full-fill, bridge and decor regions are pairwise disjoint. -/
def FillRegions.PairwiseDisjoint {R : Type} [GeneralizedBooleanAlgebra R] (l : FillRegions R) :
    Prop :=
  l.fillPolygons ⊓ l.fullFillPolygons = ⊥ ∧ l.fillPolygons ⊓ l.bridgePolygons = ⊥ ∧
  l.fillPolygons ⊓ l.decorPolygons = ⊥ ∧ l.fullFillPolygons ⊓ l.bridgePolygons = ⊥ ∧
  l.fullFillPolygons ⊓ l.decorPolygons = ⊥ ∧ l.bridgePolygons ⊓ l.decorPolygons = ⊥

instance {R : Type} [GeneralizedBooleanAlgebra R] [DecidableEq R] (l : FillRegions R) :
    Decidable l.PairwiseDisjoint := by
  unfold FillRegions.PairwiseDisjoint
  infer_instance

/-! ## Shell rings (`Layer::FindThinpolys`, `Layer::MakeShells`, `GetInnerShell`,
`GetOuterShell`, layer.cpp 416-435 and 526-605) -/

/-- The functions of `Clipping` and `Poly` that `MakeShells` calls; their sources are not part
of the sources at hand, so they are parameters.  `subtract subject clip` is the result of
`clipp.subtract ()` after `addPolys (subject, subject)` and `addPolys (clip, clip)`. -/
structure ShellEnv where
  getOffset : List Poly → ℚ → List Poly
  subtract : List Poly → List Poly → List Poly
  cleanup : Poly → ℚ → Poly
  setExtrusionFactor : Poly → ℚ → Poly

/-- The values `MakeShells` reads from `Settings`: `GetExtrudedMaterialWidth (thickness,
extruder)`, `RoundedLinewidthCorrection (extrudedWidth, thickness)`, `Slicing/ShellOffset`,
`Slicing/ShellCount`, `Slicing/InfillOverlap` and `Slicing/DoInfill`. -/
structure ShellSettings where
  extrudedWidth : ℚ
  roundline_extrfactor : ℚ
  shelloffset : ℚ
  shellcount : Nat
  infilloverlap : ℚ
  doInfill : Bool

/-- The members of `Layer` that `MakeShells` reads and writes. -/
structure ShellLayer where
  polygons : List Poly
  thickness : ℚ
  skins : Nat
  shellPolygons : List (List Poly)
  skinPolygons : List Poly
  thinPolygons : List Poly
  fillPolygons : List Poly
deriving DecidableEq

/-- `Layer::FindThinpolys (polys, extrwidth, thickpolys, thinpolys)` with `THINPOLYS` set;
returns `(thickpolys, thinpolys)`. -/
def FindThinpolys (env : ShellEnv) (polys : List Poly) (extrwidth : ℚ) :
    List Poly × List Poly :=
  let thickpolys := env.getOffset polys (-(1 / 2) * extrwidth)
  let thickpolys := env.getOffset thickpolys ((11 / 20) * extrwidth)
  let bigthick := env.getOffset thickpolys extrwidth
  let thinpolys := env.subtract polys bigthick
  (env.getOffset thickpolys (-(1 / 20) * extrwidth), thinpolys)

/-- One pass of the loop `for (uint i = 1; i < shellcount; i++)` on `shrinked`: inward offset by
`extrudedWidth`, `FindThinpolys`, `cleanup`; returns the new `shrinked` (the ring that is
pushed) and the thin polygons found. -/
def shellStep (env : ShellEnv) (extrudedWidth cleandist : ℚ) (shrinked : List Poly) :
    List Poly × List Poly :=
  let shrinked := env.getOffset shrinked (-extrudedWidth)
  let ft := FindThinpolys env shrinked extrudedWidth
  (ft.1.map (fun p => env.cleanup p cleandist), ft.2)

/-- The loop `for (uint i = 1; i < shellcount; i++)` with `n` passes left, on the variables
`shrinked`, `shellPolygons` and `thinPolygons`. -/
def innerShellLoop (env : ShellEnv) (extrudedWidth cleandist : ℚ) :
    Nat → List Poly → List (List Poly) → List Poly → List Poly × List (List Poly) × List Poly
  | 0, shrinked, shells, thin => (shrinked, shells, thin)
  | n + 1, shrinked, shells, thin =>
    let r := shellStep env extrudedWidth cleandist shrinked
    innerShellLoop env extrudedWidth cleandist n r.1 (shells ++ [r.1]) (thin ++ r.2)

/-- `Layer::MakeShells` (the convex hull computed at the end is not part of the state). -/
def MakeShells (env : ShellEnv) (settings : ShellSettings) (l : ShellLayer) : ShellLayer :=
  let extrudedWidth := settings.extrudedWidth
  let distance := (1 / 2) * extrudedWidth
  let cleandist := min (distance / CLEANFACTOR) (l.thickness / CLEANFACTOR)
  let shrinked := env.getOffset l.polygons (-2 / M_PI * extrudedWidth - settings.shelloffset)
  let ft := FindThinpolys env shrinked extrudedWidth
  let thin := ft.2.map (fun p => env.cleanup p cleandist)
  let shrinked := ft.1.map (fun p => env.cleanup p cleandist)
  let l := { l with thinPolygons := thin }
  let r : List Poly × ShellLayer :=
    if settings.shellcount > 0 then
      let first :=
        if l.skins > 1 then
          shrinked.map (fun p =>
            env.setExtrusionFactor p (1 / (l.skins : ℚ) * settings.roundline_extrfactor))
        else shrinked.map (fun p => env.setExtrusionFactor p settings.roundline_extrfactor)
      let l := if l.skins > 1 then { l with skinPolygons := first }
        else { l with shellPolygons := [first] }
      let q := innerShellLoop env extrudedWidth cleandist (settings.shellcount - 1) first
        l.shellPolygons l.thinPolygons
      (q.1, { l with shellPolygons := q.2.1, thinPolygons := q.2.2 })
    else (shrinked, l)
  if settings.doInfill then
    { r.2 with
      fillPolygons := (env.getOffset r.1 (-(1 - settings.infilloverlap) * extrudedWidth)).map
        (fun p => env.cleanup p cleandist) }
  else r.2

/-- `Layer::GetInnerShell`. -/
def GetInnerShell (l : ShellLayer) : List Poly :=
  match l.shellPolygons.getLast? with
  | some ring => ring
  | none => if l.skinPolygons.length > 0 then l.skinPolygons else l.polygons

/-- `Layer::GetOuterShell`. -/
def GetOuterShell (l : ShellLayer) : List Poly :=
  if l.skinPolygons.length > 0 then l.skinPolygons
  else
    match l.shellPolygons.head? with
    | some ring => ring
    | none => if l.fillPolygons.length > 0 then l.fillPolygons else l.polygons

/-- The ring pushed by one pass of the inner-shell loop, as a function of the previous ring. -/
def nextRing (env : ShellEnv) (settings : ShellSettings) (l : ShellLayer) (ring : List Poly) :
    List Poly :=
  (shellStep env settings.extrudedWidth
    (min ((1 / 2) * settings.extrudedWidth / CLEANFACTOR) (l.thickness / CLEANFACTOR)) ring).1

/-- The ring pushed first by `MakeShells` when there are no skins (`skins <= 1`): the outline
after the global offset, without its thin parts, cleaned up, with the extrusion factor set. -/
def firstRing (env : ShellEnv) (settings : ShellSettings) (l : ShellLayer) : List Poly :=
  ((FindThinpolys env
      (env.getOffset l.polygons (-2 / M_PI * settings.extrudedWidth - settings.shelloffset))
      settings.extrudedWidth).1.map
    (fun p => env.cleanup p
      (min ((1 / 2) * settings.extrudedWidth / CLEANFACTOR) (l.thickness / CLEANFACTOR)))).map
    (fun p => env.setExtrusionFactor p settings.roundline_extrfactor)

/-- A clipping engine for axis-parallel squares centred at the origin: an offset by `d` moves
every vertex by `d` away from both axes, nothing is ever thin, and `cleanup` and
`setExtrusionFactor` keep the vertices. -/
def squareEnv : ShellEnv where
  getOffset polys d := polys.map (fun p =>
    { p with vertices := p.vertices.map (fun v =>
        ⟨v.x + (if v.x < 0 then -d else d), v.y + (if v.y < 0 then -d else d)⟩) })
  subtract _ _ := []
  cleanup p _ := p
  setExtrusionFactor p _ := p

/-- The square with corners `(±w, ±w)`. -/
def square (w : ℚ) : Poly := ⟨[⟨-w, -w⟩, ⟨w, -w⟩, ⟨w, w⟩, ⟨-w, w⟩], 0, false⟩



/-- A layer holding one square outline of half-width 10, no skins, nothing computed yet. -/
def squareLayer : ShellLayer := ⟨[square 10], 1, 1, [], [], [], []⟩

/-- Settings with extrusion width 1, no shell offset, two shells and no infill. -/
def twoShells : ShellSettings := ⟨1, 1, 0, 2, 0, false⟩

/-! ## `Layer::GetShellPolygonsCirc` (layer.cpp 442-447) -/

/-- Conversion of an integer value to `size_t` (64 bits, unsigned): reduction modulo `2^64`. -/
def toSizeT (v : Int) : Nat := (v % 2 ^ 64).toNat

/-- Conversion of an integer value to `int` (32 bits, two's complement). -/
def toInt32 (v : Int) : Int := (v + 2 ^ 31) % 2 ^ 32 - 2 ^ 31

/-- `Layer::GetShellPolygonsCirc (number)`:
`number = (shellPolygons.size() + number) % shellPolygons.size(); return shellPolygons[number];`
The sum is computed in `size_t` after converting `number`, the remainder is stored back into the
`int`, and the subscript converts it to `size_t` again.  `none` stands for undefined behaviour:
remainder by zero for an empty vector, or a subscript out of range. -/
def GetShellPolygonsCirc (shellPolygons : List (List Poly)) (number : Int) :
    Option (List Poly) :=
  if shellPolygons.length = 0 then none
  else
    let number := toInt32
      (((shellPolygons.length + toSizeT number) % 2 ^ 64 % shellPolygons.length : Nat) : Int)
    shellPolygons[toSizeT number]?

/-- Three rings, squares of half-widths 3, 2 and 1. -/
def threeRings : List (List Poly) := [[square 3], [square 2], [square 1]]

/-- Sample mesh with a single wall: its only cut line runs from `(0,0)` to `(50,0)`. -/
def longWall : Shape WallTriangle Unit where
  triangles := [⟨⟨2, ⟨0, 0⟩, ⟨50, 0⟩⟩, false⟩]
  transform3D := ()

/-! ## `Infill::addInfillPoly` (infill.cpp 167-195) and sample environments -/

/-- Sample environment whose `rotate` is the quarter turn about the given centre, whatever the
angle; `getClipperPolygons` is that of `sampleEnv`. -/
def quarterTurnEnv : InfillEnv where
  rotate := fun p c _ =>
    { p with vertices := p.vertices.map (fun v => ⟨c.x - (v.y - c.y), c.y + (v.x - c.x)⟩) }
  getClipperPolygons := sampleEnv.getClipperPolygons

/-- Modelled from the spec: `Poly::getVertexCircular (i)` is the vertex at index `i mod n` of a
polygon with `n` vertices (its source is not part of the sources at hand). -/
def getVertexCircular (p : Poly) (i : Nat) : Vector2d :=
  vertexAt p.vertices (i % p.vertices.length)

/-- The edge vector `l` of edge `i` rotated as in `addInfillPoly`, for given values `sina` and
`cosa`: `rotl = (l.x*cosa - l.y*sina, l.y*cosa + l.x*sina)`. -/
def rotatedEdge (sina cosa : ℚ) (p : Poly) (i : Nat) : Vector2d :=
  ⟨((getVertexCircular p (i + 1)).x - (getVertexCircular p i).x) * cosa -
      ((getVertexCircular p (i + 1)).y - (getVertexCircular p i).y) * sina,
    ((getVertexCircular p (i + 1)).y - (getVertexCircular p i).y) * cosa +
      ((getVertexCircular p (i + 1)).x - (getVertexCircular p i).x) * sina⟩

/-- The test `ABS(rotl.x) < 0.1 && ABS(rotl.y) > 0.1` for edge `i`. -/
def keepsEdge (sina cosa : ℚ) (p : Poly) (i : Nat) : Bool :=
  decide (|(rotatedEdge sina cosa p i).x| < 1 / 10) &&
    decide (|(rotatedEdge sina cosa p i).y| > 1 / 10)

/-- The two-vertex polygon pushed for edge `i`; it is constructed from the plane of `p`. -/
def edgeLine (p : Poly) (i : Nat) : Poly :=
  ⟨[getVertexCircular p i, getVertexCircular p (i + 1)], p.z, false⟩

/-- Embedding of `Infill::addInfillPoly (p)`; `sin` and `cos` are the functions of the C
library. -/
def addInfillPoly (sin cos : ℚ → ℚ) (self : Infill) (p : Poly) : Infill :=
  if self.type = InfillType.ParallelInfill then
    let sina := sin (-self.angle)
    let cosa := cos (-self.angle)
    { self with
      infillpolys := (List.range p.vertices.length).foldl
        (fun polys i => if keepsEdge sina cosa p i = true then polys ++ [edgeLine p i] else polys)
        self.infillpolys }
  else { self with infillpolys := self.infillpolys ++ [p] }

/-! ## The doubled bounding box of `makeInfillPattern` (infill.cpp 109-117) -/

/-- `center = (Min+Max)/2` for the bounding box of the plane. -/
def boxCenter (plane : CuttingPlane) : Vector2d :=
  ⟨(plane.Min.x + plane.Max.x) / 2, (plane.Min.y + plane.Max.y) / 2⟩

/-- `Min = center + (plane->Min - center)*2`. -/
def doubledMin (plane : CuttingPlane) : Vector2d :=
  ⟨(boxCenter plane).x + (plane.Min.x - (boxCenter plane).x) * 2,
    (boxCenter plane).y + (plane.Min.y - (boxCenter plane).y) * 2⟩

/-- `Max = center + (plane->Max - center)*2`. -/
def doubledMax (plane : CuttingPlane) : Vector2d :=
  ⟨(boxCenter plane).x + (plane.Max.x - (boxCenter plane).x) * 2,
    (boxCenter plane).y + (plane.Max.y - (boxCenter plane).y) * 2⟩

/-- A vertex list spans the rectangle `[Min, Max]`: it has a vertex on or beyond each of the
four sides. -/
def Spans (vs : List Vector2d) (Min Max : Vector2d) : Prop :=
  (∃ v ∈ vs, v.x ≤ Min.x) ∧ (∃ v ∈ vs, Max.x ≤ v.x) ∧
  (∃ v ∈ vs, v.y ≤ Min.y) ∧ (∃ v ∈ vs, Max.y ≤ v.y)

/-- An `Infill` on the plane with bounding box `(0,0)-(4,4)`. -/
def smallInfill : Infill := ⟨⟨⟨0, 0⟩, ⟨4, 4⟩, 0⟩, InfillType.ParallelInfill, 0, []⟩

/-- An `Infill` on the plane with bounding box `(0,0)-(100,100)`. -/
def largeInfill : Infill := ⟨⟨⟨0, 0⟩, ⟨100, 100⟩, 0⟩, InfillType.ParallelInfill, 0, []⟩

/-! ## Coverage of the bounding box by the rotated pattern rectangle -/

/-- Modelled from the spec: the rotation about `center` by the angle with cosine `cs` and sine
`sn` (`Poly::rotate` applies it to every vertex; its source is not part of the sources at
hand). -/
def rotateAbout (center : Vector2d) (cs sn : ℚ) (p : Vector2d) : Vector2d :=
  ⟨center.x + ((p.x - center.x) * cs - (p.y - center.y) * sn),
    center.y + ((p.x - center.x) * sn + (p.y - center.y) * cs)⟩

/-- The point `p` lies in the rectangle `[Min, Max]`. -/
def inBox (Min Max p : Vector2d) : Prop :=
  Min.x ≤ p.x ∧ p.x ≤ Max.x ∧ Min.y ≤ p.y ∧ p.y ≤ Max.y

/-- The point `p` lies inside the pattern rectangle of the plane (its bounding box scaled by 2
about the centre, infill.cpp 109-117) after that rectangle is rotated about the centre: `p` is
the image of a point of the rectangle. -/
def inRotatedPattern (plane : CuttingPlane) (cs sn : ℚ) (p : Vector2d) : Prop :=
  ∃ q, inBox (doubledMin plane) (doubledMax plane) q ∧ rotateAbout (boxCenter plane) cs sn q = p

/-! # Theorems -/

/-! ## `getLineSequences` visits every segment exactly once -/

theorem seqInv_init (lines : List Segment) : SeqInv lines (lineInit lines []) := by
  refine ⟨by simp [lineInit], ?_, by simp [visited, lineInit], by simp [visited, lineInit],
    by simp [visited, lineInit]⟩
  intro l hl
  simp [visited, lineInit, List.getElem?_replicate, hl]

theorem exists_undone {lines : List Segment} {s : SeqState} (h : SeqInv lines s)
    (hlt : s.donelines < lines.length) :
    ∃ l, l < lines.length ∧ s.linedone.getD l false = false := by
  by_contra hcon
  push_neg at hcon
  have hsub : List.range lines.length ⊆ visited s := by
    intro l hl
    have hl2 : l < lines.length := List.mem_range.mp hl
    have := hcon l hl2
    exact (h.done_iff l hl2).mp (by simpa using this)
  have hle := (List.subperm_of_subset (List.nodup_range _) hsub).length_le
  rw [List.length_range, ← h.count] at hle
  omega

theorem mem_findConnections {lines : List Segment} {ld : List Bool} {sq : List Nat} {c : Nat} :
    c ∈ findConnections lines ld sq ↔
      c < lines.length ∧ ld.getD c false = false ∧
        (sq = [] ∨ (lineAt lines c).start = (lineAt lines (sq.getLastD 0)).end_) := by
  unfold findConnections
  rw [List.mem_filter, List.mem_range]
  cases sq <;> simp

/-- Marking an unused valid index keeps the loop invariant, whatever the pass does with the
sequences, as long as the visiting order is extended by that index. -/
theorem seqInv_mark {lines : List Segment} {s t : SeqState} (h : SeqInv lines s) {l : Nat}
    (hl : l < lines.length) (hu : s.linedone.getD l false = false)
    (hld : t.linedone = s.linedone.set l true) (hv : visited t = visited s ++ [l])
    (hd : t.donelines = s.donelines + 1) : SeqInv lines t := by
  have hnot : l ∉ visited s := fun hm => by
    have := (h.done_iff l hl).mpr hm
    rw [hu] at this
    exact Bool.false_ne_true this
  refine ⟨by rw [hld, List.length_set, h.len], ?_, ?_, ?_, ?_⟩
  · intro k hk
    rw [hld, hv, List.mem_append, List.mem_singleton, ← h.done_iff k hk]
    by_cases hkl : k = l
    · subst hkl
      simp [List.getElem?_set, h.len, hk]
    · have : l ≠ k := fun e => hkl e.symm
      simp [List.getElem?_set_ne this, hkl]
  · rw [hv]
    exact List.Nodup.append h.nodup (List.nodup_singleton l) (by simpa using hnot)
  · intro k hk
    rw [hv, List.mem_append, List.mem_singleton] at hk
    rcases hk with hk | hk
    · exact h.bound k hk
    · exact hk ▸ hl
  · rw [hd, hv, List.length_append, h.count]
    rfl

theorem linePass_cons {lines : List Segment} {s : SeqState} {c : Nat} {rest : List Nat}
    (hc : findConnections lines s.linedone s.sequence = c :: rest) :
    linePass lines s =
      if (lineAt lines ((s.sequence ++ [c]).headD 0)).start = (lineAt lines c).end_ then
        { linedone := s.linedone.set c true, sequence := [], donelines := s.donelines + 1,
          connectedlines := s.connectedlines ++ [s.sequence ++ [c]] }
      else
        { linedone := s.linedone.set c true, sequence := s.sequence ++ [c],
          donelines := s.donelines + 1, connectedlines := s.connectedlines } := by
  unfold linePass
  rw [hc]
  simp only [List.getLastD_concat]

theorem linePass_nil {lines : List Segment} {s : SeqState}
    (hc : findConnections lines s.linedone s.sequence = []) :
    linePass lines s =
      match firstUndone lines s.linedone with
      | some l =>
        { linedone := s.linedone.set l true, sequence := [l], donelines := s.donelines + 1,
          connectedlines := s.connectedlines ++ [s.sequence] }
      | none =>
        { linedone := s.linedone, sequence := [], donelines := s.donelines,
          connectedlines := s.connectedlines ++ [s.sequence] } := by
  unfold linePass
  rw [hc]

theorem linePass_mark {lines : List Segment} {s : SeqState} (h : SeqInv lines s)
    (hlt : s.donelines < lines.length) :
    ∃ l, l < lines.length ∧ s.linedone.getD l false = false ∧
      (linePass lines s).linedone = s.linedone.set l true ∧
      visited (linePass lines s) = visited s ++ [l] ∧
      (linePass lines s).donelines = s.donelines + 1 := by
  cases hc : findConnections lines s.linedone s.sequence with
  | cons c rest =>
    have hmem : c ∈ findConnections lines s.linedone s.sequence := by rw [hc]; simp
    obtain ⟨h1, h2, -⟩ := mem_findConnections.mp hmem
    refine ⟨c, h1, h2, ?_⟩
    rw [linePass_cons hc]
    split <;> simp [visited]
  | nil =>
    obtain ⟨l, hl, hu⟩ := exists_undone h hlt
    rw [linePass_nil hc]
    cases hf : firstUndone lines s.linedone with
    | none =>
      unfold firstUndone at hf
      rw [List.find?_eq_none] at hf
      have := hf l (List.mem_range.mpr hl)
      rw [hu] at this
      simp at this
    | some k =>
      unfold firstUndone at hf
      have hk1 := List.mem_range.mp (List.mem_of_find?_eq_some hf)
      have hk2 := List.find?_some hf
      refine ⟨k, hk1, by simpa using hk2, ?_⟩
      simp [visited]


theorem linePass_inv {lines : List Segment} {s : SeqState} (h : SeqInv lines s)
    (hlt : s.donelines < lines.length) :
    SeqInv lines (linePass lines s) ∧ (linePass lines s).donelines = s.donelines + 1 := by
  obtain ⟨l, h1, h2, h3, h4, h5⟩ := linePass_mark h hlt
  exact ⟨seqInv_mark h h1 h2 h3 h4 h5, h5⟩

/-- Running the loop from a state satisfying the invariant (and any further property `P` kept by
the passes): it needs exactly as many passes as there are unmarked lines. -/
theorem lineLoop_run {lines : List Segment} (P : SeqState → Prop)
    (hP : ∀ s, SeqInv lines s → P s → s.donelines < lines.length → P (linePass lines s)) :
    ∀ (k : Nat) (s : SeqState), SeqInv lines s → P s → s.donelines + k = lines.length →
      lineLoop lines k s = some ((linePass lines)^[k] s) ∧
      SeqInv lines ((linePass lines)^[k] s) ∧ P ((linePass lines)^[k] s) ∧
      ((linePass lines)^[k] s).donelines = lines.length ∧
      ∀ fuel, fuel < k → lineLoop lines fuel s = none := by
  intro k
  induction k with
  | zero =>
    intro s hs hp hk
    have : ¬ s.donelines < lines.length := by omega
    refine ⟨by simp [lineLoop, this], hs, hp, by simpa using hk, ?_⟩
    intro fuel hf
    omega
  | succ k ih =>
    intro s hs hp hk
    have hlt : s.donelines < lines.length := by omega
    obtain ⟨hs2, hd⟩ := linePass_inv hs hlt
    obtain ⟨h1, h2, h3, h4, h5⟩ := ih (linePass lines s) hs2 (hP s hs hp hlt) (by omega)
    refine ⟨?_, ?_, ?_, ?_, ?_⟩
    · rw [Function.iterate_succ_apply, ← h1]
      simp [lineLoop, hlt]
    · rw [Function.iterate_succ_apply]; exact h2
    · rw [Function.iterate_succ_apply]; exact h3
    · rw [Function.iterate_succ_apply]; exact h4
    · intro fuel hf
      cases fuel with
      | zero => simp [lineLoop, hlt]
      | succ f =>
        have := h5 f (by omega)
        simp [lineLoop, hlt, this]

theorem iterate_inv (lines : List Segment) :
    ∀ k, k ≤ lines.length →
      SeqInv lines ((linePass lines)^[k] (lineInit lines [])) ∧
      ((linePass lines)^[k] (lineInit lines [])).donelines = k := by
  intro k
  induction k with
  | zero => intro _; exact ⟨seqInv_init lines, rfl⟩
  | succ k ih =>
    intro hk
    obtain ⟨h1, h2⟩ := ih (by omega)
    rw [Function.iterate_succ_apply']
    obtain ⟨h3, h4⟩ := linePass_inv h1 (by omega)
    exact ⟨h3, by rw [h4, h2]⟩

theorem perm_range_of_inv {lines : List Segment} {s : SeqState} (h : SeqInv lines s)
    (hd : s.donelines = lines.length) : (visited s).Perm (List.range lines.length) := by
  have hsub : visited s ⊆ List.range lines.length := fun l hl =>
    List.mem_range.mpr (h.bound l hl)
  refine (List.subperm_of_subset h.nodup hsub).perm_of_length_le ?_
  rw [List.length_range, ← hd, h.count]

theorem lineLoop_mono (lines : List Segment) :
    ∀ (fuel : Nat) (s r : SeqState), lineLoop lines fuel s = some r →
      ∀ fuel2, fuel ≤ fuel2 → lineLoop lines fuel2 s = some r := by
  intro fuel
  induction fuel with
  | zero =>
    intro s r h fuel2 _
    by_cases hc : s.donelines < lines.length
    · simp [lineLoop, hc] at h
    · cases fuel2 <;> simpa [lineLoop, hc] using h
  | succ fuel ih =>
    intro s r h fuel2 hf
    by_cases hc : s.donelines < lines.length
    · cases fuel2 with
      | zero => omega
      | succ f2 =>
        simp only [lineLoop, hc, if_true] at h ⊢
        exact ih _ _ h f2 (by omega)
    · cases fuel2 <;> simpa [lineLoop, hc] using h

/-- Any fuel of at least the number of lines gives `getLineSequences` the same result. -/
theorem getLineSequences_fuel (lines : List Segment) (fuel : Nat) (hf : lines.length ≤ fuel) :
    getLineSequences fuel lines [] = getLineSequences lines.length lines [] := by
  obtain ⟨h1, -, -, -, -⟩ := lineLoop_run (fun _ => True) (fun _ _ _ _ => trivial)
    lines.length (lineInit lines []) (seqInv_init lines) trivial (by simp [lineInit])
  simp only [getLineSequences, h1, lineLoop_mono lines _ _ _ h1 fuel hf]

/-- Result of `getLineSequences` on an empty `connectedlines`, in terms of the final loop state:
the sequences returned are, concatenated, the visiting order. -/
theorem getLineSequences_eq (lines : List Segment) :
    ∃ cl, getLineSequences lines.length lines [] = some (true, cl) ∧
      cl.flatten = visited ((linePass lines)^[lines.length] (lineInit lines [])) ∧
      (∀ sq ∈ cl, sq ∈ ((linePass lines)^[lines.length] (lineInit lines [])).connectedlines ∨
        (sq = ((linePass lines)^[lines.length] (lineInit lines [])).sequence ∧ sq ≠ [])) := by
  by_cases hn : lines.length = 0
  · refine ⟨[], by simp [getLineSequences, hn], ?_, by simp⟩
    rw [hn]
    simp [visited, lineInit]
  · obtain ⟨h1, -, -, -, -⟩ := lineLoop_run (fun _ => True) (fun _ _ _ _ => trivial)
      lines.length (lineInit lines []) (seqInv_init lines) trivial (by simp [lineInit])
    unfold getLineSequences
    rw [if_neg hn, h1]
    by_cases hsq : ((linePass lines)^[lines.length] (lineInit lines [])).sequence.length > 0
    · refine ⟨((linePass lines)^[lines.length] (lineInit lines [])).connectedlines ++
          [((linePass lines)^[lines.length] (lineInit lines [])).sequence],
        by simp only [hsq, if_true], by simp [visited], ?_⟩
      intro sq hmem
      rw [List.mem_append, List.mem_singleton] at hmem
      rcases hmem with hmem | hmem
      · exact Or.inl hmem
      · refine Or.inr ⟨hmem, ?_⟩
        rw [hmem]
        exact List.ne_nil_of_length_pos hsq
    · refine ⟨((linePass lines)^[lines.length] (lineInit lines [])).connectedlines,
        by simp only [hsq, if_false], ?_, fun sq hmem => Or.inl hmem⟩
      have : ((linePass lines)^[lines.length] (lineInit lines [])).sequence = [] := by
        simpa using hsq
      simp [visited, this]

/-- C2. `getLineSequences` terminates and visits every segment exactly once: for a list of `n`
segments the `k`-th pass (`k < n`) starts with `donelines = k`, so the loop condition holds, and
marks exactly one segment that was not marked before; the loop ends after exactly `n` passes
(fuel `n` suffices and no smaller fuel does); the function returns true, with the same result for
every fuel of at least `n`; and the concatenation of the sequences appended to an empty
`connectedlines` is a permutation of the indices `0..n-1`. -/
theorem getLineSequences_visits_each_once (lines : List Segment) :
    (∀ k, k < lines.length →
      ((linePass lines)^[k] (lineInit lines [])).donelines = k ∧
      ∃ l, l < lines.length ∧
        ((linePass lines)^[k] (lineInit lines [])).linedone.getD l false = false ∧
        ((linePass lines)^[k + 1] (lineInit lines [])).linedone =
          ((linePass lines)^[k] (lineInit lines [])).linedone.set l true) ∧
    lineLoop lines lines.length (lineInit lines []) =
      some ((linePass lines)^[lines.length] (lineInit lines [])) ∧
    ((linePass lines)^[lines.length] (lineInit lines [])).donelines = lines.length ∧
    (∀ fuel, fuel < lines.length → lineLoop lines fuel (lineInit lines []) = none) ∧
    ∃ cl, (∀ fuel, lines.length ≤ fuel → getLineSequences fuel lines [] = some (true, cl)) ∧
      cl.flatten.Perm (List.range lines.length) := by
  obtain ⟨h1, -, -, h4, h5⟩ := lineLoop_run (fun _ => True) (fun _ _ _ _ => trivial)
      lines.length (lineInit lines []) (seqInv_init lines) trivial (by simp [lineInit])
  refine ⟨?_, h1, h4, h5, ?_⟩
  · intro k hk
    obtain ⟨hi, hd⟩ := iterate_inv lines k (by omega)
    refine ⟨hd, ?_⟩
    obtain ⟨l, hl, hu, hset, -, -⟩ := linePass_mark hi (by omega)
    exact ⟨l, hl, hu, by rw [Function.iterate_succ_apply']; exact hset⟩
  · obtain ⟨cl, hcl, hfl, -⟩ := getLineSequences_eq lines
    refine ⟨cl, fun fuel hf => by rw [getLineSequences_fuel lines fuel hf, hcl], ?_⟩
    rw [hfl]
    obtain ⟨hi, hd⟩ := iterate_inv lines lines.length le_rfl
    exact perm_range_of_inv hi hd

theorem undoneCount_replicate (p : Segment → Bool) (lines : List Segment) :
    undoneCount p lines (List.replicate lines.length false) = lines.countP p := by
  induction lines with
  | nil => simp [undoneCount]
  | cons a t ih =>
    simp only [List.length_cons, List.replicate_succ, undoneCount, ih, List.countP_cons]
    simp [Nat.add_comm]

theorem undoneCount_set (p : Segment → Bool) :
    ∀ (lines : List Segment) (ld : List Bool) (c : Nat), ld.length = lines.length →
      c < lines.length → ld.getD c false = false →
      undoneCount p lines ld =
        undoneCount p lines (ld.set c true) + (if p (lineAt lines c) then 1 else 0) := by
  intro lines
  induction lines with
  | nil => intro ld c _ hc; simp at hc
  | cons a t ih =>
    intro ld c hlen hc hu
    cases ld with
    | nil => simp at hlen
    | cons d ds =>
      cases c with
      | zero =>
        simp at hu
        subst hu
        simp [undoneCount, lineAt]
        omega
      | succ c =>
        have := ih ds c (by simpa using hlen) (by simpa using hc) (by simpa using hu)
        simp only [List.set_cons_succ, undoneCount, this]
        simp [lineAt]
        omega

theorem undoneCount_pos (p : Segment → Bool) :
    ∀ (lines : List Segment) (ld : List Bool), 0 < undoneCount p lines ld →
      ∃ l, l < lines.length ∧ ld.getD l false = false ∧ p (lineAt lines l) = true := by
  intro lines
  induction lines with
  | nil => intro ld h; simp [undoneCount] at h
  | cons a t ih =>
    intro ld h
    cases ld with
    | nil => simp [undoneCount] at h
    | cons d ds =>
      simp only [undoneCount] at h
      by_cases hd : (!d && p a) = true
      · refine ⟨0, by simp, ?_, ?_⟩
        · simp at hd ⊢; exact hd.1
        · simp at hd; simpa [lineAt] using hd.2
      · rw [if_neg hd, Nat.zero_add] at h
        obtain ⟨l, h1, h2, h3⟩ := ih ds h
        refine ⟨l + 1, by simpa using h1, by simpa using h2, by simpa [lineAt] using h3⟩

theorem closedLoop_of_chain {lines : List Segment} {sq : List Nat} (hne : sq ≠ [])
    (hch : List.Chain' (fun a b => (lineAt lines b).start = (lineAt lines a).end_) sq)
    (hcl : (lineAt lines (sq.headD 0)).start = (lineAt lines (sq.getLastD 0)).end_) :
    ClosedLoop lines sq := by
  refine ⟨hne, ?_, hcl.symm⟩
  intro k hk
  have := List.chain'_iff_get.mp hch k (by omega)
  simpa [List.getD_eq_getElem?_getD, List.getElem?_eq_getElem, hk, Nat.lt_of_succ_lt hk]
    using this

theorem findConnections_ne_nil {lines : List Segment} {s : SeqState} (h : SeqInv lines s)
    (hb : LoopInv lines s) (hlt : s.donelines < lines.length) :
    findConnections lines s.linedone s.sequence ≠ [] := by
  by_cases hsq : s.sequence = []
  · obtain ⟨l, hl, hu⟩ := exists_undone h hlt
    exact List.ne_nil_of_mem (mem_findConnections.mpr ⟨hl, hu, Or.inl hsq⟩)
  · have hdeg := hb.degree (lineAt lines (s.sequence.getLastD 0)).end_
    have hop := hb.opened hsq
    rw [if_neg (fun hc => hop hc.2), if_pos ⟨hsq, rfl⟩] at hdeg
    obtain ⟨l, hl, hu, hp⟩ := undoneCount_pos
      (fun x => decide (x.start = (lineAt lines (s.sequence.getLastD 0)).end_)) lines s.linedone
      (by omega)
    exact List.ne_nil_of_mem (mem_findConnections.mpr ⟨hl, hu, Or.inr (by simpa using hp)⟩)

theorem linePass_loopInv {lines : List Segment} {s : SeqState} (h : SeqInv lines s)
    (hb : LoopInv lines s) (hlt : s.donelines < lines.length) :
    LoopInv lines (linePass lines s) := by
  cases hc : findConnections lines s.linedone s.sequence with
  | nil => exact absurd hc (findConnections_ne_nil h hb hlt)
  | cons c rest =>
    have hmem : c ∈ findConnections lines s.linedone s.sequence := by rw [hc]; simp
    obtain ⟨hcn, hcu, hcs⟩ := mem_findConnections.mp hmem
    have hchain : List.Chain' (fun a b => (lineAt lines b).start = (lineAt lines a).end_)
        (s.sequence ++ [c]) := by
      rw [List.chain'_append]
      refine ⟨hb.chain, List.chain'_singleton c, ?_⟩
      intro x hx y hy
      simp only [List.head?_cons, Option.mem_def, Option.some.injEq] at hy
      subst hy
      rcases hcs with hcs | hcs
      · rw [hcs] at hx; simp at hx
      · rw [hcs]
        have : s.sequence.getLastD 0 = x := by
          rw [List.getLastD_eq_getLast?, Option.mem_def.mp hx]; rfl
        rw [this]
    have hout := fun v : Int => undoneCount_set (fun x => decide (x.start = v)) lines s.linedone c
      h.len hcn hcu
    have hin := fun v : Int => undoneCount_set (fun x => decide (x.end_ = v)) lines s.linedone c
      h.len hcn hcu
    rw [linePass_cons hc]
    split
    · rename_i hseal
      refine ⟨?_, List.chain'_nil, fun hne => absurd rfl hne, ?_⟩
      · intro sq hsq
        rw [List.mem_append, List.mem_singleton] at hsq
        rcases hsq with hsq | hsq
        · exact hb.closed sq hsq
        · rw [hsq]
          exact closedLoop_of_chain (by simp) hchain (by rw [List.getLastD_concat]; exact hseal)
      · intro v
        have h1 := hout v
        have h2 := hin v
        have h3 := hb.degree v
        simp only [decide_eq_true_eq] at h1 h2
        simp only [ne_eq, not_true_eq_false, false_and, if_false, Nat.add_zero]
        by_cases hsq : s.sequence = []
        · simp only [hsq, List.nil_append, List.headD_cons, ne_eq, not_true_eq_false, false_and,
            if_false, Nat.add_zero] at hseal h3 ⊢
          rw [hseal] at h1
          omega
        · have hhead : (s.sequence ++ [c]).headD 0 = s.sequence.headD 0 := by
            cases hs : s.sequence with
            | nil => exact absurd hs hsq
            | cons a t => rfl
          rw [hhead] at hseal
          have hcs2 : (lineAt lines c).start = (lineAt lines (s.sequence.getLastD 0)).end_ :=
            hcs.resolve_left hsq
          simp only [ne_eq, hsq, not_false_eq_true, true_and] at h3
          rw [hseal] at h3
          rw [hcs2] at h1
          omega
    · rename_i hseal
      refine ⟨hb.closed, hchain, fun _ => by rw [List.getLastD_concat]; exact hseal, ?_⟩
      intro v
      have h1 := hout v
      have h2 := hin v
      have h3 := hb.degree v
      simp only [decide_eq_true_eq] at h1 h2
      have hne : s.sequence ++ [c] ≠ [] := by simp
      simp only [ne_eq, hne, not_false_eq_true, true_and, List.getLastD_concat]
      by_cases hsq : s.sequence = []
      · simp only [hsq, List.nil_append, List.headD_cons, ne_eq, not_true_eq_false, false_and,
          if_false, Nat.add_zero] at h3 ⊢
        omega
      · have hhead : (s.sequence ++ [c]).headD 0 = s.sequence.headD 0 := by
          cases hs : s.sequence with
          | nil => exact absurd hs hsq
          | cons a t => rfl
        rw [hhead]
        have hcs2 : (lineAt lines c).start = (lineAt lines (s.sequence.getLastD 0)).end_ :=
          hcs.resolve_left hsq
        simp only [ne_eq, hsq, not_false_eq_true, true_and] at h3
        rw [hcs2] at h1
        omega

theorem loopInv_init {lines : List Segment} (hbal : Balanced lines) :
    LoopInv lines (lineInit lines []) := by
  refine ⟨by simp [lineInit], by simp [lineInit], by simp [lineInit], ?_⟩
  intro v
  simp only [lineInit, ne_eq, not_true_eq_false, false_and, if_false, Nat.add_zero,
    undoneCount_replicate]
  exact hbal v

theorem undoneCount_eq_zero {lines : List Segment} {s : SeqState} (h : SeqInv lines s)
    (hd : s.donelines = lines.length) (p : Segment → Bool) :
    undoneCount p lines s.linedone = 0 := by
  by_contra hne
  obtain ⟨l, hl, hu, -⟩ := undoneCount_pos p lines s.linedone (Nat.pos_of_ne_zero hne)
  have hmem : l ∈ visited s :=
    (perm_range_of_inv h hd).mem_iff.mpr (List.mem_range.mpr hl)
  have := (h.done_iff l hl).mpr hmem
  rw [hu] at this
  exact Bool.false_ne_true this

/-- C1. On a segment list in which every vertex index occurs as a start exactly as often as it
occurs as an end, `getLineSequences` returns (true, for every fuel of at least the number of
lines) and every index sequence it appends to an empty `connectedlines` is a closed loop: consecutive lines share their end/start vertex and the
last line ends where the first starts; no open chain is output. -/
theorem getLineSequences_closed_loops (lines : List Segment) (hbal : Balanced lines) :
    ∃ cl, (∀ fuel, lines.length ≤ fuel → getLineSequences fuel lines [] = some (true, cl)) ∧
      ∀ sq ∈ cl, ClosedLoop lines sq := by
  obtain ⟨cl, hcl, -, hsrc⟩ := getLineSequences_eq lines
  refine ⟨cl, fun fuel hf => by rw [getLineSequences_fuel lines fuel hf, hcl], ?_⟩
  obtain ⟨-, hinv, hloop, hd, -⟩ := lineLoop_run (LoopInv lines)
    (fun s hs hp hlt => linePass_loopInv hs hp hlt)
    lines.length (lineInit lines []) (seqInv_init lines) (loopInv_init hbal)
    (by simp [lineInit])
  intro sq hsq
  rcases hsrc sq hsq with hmem | ⟨heq, hne⟩
  · exact hloop.closed sq hmem
  · exfalso
    rw [heq] at hne
    have hdeg := hloop.degree
      (lineAt lines (((linePass lines)^[lines.length] (lineInit lines [])).sequence.getLastD 0)).end_
    rw [undoneCount_eq_zero hinv hd, undoneCount_eq_zero hinv hd,
      if_neg (fun hc => hloop.opened hne hc.2), if_pos ⟨hne, rfl⟩] at hdeg
    omega

theorem getLineSequences_closed_loops_witness :
    Balanced [⟨0, 1⟩, ⟨1, 2⟩, ⟨2, 0⟩, ⟨0, 0⟩] ∧
    ∃ cl, (∀ fuel, 4 ≤ fuel →
        getLineSequences fuel [⟨0, 1⟩, ⟨1, 2⟩, ⟨2, 0⟩, ⟨0, 0⟩] [] = some (true, cl)) ∧
      ∀ sq ∈ cl, ClosedLoop [⟨0, 1⟩, ⟨1, 2⟩, ⟨2, 0⟩, ⟨0, 0⟩] sq :=
  have hb : Balanced [⟨0, 1⟩, ⟨1, 2⟩, ⟨2, 0⟩, ⟨0, 0⟩] := by
    intro v
    simp only [List.countP_cons, List.countP_nil]
    omega
  ⟨hb, getLineSequences_closed_loops _ hb⟩

theorem getLineSequences_example :
    getLineSequences 4 [⟨0, 1⟩, ⟨1, 2⟩, ⟨2, 0⟩, ⟨0, 0⟩] [] = some (true, [[0, 1, 2], [3]]) := by
  decide

/-! ## `CleanupConnectSegments` -/

theorem signedDegree_nil (v : Int) : signedDegree [] v = 0 := by
  simp [signedDegree]

theorem signedDegree_cons (l : Segment) (ls : List Segment) (v : Int) :
    signedDegree (l :: ls) v =
      signedDegree ls v + (if l.start = v then 1 else 0) - (if l.end_ = v then 1 else 0) := by
  simp only [signedDegree, List.countP_cons, decide_eq_true_eq]
  split_ifs <;> push_cast <;> ring

theorem signedDegree_concat (ls : List Segment) (l : Segment) (v : Int) :
    signedDegree (ls ++ [l]) v =
      signedDegree ls v + (if l.start = v then 1 else 0) - (if l.end_ = v then 1 else 0) := by
  simp only [signedDegree, List.countP_append, List.countP_cons, List.countP_nil,
    decide_eq_true_eq]
  split_ifs <;> push_cast <;> ring

theorem bump_length (vt : List Int) (i d : Int) : (bump vt i d).length = vt.length := by
  simp [bump]

theorem bump_getD (vt : List Int) (i d : Int) (hi0 : 0 ≤ i) (hi : i < vt.length) (v : Nat) :
    (bump vt i d).getD v 0 = vt.getD v 0 + (if i = (v : Int) then d else 0) := by
  obtain ⟨k, rfl⟩ := Int.eq_ofNat_of_zero_le hi0
  have hlt : k < vt.length := by omega
  unfold bump
  simp only [Int.toNat_ofNat]
  by_cases hv : k = v
  · subst hv
    simp [List.getElem?_set, hlt]
  · have : ¬ (k : Int) = (v : Int) := by omega
    simp [List.getElem?_set_ne hv, this]

theorem vertexTypes_fold (n : Nat) :
    ∀ (lines : List Segment) (vt0 : List Int), ValidSegments n lines → vt0.length = n →
      (lines.foldl (fun vt l => bump (bump vt l.start 1) l.end_ (-1)) vt0).length = n ∧
      ∀ v : Nat, (lines.foldl (fun vt l => bump (bump vt l.start 1) l.end_ (-1)) vt0).getD v 0 =
        vt0.getD v 0 + signedDegree lines v := by
  intro lines
  induction lines with
  | nil => intro vt0 _ h0; simp [h0, signedDegree_nil]
  | cons l ls ih =>
    intro vt0 hv h0
    have hl := hv l (List.mem_cons_self _ _)
    have hls : ValidSegments n ls := fun x hx => hv x (List.mem_cons_of_mem _ hx)
    have hlen : (bump (bump vt0 l.start 1) l.end_ (-1)).length = n := by
      rw [bump_length, bump_length, h0]
    obtain ⟨h1, h2⟩ := ih _ hls hlen
    refine ⟨h1, fun v => ?_⟩
    rw [List.foldl_cons, h2 v, bump_getD _ _ _ hl.2.1 (by rw [bump_length, h0]; exact hl.2.2),
      bump_getD _ _ _ hl.1.1 (by rw [h0]; exact hl.1.2), signedDegree_cons]
    split_ifs <;> ring

theorem vertexTypes_length {n : Nat} {lines : List Segment} (hv : ValidSegments n lines) :
    (vertexTypes n lines).length = n :=
  (vertexTypes_fold n lines _ hv (by simp)).1

theorem vertexTypes_getD {n : Nat} {lines : List Segment} (hv : ValidSegments n lines)
    (v : Nat) : (vertexTypes n lines).getD v 0 = signedDegree lines v := by
  have := (vertexTypes_fold n lines (List.replicate n 0) hv (by simp)).2 v
  unfold vertexTypes
  rw [this]
  by_cases h : v < n <;> simp [List.getElem?_replicate, h]

theorem detachedPoints_vertexTypes {n : Nat} {lines : List Segment}
    (hv : ValidSegments n lines) :
    detachedPoints (vertexTypes n lines) = (danglingVertices n lines).map Int.ofNat := by
  unfold detachedPoints danglingVertices
  rw [vertexTypes_length hv]
  congr 1
  apply List.filter_congr
  intro v _
  rw [vertexTypes_getD hv]

/-- C4. When the number of dangling vertices is odd, `CleanupConnectSegments` returns false and
leaves the segment list exactly as it was, so a second call on the result returns false again
with the same list. -/
theorem CleanupConnectSegments_odd (vertices : List Vector2d) (lines : List Segment)
    (connect_all : Bool) (hv : ValidSegments vertices.length lines)
    (hodd : (danglingVertices vertices.length lines).length % 2 = 1) :
    CleanupConnectSegments vertices lines connect_all = (false, lines) ∧
    CleanupConnectSegments vertices (CleanupConnectSegments vertices lines connect_all).2
      connect_all = (false, lines) := by
  have h : CleanupConnectSegments vertices lines connect_all = (false, lines) := by
    unfold CleanupConnectSegments
    simp only [detachedPoints_vertexTypes hv, List.length_map, hodd]
    simp
  exact ⟨h, by rw [h]; exact h⟩

theorem CleanupConnectSegments_odd_witness :
    ValidSegments 3 [⟨0, 1⟩, ⟨0, 2⟩] ∧
    (danglingVertices 3 [⟨0, 1⟩, ⟨0, 2⟩]).length % 2 = 1 ∧
    CleanupConnectSegments [⟨0, 0⟩, ⟨1, 0⟩, ⟨0, 1⟩] [⟨0, 1⟩, ⟨0, 2⟩] true =
      (false, [⟨0, 1⟩, ⟨0, 2⟩]) ∧
    CleanupConnectSegments [⟨0, 0⟩, ⟨1, 0⟩, ⟨0, 1⟩]
      (CleanupConnectSegments [⟨0, 0⟩, ⟨1, 0⟩, ⟨0, 1⟩] [⟨0, 1⟩, ⟨0, 2⟩] true).2 true =
      (false, [⟨0, 1⟩, ⟨0, 2⟩]) :=
  have hv : ValidSegments 3 [⟨0, 1⟩, ⟨0, 2⟩] := by
    intro l hl
    simp only [List.mem_cons, List.mem_singleton, List.not_mem_nil, or_false] at hl
    rcases hl with rfl | rfl <;> decide
  have hodd : (danglingVertices 3 [⟨0, 1⟩, ⟨0, 2⟩]).length % 2 = 1 := by decide
  ⟨hv, hodd, CleanupConnectSegments_odd [⟨0, 0⟩, ⟨1, 0⟩, ⟨0, 1⟩] [⟨0, 1⟩, ⟨0, 2⟩] true hv hodd⟩

theorem signedDegree_outside {n : Nat} {lines : List Segment} (hv : ValidSegments n lines)
    (v : Int) (hout : v < 0 ∨ (n : Int) ≤ v) : signedDegree lines v = 0 := by
  induction lines with
  | nil => exact signedDegree_nil v
  | cons l ls ih =>
    have hl := hv l (List.mem_cons_self _ _)
    rw [signedDegree_cons, ih (fun x hx => hv x (List.mem_cons_of_mem _ hx))]
    have h1 : ¬ l.start = v := by omega
    have h2 : ¬ l.end_ = v := by omega
    simp [h1, h2]

theorem sum_signedDegree {n : Nat} {lines : List Segment} (hv : ValidSegments n lines) :
    ∑ v in Finset.range n, signedDegree lines (v : Int) = 0 := by
  induction lines with
  | nil => simp [signedDegree_nil]
  | cons l ls ih =>
    have hl := hv l (List.mem_cons_self _ _)
    obtain ⟨a, ha⟩ := Int.eq_ofNat_of_zero_le hl.1.1
    obtain ⟨b, hb⟩ := Int.eq_ofNat_of_zero_le hl.2.1
    have han : a < n := by omega
    have hbn : b < n := by omega
    simp only [signedDegree_cons, Finset.sum_sub_distrib, Finset.sum_add_distrib,
      ih (fun x hx => hv x (List.mem_cons_of_mem _ hx)), ha, hb, Nat.cast_inj,
      Finset.sum_ite_eq, Finset.mem_range, han, hbn, if_true]
    simp

theorem detached_dangling {n : Nat} {lines : List Segment} (hv : ValidSegments n lines) :
    Detached n lines ((danglingVertices n lines).map Int.ofNat) := by
  have hmem : ∀ u : Nat, u ∈ danglingVertices n lines ↔ u < n ∧ signedDegree lines u ≠ 0 := by
    intro u
    simp [danglingVertices, List.mem_filter]
  have hnd : (danglingVertices n lines).Nodup := (List.nodup_range n).filter _
  have hget : ∀ j, j < (danglingVertices n lines).length →
      ((danglingVertices n lines).map Int.ofNat).getD j 0 =
        (((danglingVertices n lines)[j]?).getD 0 : Nat) := by
    intro j hj
    simp [List.getElem?_eq_getElem hj]
  refine ⟨?_, ?_, ?_⟩
  · intro j hj
    rw [List.length_map] at hj
    rw [hget j hj]
    have := (hmem _).mp (List.getElem_mem hj)
    simp only [List.getElem?_eq_getElem hj, Option.getD_some]
    exact ⟨Int.ofNat_nonneg _, by exact_mod_cast this.1, this.2⟩
  · intro j k hj hk hjk
    rw [List.length_map] at hj hk
    rw [hget j hj, hget k hk] at hjk
    simp only [List.getElem?_eq_getElem hj, List.getElem?_eq_getElem hk, Option.getD_some,
      Nat.cast_inj] at hjk
    exact (List.Nodup.getElem_inj_iff hnd).mp hjk
  · intro v hne
    have h0 : 0 ≤ v := by
      by_contra hc
      exact hne (signedDegree_outside hv v (Or.inl (by omega)))
    have hn : v < n := by
      by_contra hc
      exact hne (signedDegree_outside hv v (Or.inr (by omega)))
    obtain ⟨u, rfl⟩ := Int.eq_ofNat_of_zero_le h0
    have hu : u ∈ danglingVertices n lines := (hmem u).mpr ⟨by exact_mod_cast hn, hne⟩
    obtain ⟨j, hj, hju⟩ := List.getElem_of_mem hu
    refine ⟨j, by simpa using hj, ?_⟩
    rw [hget j hj]
    simp [List.getElem?_eq_getElem hj, hju]

theorem nearestStep_cand {vertices : List Vector2d} {vt d : List Int} {n : Nat}
    {st : Option ℚ × Nat} (j : Nat) (hc : Candidate vt d n j) :
    nearestStep vertices vt d n st j =
      match st.1 with
      | none => (some ((vertexAt vertices n).squared_distance
          (vertexAt vertices (d.getD j 0).toNat)), j)
      | some best =>
        if (vertexAt vertices n).squared_distance (vertexAt vertices (d.getD j 0).toNat) < best
        then (some ((vertexAt vertices n).squared_distance
          (vertexAt vertices (d.getD j 0).toNat)), j)
        else st := by
  unfold nearestStep
  rw [if_neg hc.1]
  simp only [if_neg hc.2]

theorem nearestStep_skip {vertices : List Vector2d} {vt d : List Int} {n : Nat}
    {st : Option ℚ × Nat} (j : Nat) (hc : ¬ Candidate vt d n j) :
    nearestStep vertices vt d n st j = st := by
  unfold nearestStep
  by_cases h1 : d.getD j 0 < 0
  · rw [if_pos h1]
  · rw [if_neg h1]
    have h2 : vt.getD n 0 = vt.getD (d.getD j 0).toNat 0 := by
      by_contra h2
      exact hc ⟨h1, h2⟩
    simp only [h2, if_true]

theorem nearestStep_ok {vertices : List Vector2d} {vt d : List Int} {i n : Nat}
    {st : Option ℚ × Nat} (j : Nat) (hj : i < j ∧ j < d.length)
    (h : NearestOk vertices vt d i n st ∨ (st.1 = none ∧ Candidate vt d n j)) :
    NearestOk vertices vt d i n (nearestStep vertices vt d n st j) := by
  by_cases hc : Candidate vt d n j
  · rw [nearestStep_cand j hc]
    have hnew : NearestOk vertices vt d i n
        (some ((vertexAt vertices n).squared_distance
          (vertexAt vertices (d.getD j 0).toNat)), j) := ⟨hj, hc, rfl⟩
    cases hst : st.1 with
    | none => exact hnew
    | some best =>
      simp only
      split
      · exact hnew
      · rcases h with h | ⟨h, -⟩
        · exact h
        · rw [hst] at h; exact absurd h (by simp)
  · rw [nearestStep_skip j hc]
    rcases h with h | ⟨-, h⟩
    · exact h
    · exact absurd h hc

theorem nearest_fold {vertices : List Vector2d} {vt d : List Int} {i n : Nat} :
    ∀ (js : List Nat) (st : Option ℚ × Nat), (∀ j ∈ js, i < j ∧ j < d.length) →
      (NearestOk vertices vt d i n st ∨ (st.1 = none ∧ ∃ j ∈ js, Candidate vt d n j)) →
      NearestOk vertices vt d i n (js.foldl (nearestStep vertices vt d n) st) := by
  intro js
  induction js with
  | nil =>
    intro st _ h
    rcases h with h | ⟨-, j, hj, -⟩
    · exact h
    · simp at hj
  | cons j js ih =>
    intro st hjs h
    rw [List.foldl_cons]
    apply ih _ (fun k hk => hjs k (List.mem_cons_of_mem _ hk))
    have hj := hjs j (List.mem_cons_self _ _)
    rcases h with h | ⟨hnone, k, hk, hkc⟩
    · exact Or.inl (nearestStep_ok j hj (Or.inl h))
    · by_cases hc : Candidate vt d n j
      · exact Or.inl (nearestStep_ok j hj (Or.inr ⟨hnone, hc⟩))
      · rw [nearestStep_skip j hc]
        refine Or.inr ⟨hnone, k, ?_, hkc⟩
        rcases List.mem_cons.mp hk with rfl | hk'
        · exact absurd hkc hc
        · exact hk'

/-- The inner search loop finds a partner whenever one exists after position `i`. -/
theorem findNearest_ok (vertices : List Vector2d) {vt d : List Int} {i n : Nat}
    (hex : ∃ j, i < j ∧ j < d.length ∧ Candidate vt d n j) :
    NearestOk vertices vt d i n (findNearest vertices vt d i n) := by
  obtain ⟨j, h1, h2, h3⟩ := hex
  unfold findNearest
  apply nearest_fold
  · intro k hk
    rw [List.mem_range'_1] at hk
    omega
  · refine Or.inr ⟨rfl, j, ?_, h3⟩
    rw [List.mem_range'_1]
    omega

theorem connInv_skip {n : Nat} {lines : List Segment} {D0 : List Int} {i : Nat}
    {st : List Int × List Segment} (h : ConnInv n lines D0 i st) (hneg : st.1.getD i 0 < 0) :
    ConnInv n lines D0 (i + 1) st := by
  refine ⟨h.len, h.marks, h.valid, ?_, ?_⟩
  · rintro v ⟨j, h1, h2, h3, h4⟩
    exact h.pending v ⟨j, by omega, h2, h3, h4⟩
  · intro v hnot
    apply h.settled v
    rintro ⟨j, h1, h2, h3, h4⟩
    by_cases hji : j = i
    · subst hji; omega
    · exact hnot ⟨j, by omega, h2, h3, h4⟩

theorem partner_exists {n : Nat} {lines : List Segment} {D0 vt : List Int} {i : Nat}
    {st : List Int × List Segment} (hD : Detached n lines D0)
    (hvt : ∀ v : Nat, vt.getD v 0 = signedDegree lines v)
    (hunit : ∀ v : Int, signedDegree lines v = 0 ∨ signedDegree lines v = 1 ∨
      signedDegree lines v = -1)
    (h : ConnInv n lines D0 i st) (hi : i < D0.length) (hnn : ¬ st.1.getD i 0 < 0) :
    ∃ j, i < j ∧ j < st.1.length ∧ Candidate vt st.1 (st.1.getD i 0).toNat j := by
  have he : st.1.getD i 0 = D0.getD i 0 := by
    rcases h.marks i hi with h1 | h1
    · exact h1
    · omega
  obtain ⟨r1, r2, r3⟩ := hD.range i hi
  rw [← he] at r1 r2 r3
  obtain ⟨u, hu⟩ := Int.eq_ofNat_of_zero_le r1
  have hun : u < n := by omega
  have hpe : signedDegree st.2 (st.1.getD i 0) = signedDegree lines (st.1.getD i 0) :=
    h.pending _ ⟨i, le_rfl, hi, rfl, r1⟩
  by_contra hno
  push_neg at hno
  have hsum := sum_signedDegree h.valid
  have hnonneg : ∀ v ∈ Finset.range n,
      0 ≤ signedDegree lines (st.1.getD i 0) * signedDegree st.2 (v : Int) := by
    intro v _
    by_cases hp : ∃ j, i ≤ j ∧ j < D0.length ∧ st.1.getD j 0 = (v : Int) ∧ 0 ≤ (v : Int)
    · rw [h.pending _ hp]
      obtain ⟨j, h1, h2, h3, h4⟩ := hp
      by_cases hji : j = i
      · subst hji
        rw [h3]
        exact mul_self_nonneg _
      · have hc := hno j (by omega) (by rw [h.len]; exact h2)
        unfold Candidate at hc
        rw [not_and_or] at hc
        rcases hc with hc | hc
        · rw [h3] at hc
          omega
        · rw [not_not, h3, hu] at hc
          simp only [Int.toNat_ofNat] at hc
          rw [hvt, hvt] at hc
          rw [hu, hc]
          exact mul_self_nonneg _
    · rw [h.settled _ hp]
      simp
  have hle := Finset.single_le_sum hnonneg (Finset.mem_range.mpr hun)
  rw [← Finset.mul_sum, hsum, mul_zero, ← hu, hpe] at hle
  rcases hunit (st.1.getD i 0) with h0 | h0 | h0
  · exact r3 h0
  · rw [h0] at hle; omega
  · rw [h0] at hle; omega

theorem getD_set_int (d : List Int) (k j : Nat) (x : Int) (hk : k < d.length) :
    (d.set k x).getD j 0 = if j = k then x else d.getD j 0 := by
  by_cases hjk : j = k
  · subst hjk
    simp [List.getElem?_set, hk]
  · have : k ≠ j := fun e => hjk e.symm
    simp [List.getElem?_set_ne this, hjk]

theorem connectStep_paired {vertices : List Vector2d} {vt : List Int} {connect_all : Bool}
    {st : List Int × List Segment} {i : Nat} (hnn : ¬ st.1.getD i 0 < 0)
    (hfound : (findNearest vertices vt st.1 i (st.1.getD i 0).toNat).2 ≠ 0)
    (hdist : (!connect_all &&
      distExceeds (findNearest vertices vt st.1 i (st.1.getD i 0).toNat).1 100) = false) :
    connectStep vertices vt connect_all st i =
      (st.1.set (findNearest vertices vt st.1 i (st.1.getD i 0).toNat).2 (-1),
        st.2 ++ [if vt.getD (st.1.getD i 0).toNat 0 > 0
          then Segment.Swap ⟨((st.1.getD i 0).toNat : Int),
            st.1.getD (findNearest vertices vt st.1 i (st.1.getD i 0).toNat).2 0⟩
          else ⟨((st.1.getD i 0).toNat : Int),
            st.1.getD (findNearest vertices vt st.1 i (st.1.getD i 0).toNat).2 0⟩]) := by
  unfold connectStep
  rw [if_neg hnn]
  simp only [if_neg hfound, hdist, Bool.false_eq_true, if_false]

theorem signedDegree_bridge (L : List Segment) (e p v de : Int) :
    signedDegree (L ++ [if 0 < de then (⟨p, e⟩ : Segment) else ⟨e, p⟩]) v =
      signedDegree L v +
        (if 0 < de then (if p = v then 1 else 0) - (if e = v then 1 else 0)
          else (if e = v then 1 else 0) - (if p = v then 1 else 0)) := by
  rw [signedDegree_concat]
  split <;> ring

theorem connInv_pair {n : Nat} {lines : List Segment} {D0 : List Int} {i k : Nat}
    {st : List Int × List Segment} (hD : Detached n lines D0)
    (hunit : ∀ v : Int, signedDegree lines v = 0 ∨ signedDegree lines v = 1 ∨
      signedDegree lines v = -1)
    (h : ConnInv n lines D0 i st) (hi : i < D0.length) (hik : i < k) (hk : k < D0.length)
    (e p : Int) (hei : st.1.getD i 0 = e) (hpk : st.1.getD k 0 = p)
    (hnn : ¬ e < 0) (hknn : ¬ p < 0)
    (hdeg : signedDegree lines e ≠ signedDegree lines p) :
    ConnInv n lines D0 (i + 1)
      (st.1.set k (-1),
        st.2 ++ [if 0 < signedDegree lines e then (⟨p, e⟩ : Segment) else ⟨e, p⟩]) := by
  have hkl : k < st.1.length := by rw [h.len]; exact hk
  have he : e = D0.getD i 0 := by
    rcases h.marks i hi with h1 | h1
    · rw [← hei]; exact h1
    · omega
  have hp : p = D0.getD k 0 := by
    rcases h.marks k hk with h1 | h1
    · rw [← hpk]; exact h1
    · omega
  obtain ⟨e1, e2, e3⟩ := hD.range i hi
  obtain ⟨p1, p2, p3⟩ := hD.range k hk
  rw [← he] at e1 e2 e3
  rw [← hp] at p1 p2 p3
  have hne : e ≠ p := fun hc => hdeg (by rw [hc])
  have hpe : signedDegree st.2 e = signedDegree lines e :=
    h.pending _ ⟨i, le_rfl, hi, hei, e1⟩
  have hpp : signedDegree st.2 p = signedDegree lines p :=
    h.pending _ ⟨k, by omega, hk, hpk, p1⟩
  -- an entry other than positions `i` and `k` is a vertex different from both
  have hother : ∀ j, j < D0.length → 0 ≤ st.1.getD j 0 → j ≠ i → j ≠ k →
      st.1.getD j 0 ≠ e ∧ st.1.getD j 0 ≠ p := by
    intro j hj hj0 hji hjk
    have hjd : st.1.getD j 0 = D0.getD j 0 := by
      rcases h.marks j hj with h1 | h1
      · exact h1
      · omega
    constructor
    · intro hc
      exact hji (hD.inj j i hj hi (by rw [← hjd, ← he, hc]))
    · intro hc
      exact hjk (hD.inj j k hj hk (by rw [← hjd, ← hp, hc]))
  refine ⟨by simpa using h.len, ?_, ?_, ?_, ?_⟩
  · intro j hj
    show (st.1.set k (-1)).getD j 0 = _ ∨ _
    rw [getD_set_int _ _ _ _ hkl]
    by_cases hjk : j = k
    · simp [hjk]
    · simp only [hjk, if_false]
      exact h.marks j hj
  · intro l hl
    rcases List.mem_append.mp hl with hl | hl
    · exact h.valid l hl
    · rw [List.mem_singleton] at hl
      rw [hl]
      split <;> exact ⟨⟨by assumption, by assumption⟩, ⟨by assumption, by assumption⟩⟩
  · rintro v ⟨j, h1, h2, h3, h4⟩
    change (st.1.set k (-1)).getD j 0 = v at h3
    rw [getD_set_int _ _ _ _ hkl] at h3
    have hjk : j ≠ k := by
      intro hc
      rw [if_pos hc] at h3
      omega
    rw [if_neg hjk] at h3
    obtain ⟨o1, o2⟩ := hother j h2 (by rw [h3]; exact h4) (by omega) hjk
    rw [h3] at o1 o2
    show signedDegree (st.2 ++ _) v = _
    rw [signedDegree_bridge, h.pending v ⟨j, by omega, h2, h3, h4⟩, if_neg (Ne.symm o1),
      if_neg (Ne.symm o2)]
    simp
  · intro v hnot
    show signedDegree (st.2 ++ _) v = 0
    rw [signedDegree_bridge]
    by_cases hve : v = e
    · rw [hve, hpe, if_neg (Ne.symm hne), if_pos rfl]
      rcases hunit e with h0 | h0 | h0
      · exact absurd h0 e3
      · rw [h0]; simp
      · rw [h0]; simp
    · by_cases hvp : v = p
      · rw [hvp, hpp, if_neg hne, if_pos rfl]
        rcases hunit e with h0 | h0 | h0
        · exact absurd h0 e3
        · rcases hunit p with k0 | k0 | k0
          · exact absurd k0 p3
          · exact absurd (h0.trans k0.symm) hdeg
          · rw [h0, k0]; simp
        · rcases hunit p with k0 | k0 | k0
          · exact absurd k0 p3
          · rw [h0, k0]; simp
          · exact absurd (h0.trans k0.symm) hdeg
      · have hset : signedDegree st.2 v = 0 := by
          apply h.settled v
          rintro ⟨j, h1, h2, h3, h4⟩
          have hji : j ≠ i := fun hc => hve (by rw [← h3, hc, hei])
          have hjk : j ≠ k := fun hc => hvp (by rw [← h3, hc, hpk])
          apply hnot
          refine ⟨j, by omega, h2, ?_, h4⟩
          show (st.1.set k (-1)).getD j 0 = v
          rw [getD_set_int _ _ _ _ hkl, if_neg hjk, h3]
        rw [hset, if_neg (Ne.symm hve), if_neg (Ne.symm hvp)]
        simp

theorem connectStep_inv {vertices : List Vector2d} {lines : List Segment} {D0 vt : List Int}
    {connect_all : Bool} {i : Nat} {st : List Int × List Segment}
    (hD : Detached vertices.length lines D0)
    (hvt : ∀ v : Nat, vt.getD v 0 = signedDegree lines v)
    (hunit : ∀ v : Int, signedDegree lines v = 0 ∨ signedDegree lines v = 1 ∨
      signedDegree lines v = -1)
    (hbud : connect_all = true ∨ ∀ u v : Nat, signedDegree lines u ≠ 0 →
      signedDegree lines v ≠ 0 → signedDegree lines u ≠ signedDegree lines v →
      (vertexAt vertices u).squared_distance (vertexAt vertices v) ≤ 100)
    (h : ConnInv vertices.length lines D0 i st) (hi : i < D0.length) :
    ConnInv vertices.length lines D0 (i + 1) (connectStep vertices vt connect_all st i) := by
  by_cases hneg : st.1.getD i 0 < 0
  · have : connectStep vertices vt connect_all st i = st := by
      unfold connectStep
      rw [if_pos hneg]
    rw [this]
    exact connInv_skip h hneg
  · have hex := partner_exists hD hvt hunit h hi hneg
    obtain ⟨⟨k1, k2⟩, ⟨c1, c2⟩, hdq⟩ := findNearest_ok vertices hex
    have he0 : 0 ≤ st.1.getD i 0 := by omega
    have hp0 : 0 ≤ st.1.getD (findNearest vertices vt st.1 i (st.1.getD i 0).toNat).2 0 := by
      omega
    have hecast : (((st.1.getD i 0).toNat : Nat) : Int) = st.1.getD i 0 :=
      Int.toNat_of_nonneg he0
    have hpcast :
        (((st.1.getD (findNearest vertices vt st.1 i (st.1.getD i 0).toNat).2 0).toNat : Nat)
          : Int) = st.1.getD (findNearest vertices vt st.1 i (st.1.getD i 0).toNat).2 0 :=
      Int.toNat_of_nonneg hp0
    rw [hvt, hvt, hecast, hpcast] at c2
    rw [h.len] at k2
    have hedeg : signedDegree lines (st.1.getD i 0) ≠ 0 := by
      have := (hD.range i hi).2.2
      rcases h.marks i hi with h1 | h1
      · rw [h1]; exact this
      · omega
    have hpdeg : signedDegree lines
        (st.1.getD (findNearest vertices vt st.1 i (st.1.getD i 0).toNat).2 0) ≠ 0 := by
      have := (hD.range _ k2).2.2
      rcases h.marks _ k2 with h1 | h1
      · rw [h1]; exact this
      · omega
    have hdist : (!connect_all &&
        distExceeds (findNearest vertices vt st.1 i (st.1.getD i 0).toNat).1 100) = false := by
      rcases hbud with hca | hb
      · simp [hca]
      · have := hb (st.1.getD i 0).toNat
          (st.1.getD (findNearest vertices vt st.1 i (st.1.getD i 0).toNat).2 0).toNat
          (by rw [hecast]; exact hedeg) (by rw [hpcast]; exact hpdeg)
          (by rw [hecast, hpcast]; exact c2)
        rw [hdq]
        simp only [distExceeds, Bool.and_eq_false_imp, decide_eq_false_iff_not, not_lt]
        exact fun _ => this
    rw [connectStep_paired hneg (by omega) hdist, hvt, hecast]
    have := connInv_pair hD hunit h hi k1 k2 _ _ rfl rfl hneg (by omega) c2
    simpa [Segment.Swap] using this

theorem connInv_init {n : Nat} {lines : List Segment} {D0 : List Int}
    (hv : ValidSegments n lines) (hD : Detached n lines D0) :
    ConnInv n lines D0 0 (D0, lines) := by
  refine ⟨rfl, fun j _ => Or.inl rfl, hv, fun v _ => rfl, ?_⟩
  intro v hnot
  by_contra hne
  obtain ⟨j, hj, hjv⟩ := hD.all v hne
  exact hnot ⟨j, Nat.zero_le _, hj, hjv, by rw [← hjv]; exact (hD.range j hj).1⟩

theorem connect_fold {vertices : List Vector2d} {lines : List Segment} {D0 vt : List Int}
    (connect_all : Bool) (hv : ValidSegments vertices.length lines)
    (hD : Detached vertices.length lines D0)
    (hvt : ∀ v : Nat, vt.getD v 0 = signedDegree lines v)
    (hunit : ∀ v : Int, signedDegree lines v = 0 ∨ signedDegree lines v = 1 ∨
      signedDegree lines v = -1)
    (hbud : connect_all = true ∨ ∀ u v : Nat, signedDegree lines u ≠ 0 →
      signedDegree lines v ≠ 0 → signedDegree lines u ≠ signedDegree lines v →
      (vertexAt vertices u).squared_distance (vertexAt vertices v) ≤ 100) :
    ∀ k, k ≤ D0.length → ConnInv vertices.length lines D0 k
      ((List.range k).foldl (connectStep vertices vt connect_all) (D0, lines)) := by
  intro k
  induction k with
  | zero => intro _; exact connInv_init hv hD
  | succ k ih =>
    intro hk
    rw [List.range_succ, List.foldl_append, List.foldl_cons, List.foldl_nil]
    exact connectStep_inv hD hvt hunit hbud (ih (by omega)) (by omega)

/-- C3 (amended). For a vertex list and a segment list with valid indices in which the number of
dangling vertices is even, every dangling vertex has signed degree exactly `+1` or `-1`, and
either `connect_all` is set or any two dangling vertices of different sign are within the hard
distance budget (squared distance at most `100`), `CleanupConnectSegments` returns true and
afterwards every vertex has signed degree zero. -/
theorem CleanupConnectSegments_connects (vertices : List Vector2d) (lines : List Segment)
    (connect_all : Bool) (hv : ValidSegments vertices.length lines)
    (heven : (danglingVertices vertices.length lines).length % 2 = 0)
    (hunit : ∀ u ∈ danglingVertices vertices.length lines,
      signedDegree lines u = 1 ∨ signedDegree lines u = -1)
    (hbud : connect_all = true ∨
      ∀ u ∈ danglingVertices vertices.length lines,
        ∀ v ∈ danglingVertices vertices.length lines,
          signedDegree lines u ≠ signedDegree lines v →
          (vertexAt vertices u).squared_distance (vertexAt vertices v) ≤ 100) :
    (CleanupConnectSegments vertices lines connect_all).1 = true ∧
    ∀ v : Int, signedDegree (CleanupConnectSegments vertices lines connect_all).2 v = 0 := by
  have hmem : ∀ u : Nat, u ∈ danglingVertices vertices.length lines ↔
      u < vertices.length ∧ signedDegree lines u ≠ 0 := by
    intro u
    simp [danglingVertices, List.mem_filter]
  have hin : ∀ v : Int, signedDegree lines v ≠ 0 →
      ∃ u : Nat, (u : Int) = v ∧ u ∈ danglingVertices vertices.length lines := by
    intro v hne
    have h0 : 0 ≤ v := by
      by_contra hc
      exact hne (signedDegree_outside hv v (Or.inl (by omega)))
    have hn : v < vertices.length := by
      by_contra hc
      exact hne (signedDegree_outside hv v (Or.inr (by omega)))
    obtain ⟨u, rfl⟩ := Int.eq_ofNat_of_zero_le h0
    exact ⟨u, rfl, (hmem u).mpr ⟨by exact_mod_cast hn, hne⟩⟩
  have hunit2 : ∀ v : Int, signedDegree lines v = 0 ∨ signedDegree lines v = 1 ∨
      signedDegree lines v = -1 := by
    intro v
    by_cases hne : signedDegree lines v = 0
    · exact Or.inl hne
    · obtain ⟨u, rfl, hu⟩ := hin v hne
      exact Or.inr (hunit u hu)
  have hbud2 : connect_all = true ∨ ∀ u v : Nat, signedDegree lines u ≠ 0 →
      signedDegree lines v ≠ 0 → signedDegree lines u ≠ signedDegree lines v →
      (vertexAt vertices u).squared_distance (vertexAt vertices v) ≤ 100 := by
    rcases hbud with hb | hb
    · exact Or.inl hb
    · refine Or.inr (fun u v hu hv2 huv => ?_)
      obtain ⟨u2, hu2, hum⟩ := hin u hu
      obtain ⟨v2, hv3, hvm⟩ := hin v hv2
      have e1 : u2 = u := by exact_mod_cast hu2
      have e2 : v2 = v := by exact_mod_cast hv3
      subst e1 e2
      exact hb _ hum _ hvm huv
  have hfold := connect_fold connect_all hv (detached_dangling hv)
    (vertexTypes_getD hv) hunit2 hbud2 _ le_rfl
  unfold CleanupConnectSegments
  simp only [detachedPoints_vertexTypes hv, List.length_map, heven]
  simp only [List.length_map] at hfold
  refine ⟨by simp, fun v => ?_⟩
  simp only [ne_eq, not_true_eq_false, if_false]
  apply hfold.settled v
  rintro ⟨j, h1, h2, -⟩
  rw [List.length_map] at h2
  omega

theorem CleanupConnectSegments_connects_witness :
    ValidSegments 4 [⟨0, 1⟩, ⟨2, 3⟩] ∧
    (CleanupConnectSegments [⟨0, 0⟩, ⟨1, 0⟩, ⟨2, 0⟩, ⟨3, 0⟩] [⟨0, 1⟩, ⟨2, 3⟩] false).1 = true ∧
    ∀ v : Int, signedDegree
      (CleanupConnectSegments [⟨0, 0⟩, ⟨1, 0⟩, ⟨2, 0⟩, ⟨3, 0⟩] [⟨0, 1⟩, ⟨2, 3⟩] false).2 v = 0 :=
  have hv : ValidSegments 4 [⟨0, 1⟩, ⟨2, 3⟩] := by
    intro l hl
    simp only [List.mem_cons, List.mem_singleton, List.not_mem_nil, or_false] at hl
    rcases hl with rfl | rfl <;> decide
  ⟨hv, CleanupConnectSegments_connects [⟨0, 0⟩, ⟨1, 0⟩, ⟨2, 0⟩, ⟨3, 0⟩] [⟨0, 1⟩, ⟨2, 3⟩] false
    hv (by decide) (by decide) (Or.inr (by decide!))⟩

/-- C3 (as stated) fails. First input: the two dangling vertices `0` and `1` have signed
degrees `+2` and `-2` and are `1` apart; one bridging segment is added and both stay dangling.
Second input: four dangling vertices of degree `±1`, each with an opposite partner within the
budget; the nearest-first pairing joins `0` with `1` and then rejects the remaining pair `2`, `3`
(squared distance `625`). In both cases the call returns true with dangling vertices left. -/
theorem CleanupConnectSegments_leaves_dangling :
    (ValidSegments 3 [⟨0, 1⟩, ⟨0, 2⟩, ⟨2, 1⟩] ∧
      (danglingVertices 3 [⟨0, 1⟩, ⟨0, 2⟩, ⟨2, 1⟩]).length % 2 = 0 ∧
      HasPartners [⟨0, 0⟩, ⟨1, 0⟩, ⟨0, 1⟩] [⟨0, 1⟩, ⟨0, 2⟩, ⟨2, 1⟩] 100 ∧
      ¬ ((CleanupConnectSegments [⟨0, 0⟩, ⟨1, 0⟩, ⟨0, 1⟩] [⟨0, 1⟩, ⟨0, 2⟩, ⟨2, 1⟩] false).1 = true ∧
        ∀ v : Int, signedDegree
          (CleanupConnectSegments [⟨0, 0⟩, ⟨1, 0⟩, ⟨0, 1⟩] [⟨0, 1⟩, ⟨0, 2⟩, ⟨2, 1⟩] false).2 v
            = 0)) ∧
    (ValidSegments 4 [⟨0, 1⟩, ⟨2, 3⟩] ∧
      (danglingVertices 4 [⟨0, 1⟩, ⟨2, 3⟩]).length % 2 = 0 ∧
      HasPartners [⟨0, 0⟩, ⟨8, 0⟩, ⟨16, 0⟩, ⟨-9, 0⟩] [⟨0, 1⟩, ⟨2, 3⟩] 100 ∧
      ¬ ((CleanupConnectSegments [⟨0, 0⟩, ⟨8, 0⟩, ⟨16, 0⟩, ⟨-9, 0⟩] [⟨0, 1⟩, ⟨2, 3⟩] false).1
          = true ∧
        ∀ v : Int, signedDegree
          (CleanupConnectSegments [⟨0, 0⟩, ⟨8, 0⟩, ⟨16, 0⟩, ⟨-9, 0⟩] [⟨0, 1⟩, ⟨2, 3⟩] false).2 v
            = 0)) := by
  refine ⟨⟨?_, by decide, by unfold HasPartners; decide!, ?_⟩,
    ⟨?_, by decide, by unfold HasPartners; decide!, ?_⟩⟩
  · intro l hl
    simp only [List.mem_cons, List.mem_singleton, List.not_mem_nil, or_false] at hl
    rcases hl with rfl | rfl | rfl <;> decide
  · rintro ⟨-, h⟩
    exact absurd (h 0) (by decide!)
  · intro l hl
    simp only [List.mem_cons, List.mem_singleton, List.not_mem_nil, or_false] at hl
    rcases hl with rfl | rfl <;> decide
  · rintro ⟨-, h⟩
    exact absurd (h 2) (by decide!)

/-! ## `getPolygonsAtZ` and `Layer::addShape` -/

theorem cutStep_indep {Triangle Matrix4d : Type} (g : Geometry Triangle Matrix4d)
    (transform : Matrix4d) (z a th : ℚ) (s1 s2 : CutState Triangle) (t : Triangle)
    (hl : s1.lines = s2.lines) (hv : s1.vertices = s2.vertices) :
    (cutStep g transform z a th s1 t).lines = (cutStep g transform z a th s2 t).lines ∧
    (cutStep g transform z a th s1 t).vertices = (cutStep g transform z a th s2 t).vertices := by
  unfold cutStep
  simp only [hl, hv]
  split
  · split <;> simp [hl, hv]
  · simp

theorem cutFold_indep {Triangle Matrix4d : Type} (g : Geometry Triangle Matrix4d)
    (transform : Matrix4d) (z a th : ℚ) :
    ∀ (ts : List Triangle) (s1 s2 : CutState Triangle), s1.lines = s2.lines →
      s1.vertices = s2.vertices →
      (ts.foldl (cutStep g transform z a th) s1).lines =
        (ts.foldl (cutStep g transform z a th) s2).lines ∧
      (ts.foldl (cutStep g transform z a th) s1).vertices =
        (ts.foldl (cutStep g transform z a th) s2).vertices := by
  intro ts
  induction ts with
  | nil => intro s1 s2 hl hv; exact ⟨hl, hv⟩
  | cons t ts ih =>
    intro s1 s2 hl hv
    obtain ⟨h1, h2⟩ := cutStep_indep g transform z a th s1 s2 t hl hv
    exact ih _ _ h1 h2

theorem getCutlines_indep {Triangle Matrix4d : Type} (g : Geometry Triangle Matrix4d)
    (shape : Shape Triangle Matrix4d) (T : Matrix4d) (z mg a th : ℚ) :
    (getCutlines g shape T z [] mg [] a th).lines = (getCutlines g shape T z [] 0 [] a th).lines ∧
    (getCutlines g shape T z [] mg [] a th).vertices =
      (getCutlines g shape T z [] 0 [] a th).vertices :=
  cutFold_indep g _ z a th _ _ _ rfl rfl

/-- What `getPolygonsAtZ` returns: it always returns; its flag is `sliceOk`; on failure the
polygon list and the support polygon list are handed back unchanged; on success one support
polygon per support candidate of `getCutlines` has been appended. -/
theorem getPolygonsAtZ_spec {Triangle Matrix4d : Type} (g : Geometry Triangle Matrix4d)
    (shape : Shape Triangle Matrix4d) (T : Matrix4d) (z : ℚ) (polys : List Poly) (mg : ℚ)
    (sup : List Poly) (a th : ℚ) :
    ∃ r, getPolygonsAtZ g shape T z polys mg sup a th = some r ∧
      r.ok = sliceOk g shape T z a th ∧
      (r.ok = false → r.polys = polys ∧ r.supportpolys = sup) ∧
      (r.ok = true → r.supportpolys =
        sup ++ (getCutlines g shape T z [] mg [] a th).support_triangles.map
          (fun t => g.supportPoly t z)) := by
  obtain ⟨hl, hv⟩ := getCutlines_indep g shape T z mg a th
  unfold getPolygonsAtZ sliceOk
  rw [← hl, ← hv]
  have hshared : (CleanupSharedSegments (getCutlines g shape T z [] mg [] a th).lines).1
      = true := rfl
  simp only [hshared, Bool.true_eq_false, if_false]
  by_cases hc : (CleanupConnectSegments (getCutlines g shape T z [] mg [] a th).vertices
      (CleanupSharedSegments (getCutlines g shape T z [] mg [] a th).lines).2 true).1 = false
  · simp only [hc, if_true]
    exact ⟨_, rfl, rfl, fun _ => ⟨rfl, rfl⟩, fun h => by simp at h⟩
  · simp only [hc, if_false]
    obtain ⟨cl, hcl, -⟩ := getLineSequences_eq (CleanupConnectSegments
      (getCutlines g shape T z [] mg [] a th).vertices
      (CleanupSharedSegments (getCutlines g shape T z [] mg [] a th).lines).2 true).2
    rw [hcl]
    exact ⟨_, rfl, rfl, fun h => by simp at h, fun _ => rfl⟩

theorem retryHeight_lt (layer : Layer) (ht : 0 < layer.thickness) (k : Nat) :
    retryHeight layer k < layer.Z + layer.thickness ↔ k < 10 := by
  unfold retryHeight
  have h10 : (0 : ℚ) < layer.thickness / 10 := by positivity
  constructor
  · intro h
    by_contra hk
    have hk2 : (10 : ℚ) ≤ (k : ℚ) := by exact_mod_cast Nat.le_of_not_lt hk
    have := mul_le_mul_of_nonneg_right hk2 h10.le
    linarith
  · intro hk
    have hk2 : (k : ℚ) < 10 := by exact_mod_cast hk
    have := mul_lt_mul_of_pos_right hk2 h10
    linarith

theorem retryHeight_succ (layer : Layer) (k : Nat) :
    retryHeight layer k + layer.thickness / 10 = retryHeight layer (k + 1) := by
  unfold retryHeight
  push_cast
  ring

theorem addShapeLoop_done {Triangle Matrix4d : Type} (g : Geometry Triangle Matrix4d)
    (T : Matrix4d) (shape : Shape Triangle Matrix4d) (a : ℚ) (fuel : Nat) (s : AddState)
    (h : s.polys_ok = true) : addShapeLoop g T shape a fuel s = some s := by
  cases fuel <;> simp [addShapeLoop, h]

theorem addShapeLoop_spec {Triangle Matrix4d : Type} (g : Geometry Triangle Matrix4d)
    (T : Matrix4d) (shape : Shape Triangle Matrix4d) (a : ℚ) (layer : Layer)
    (ht : 0 < layer.thickness) :
    ∀ (fuel k : Nat) (s : AddState), 10 ≤ k + fuel → k ≤ 10 →
      s.layer = layer → s.hackedZ = retryHeight layer k → s.polys_ok = false →
      s.num_polys = -1 → s.calls = (List.range k).map (retryHeight layer) →
      (∀ j, j < k → sliceOk g shape T (retryHeight layer j) a layer.thickness = false) →
      ∃ st m, addShapeLoop g T shape a fuel s = some st ∧ m ≤ 10 ∧
        st.calls = (List.range m).map (retryHeight layer) ∧
        (∀ j, j + 1 < m → sliceOk g shape T (retryHeight layer j) a layer.thickness = false) ∧
        (st.polys_ok = true →
          1 ≤ m ∧ sliceOk g shape T (retryHeight layer (m - 1)) a layer.thickness = true) ∧
        (st.polys_ok = false → m = 10 ∧
          (∀ j, j < 10 → sliceOk g shape T (retryHeight layer j) a layer.thickness = false) ∧
          st.layer = layer ∧ st.num_polys = -1) := by
  intro fuel
  induction fuel with
  | zero =>
    intro k s hk hk10 hl hz hok hnum hcalls hfail
    have hk' : k = 10 := by omega
    subst hk'
    have hcond : ¬ (s.polys_ok = false ∧ s.hackedZ < s.layer.Z + s.layer.thickness) := by
      rw [hz, hl, retryHeight_lt layer ht]
      omega
    refine ⟨s, 10, by simp only [addShapeLoop, hcond, if_false], le_rfl, hcalls,
      fun j hj => hfail j (by omega), fun h => by rw [hok] at h; simp at h,
      fun _ => ⟨rfl, hfail, hl, hnum⟩⟩
  | succ fuel ih =>
    intro k s hk hk10 hl hz hok hnum hcalls hfail
    by_cases hk' : k = 10
    · subst hk'
      have hcond : ¬ (s.polys_ok = false ∧ s.hackedZ < s.layer.Z + s.layer.thickness) := by
        rw [hz, hl, retryHeight_lt layer ht]
        omega
      refine ⟨s, 10, by simp only [addShapeLoop, hcond, if_false], le_rfl, hcalls,
        fun j hj => hfail j (by omega), fun h => by rw [hok] at h; simp at h,
        fun _ => ⟨rfl, hfail, hl, hnum⟩⟩
    · have hklt : k < 10 := by omega
      have hcond : s.polys_ok = false ∧ s.hackedZ < s.layer.Z + s.layer.thickness := by
        rw [hz, hl, retryHeight_lt layer ht]
        exact ⟨hok, hklt⟩
      obtain ⟨r, hr, hrok, hrfail, -⟩ := getPolygonsAtZ_spec g shape T s.hackedZ [] s.max_gradient
        s.layer.toSupportPolygons a s.layer.thickness
      have hcalls2 : s.calls ++ [s.hackedZ] = (List.range (k + 1)).map (retryHeight layer) := by
        rw [List.range_succ, List.map_append, hcalls, hz]
        rfl
      rw [hz, hl] at hrok
      by_cases hsucc : r.ok = true
      · refine ⟨{
            layer := Layer.addPolygons { s.layer with toSupportPolygons := r.supportpolys } r.polys,
            hackedZ := s.hackedZ, polys_ok := true, polys := r.polys,
            num_polys := s.num_polys + r.polys.length, max_gradient := r.max_gradient,
            calls := s.calls ++ [s.hackedZ] }, k + 1, ?_, by omega, hcalls2,
          fun j hj => hfail j (by omega), fun _ => ?_, fun h => ?_⟩
        · simp only [addShapeLoop, hcond, and_self, if_true, addShapePass, hr, hsucc]
          exact addShapeLoop_done g T shape a fuel _ rfl
        · refine ⟨by omega, ?_⟩
          rw [Nat.add_sub_cancel, ← hrok, hsucc]
        · simp at h
      · have hrf : r.ok = false := by simpa using hsucc
        obtain ⟨-, hsup⟩ := hrfail hrf
        have hstep : addShapeLoop g T shape a (fuel + 1) s =
            addShapeLoop g T shape a fuel
              { layer := { s.layer with toSupportPolygons := r.supportpolys },
                hackedZ := s.hackedZ + s.layer.thickness / 10, polys_ok := false,
                polys := r.polys, num_polys := -1, max_gradient := r.max_gradient,
                calls := s.calls ++ [s.hackedZ] } := by
          simp only [addShapeLoop, hcond, and_self, if_true, addShapePass, hr, hrf,
            Bool.false_eq_true, if_false]
        rw [hstep]
        apply ih (k + 1) _ (by omega) (by omega)
        · show { s.layer with toSupportPolygons := r.supportpolys } = layer
          rw [hsup, ← hl]
        · show s.hackedZ + s.layer.thickness / 10 = _
          rw [hz, hl, retryHeight_succ]
        · rfl
        · rfl
        · exact hcalls2
        · intro j hj
          by_cases hjk : j = k
          · rw [hjk, ← hrok, hrf]
          · exact hfail j (by omega)

theorem retryHeight_ge (layer : Layer) (ht : 0 < layer.thickness) (k : Nat) :
    layer.Z ≤ retryHeight layer k := by
  unfold retryHeight
  have h10 : (0 : ℚ) ≤ layer.thickness / 10 := by positivity
  have hk : (0 : ℚ) ≤ (k : ℚ) := Nat.cast_nonneg k
  have := mul_nonneg hk h10
  linarith

theorem retryHeight_strictMono (layer : Layer) (ht : 0 < layer.thickness) {j k : Nat}
    (hjk : j < k) : retryHeight layer j < retryHeight layer k := by
  unfold retryHeight
  have h10 : (0 : ℚ) < layer.thickness / 10 := by positivity
  have hc : (j : ℚ) < (k : ℚ) := by exact_mod_cast hjk
  have := mul_lt_mul_of_pos_right hc h10
  linarith

/-- C5. For a layer with thickness `> 0`, `Layer::addShape` returns (any fuel of at least `10`
passes suffices); the heights at which it calls `getPolygonsAtZ` are exactly
`Z + k * thickness / 10` for `k = 0, ..., m - 1` with `m ≤ 10`, in increasing order, each in
`[Z, Z + thickness)`; every attempt before the last one failed, and the loop ends either with a
successful last attempt or after all `10` attempts. -/
theorem addShape_retry_heights {Triangle Matrix4d : Type} (g : Geometry Triangle Matrix4d)
    (layer : Layer) (T : Matrix4d) (shape : Shape Triangle Matrix4d)
    (max_gradient max_supportangle : ℚ) (fuel : Nat) (hfuel : 10 ≤ fuel)
    (ht : 0 < layer.thickness) :
    ∃ st m,
      addShapeLoop g T shape max_supportangle fuel (addShapeInit layer max_gradient) = some st ∧
      Layer.addShape g fuel layer T shape max_gradient max_supportangle =
        some (st.num_polys, st.layer.cleanupPolygons g, st.max_gradient) ∧
      m ≤ 10 ∧
      st.calls = (List.range m).map (fun k : Nat => layer.Z + (k : ℚ) * (layer.thickness / 10)) ∧
      st.calls.Pairwise (· < ·) ∧
      (∀ h ∈ st.calls, layer.Z ≤ h ∧ h < layer.Z + layer.thickness) ∧
      (∀ j, j + 1 < m →
        sliceOk g shape T (retryHeight layer j) max_supportangle layer.thickness = false) ∧
      (st.polys_ok = true → 1 ≤ m ∧
        sliceOk g shape T (retryHeight layer (m - 1)) max_supportangle layer.thickness = true) ∧
      (st.polys_ok = false → m = 10) := by
  obtain ⟨st, m, h1, h2, h3, h4, h5, h6⟩ := addShapeLoop_spec g T shape max_supportangle layer ht
    fuel 0 (addShapeInit layer max_gradient) (by omega) (by omega) rfl
    (by simp [addShapeInit, retryHeight]) rfl rfl rfl (fun j hj => absurd hj (Nat.not_lt_zero j))
  refine ⟨st, m, h1, by simp only [Layer.addShape, h1], h2, h3, ?_, ?_, h4, h5,
    fun h => (h6 h).1⟩
  · rw [h3, List.pairwise_map]
    exact (List.pairwise_lt_range m).imp (fun hab => retryHeight_strictMono layer ht hab)
  · intro h hh
    rw [h3, List.mem_map] at hh
    obtain ⟨k, hk, rfl⟩ := hh
    rw [List.mem_range] at hk
    exact ⟨retryHeight_ge layer ht k, (retryHeight_lt layer ht k).mpr (by omega)⟩

theorem addShape_retry_heights_witness :
    ∃ st m,
      addShapeLoop wallGeometry () closedShape (1 / 2) 10 (addShapeInit ⟨5, 1, [], []⟩ 0)
        = some st ∧
      Layer.addShape wallGeometry 10 ⟨5, 1, [], []⟩ () closedShape 0 (1 / 2) =
        some (st.num_polys, st.layer.cleanupPolygons wallGeometry, st.max_gradient) ∧
      m ≤ 10 ∧
      st.calls = (List.range m).map (fun k : Nat => (5 : ℚ) + (k : ℚ) * ((1 : ℚ) / 10)) ∧
      st.calls.Pairwise (· < ·) ∧
      (∀ h ∈ st.calls, (5 : ℚ) ≤ h ∧ h < 5 + 1) ∧
      (∀ j, j + 1 < m →
        sliceOk wallGeometry closedShape () (retryHeight ⟨5, 1, [], []⟩ j) (1 / 2) 1 = false) ∧
      (st.polys_ok = true → 1 ≤ m ∧
        sliceOk wallGeometry closedShape () (retryHeight ⟨5, 1, [], []⟩ (m - 1)) (1 / 2) 1
          = true) ∧
      (st.polys_ok = false → m = 10) :=
  addShape_retry_heights wallGeometry ⟨5, 1, [], []⟩ () closedShape 0 (1 / 2) 10 (by decide)
    (by norm_num)

/-- C6. If `getPolygonsAtZ` fails at every height the retry loop can attempt, `Layer::addShape`
returns `-1` (it does return, for any fuel of at least `10` passes), the layer holds as many
polygons as before and its pending support polygons are unchanged. -/
theorem addShape_all_fail {Triangle Matrix4d : Type} (g : Geometry Triangle Matrix4d)
    (layer : Layer) (T : Matrix4d) (shape : Shape Triangle Matrix4d)
    (max_gradient max_supportangle : ℚ) (fuel : Nat) (hfuel : 10 ≤ fuel)
    (hfail : ∀ k : Nat, retryHeight layer k < layer.Z + layer.thickness →
      sliceOk g shape T (retryHeight layer k) max_supportangle layer.thickness = false) :
    ∃ layer2 mg2,
      Layer.addShape g fuel layer T shape max_gradient max_supportangle =
        some (-1, layer2, mg2) ∧
      layer2.polygons.length = layer.polygons.length ∧
      layer2.toSupportPolygons = layer.toSupportPolygons := by
  by_cases ht : 0 < layer.thickness
  · obtain ⟨st, m, h1, h2, -, -, h5, h6⟩ := addShapeLoop_spec g T shape max_supportangle layer
      ht fuel 0 (addShapeInit layer max_gradient) (by omega) (by omega) rfl
      (by simp [addShapeInit, retryHeight]) rfl rfl rfl
      (fun j hj => absurd hj (Nat.not_lt_zero j))
    have hok : st.polys_ok = false := by
      by_contra hc
      have hc2 : st.polys_ok = true := by simpa using hc
      obtain ⟨hm, hs⟩ := h5 hc2
      rw [hfail (m - 1) ((retryHeight_lt layer ht _).mpr (by omega))] at hs
      exact Bool.false_ne_true hs
    obtain ⟨-, -, hl, hn⟩ := h6 hok
    refine ⟨st.layer.cleanupPolygons g, st.max_gradient, ?_, ?_, ?_⟩
    · simp only [Layer.addShape, h1, hn]
    · simp [Layer.cleanupPolygons, hl]
    · simp [Layer.cleanupPolygons, hl]
  · have hcond : ¬ ((addShapeInit layer max_gradient).polys_ok = false ∧
        (addShapeInit layer max_gradient).hackedZ <
          (addShapeInit layer max_gradient).layer.Z +
            (addShapeInit layer max_gradient).layer.thickness) := by
      simp only [addShapeInit, true_and, not_lt]
      linarith [not_lt.mp ht]
    have hloop : addShapeLoop g T shape max_supportangle fuel (addShapeInit layer max_gradient)
        = some (addShapeInit layer max_gradient) := by
      cases fuel <;> simp only [addShapeLoop, hcond, if_false]
    refine ⟨layer.cleanupPolygons g, max_gradient, ?_, ?_, ?_⟩
    · simp only [Layer.addShape, hloop]
      rfl
    · simp [Layer.cleanupPolygons]
    · simp [Layer.cleanupPolygons]

theorem getCutlines_openShape (z : ℚ) :
    getCutlines wallGeometry openShape () z [] 0 [] (1 / 2) 1 =
      getCutlines wallGeometry openShape () 0 [] 0 [] (1 / 2) 1 := by
  simp [getCutlines, openShape, cutStep, wallGeometry]

theorem sliceOk_openShape (z : ℚ) : sliceOk wallGeometry openShape () z (1 / 2) 1 = false := by
  unfold sliceOk
  rw [getCutlines_openShape z]
  decide!

theorem addShape_all_fail_witness :
    ∃ layer2 mg2,
      Layer.addShape wallGeometry 10 ⟨5, 1, [⟨[], 5, false⟩], []⟩ () openShape 0 (1 / 2) =
        some (-1, layer2, mg2) ∧
      layer2.polygons.length = 1 ∧ layer2.toSupportPolygons = [] :=
  addShape_all_fail wallGeometry ⟨5, 1, [⟨[], 5, false⟩], []⟩ () openShape 0 (1 / 2) 10
    (by decide) (fun k _ => sliceOk_openShape _)

/-- C7 (amended). `Shape::getPolygonsAtZ` always returns; when it returns true it has appended
exactly one support polygon for every support candidate collected by `getCutlines`, in order;
when `CleanupConnectSegments` fails it returns false and hands the support polygon list back
unchanged. -/
theorem getPolygonsAtZ_support {Triangle Matrix4d : Type} (g : Geometry Triangle Matrix4d)
    (shape : Shape Triangle Matrix4d) (T : Matrix4d) (z : ℚ) (polys : List Poly)
    (max_gradient : ℚ) (supportpolys : List Poly) (max_supportangle thickness : ℚ) :
    ∃ r, getPolygonsAtZ g shape T z polys max_gradient supportpolys max_supportangle thickness
        = some r ∧
      r.ok = sliceOk g shape T z max_supportangle thickness ∧
      (r.ok = true →
        r.supportpolys = supportpolys ++
          (getCutlines g shape T z [] max_gradient [] max_supportangle
            thickness).support_triangles.map (fun t => g.supportPoly t z) ∧
        r.supportpolys.length = supportpolys.length +
          (getCutlines g shape T z [] max_gradient [] max_supportangle
            thickness).support_triangles.length) ∧
      (r.ok = false → r.supportpolys = supportpolys) := by
  obtain ⟨r, h1, h2, h3, h4⟩ := getPolygonsAtZ_spec g shape T z polys max_gradient supportpolys
    max_supportangle thickness
  refine ⟨r, h1, h2, fun h => ⟨h4 h, ?_⟩, fun h => (h3 h).2⟩
  rw [h4 h, List.length_append, List.length_map]

/-- C7 (as stated) fails: on the sample open mesh, with support angle `1/2 ≥ 0` and thickness
`1 > 0`, `getCutlines` collects one support candidate, `CleanupConnectSegments` fails, and
`getPolygonsAtZ` returns false without appending any support polygon. -/
theorem getPolygonsAtZ_drops_support :
    (getCutlines wallGeometry openShape () 0 [] 0 [] (1 / 2) 1).support_triangles.length = 1 ∧
    (CleanupConnectSegments (getCutlines wallGeometry openShape () 0 [] 0 [] (1 / 2) 1).vertices
      (CleanupSharedSegments
        (getCutlines wallGeometry openShape () 0 [] 0 [] (1 / 2) 1).lines).2 true).1 = false ∧
    getPolygonsAtZ wallGeometry openShape () 0 [] 0 [] (1 / 2) 1 = some ⟨false, [], 0, []⟩ := by
  decide!

/-! ## Loops with fuel -/

theorem whileFuel_mono {σ : Type} (cond : σ → Bool) (body : σ → σ) :
    ∀ (fuel : Nat) (s r : σ), whileFuel cond body fuel s = some r →
      ∀ fuel2, fuel ≤ fuel2 → whileFuel cond body fuel2 s = some r := by
  intro fuel
  induction fuel with
  | zero =>
    intro s r h fuel2 _
    by_cases hc : cond s = true
    · simp [whileFuel, hc] at h
    · cases fuel2 <;> simpa [whileFuel, hc] using h
  | succ fuel ih =>
    intro s r h fuel2 hf
    by_cases hc : cond s = true
    · cases fuel2 with
      | zero => omega
      | succ f2 =>
        simp only [whileFuel, hc, if_true] at h ⊢
        exact ih _ _ h f2 (by omega)
    · cases fuel2 <;> simpa [whileFuel, hc] using h

/-- A loop whose body decreases a natural-number measure finishes within that many passes; a
property kept by the body holds at the end, where the loop condition is false. -/
theorem whileFuel_terminates {σ : Type} (cond : σ → Bool) (body : σ → σ) (μ : σ → Nat)
    (P : σ → Prop) (hdec : ∀ s, P s → cond s = true → μ (body s) < μ s ∧ P (body s)) :
    ∀ (fuel : Nat) (s : σ), P s → μ s ≤ fuel →
      ∃ r, whileFuel cond body fuel s = some r ∧ cond r = false ∧ P r := by
  intro fuel
  induction fuel with
  | zero =>
    intro s hp hm
    by_cases hc : cond s = true
    · have := (hdec s hp hc).1
      omega
    · exact ⟨s, by simp [whileFuel, hc], by simpa using hc, hp⟩
  | succ fuel ih =>
    intro s hp hm
    by_cases hc : cond s = true
    · obtain ⟨h1, h2⟩ := hdec s hp hc
      obtain ⟨r, hr, hcr, hpr⟩ := ih (body s) h2 (by omega)
      exact ⟨r, by simp only [whileFuel, hc, if_true]; exact hr, hcr, hpr⟩
    · exact ⟨s, by simp [whileFuel, hc], by simpa using hc, hp⟩

/-- A loop whose condition stays true never finishes, whatever the fuel. -/
theorem whileFuel_diverges {σ : Type} (cond : σ → Bool) (body : σ → σ) (P : σ → Prop)
    (hkeep : ∀ s, P s → cond s = true ∧ P (body s)) :
    ∀ (fuel : Nat) (s : σ), P s → whileFuel cond body fuel s = none := by
  intro fuel
  induction fuel with
  | zero => intro s hp; simp [whileFuel, (hkeep s hp).1]
  | succ fuel ih =>
    intro s hp
    simp only [whileFuel, (hkeep s hp).1, if_true]
    exact ih _ (hkeep s hp).2

/-- A counting loop `for (x = x0; x < bound; x += step)` with a positive step finishes. -/
theorem countLoop_measure (bound step x : ℚ) (hs : 0 < step) (hx : x < bound) :
    ⌈(bound - (x + step)) / step⌉.toNat < ⌈(bound - x) / step⌉.toNat := by
  have h1 : (bound - (x + step)) / step = (bound - x) / step - 1 := by
    field_simp
    ring
  rw [h1, Int.ceil_sub_one]
  have h2 : 0 < (bound - x) / step := div_pos (by linarith) hs
  have h3 : 0 < ⌈(bound - x) / step⌉ := Int.ceil_pos.mpr h2
  omega

theorem whileFuel_converges {σ : Type} (cond : σ → Bool) (body : σ → σ) (μ : σ → Nat)
    (P : σ → Prop) (hdec : ∀ s, P s → cond s = true → μ (body s) < μ s ∧ P (body s))
    (s : σ) (hp : P s) :
    ∃ r, Converges (fun fuel => whileFuel cond body fuel s) r ∧ cond r = false ∧ P r := by
  obtain ⟨r, hr, hc, hpr⟩ := whileFuel_terminates cond body μ P hdec (μ s) s hp le_rfl
  exact ⟨r, ⟨μ s, fun fuel hf => whileFuel_mono cond body (μ s) s r hr fuel hf⟩, hc, hpr⟩

theorem M_PI_pos : 0 < 2 * M_PI := by
  norm_num [M_PI]

theorem reduceRotation_converges (rotation : ℚ) :
    ∃ r, Converges (fun fuel => reduceRotation fuel rotation) r ∧ r ≤ 2 * M_PI := by
  obtain ⟨r, hr, hc, -⟩ := whileFuel_converges (fun r : ℚ => decide (2 * M_PI < r))
    (fun r => r - 2 * M_PI) (fun r => ⌈(0 - (-r)) / (2 * M_PI)⌉.toNat) (fun _ => True)
    (fun s _ hc => by
      refine ⟨?_, trivial⟩
      have hlt : 2 * M_PI < s := by simpa using hc
      have := countLoop_measure 0 (2 * M_PI) (-s) M_PI_pos (by linarith [M_PI_pos])
      have e : -(s - 2 * M_PI) = -s + 2 * M_PI := by ring
      show ⌈(0 - -(s - 2 * M_PI)) / (2 * M_PI)⌉.toNat < ⌈(0 - -s) / (2 * M_PI)⌉.toNat
      rw [e]
      exact this)
    rotation trivial
  exact ⟨r, hr, by simpa using hc⟩

theorem raiseRotation_converges (rotation : ℚ) :
    ∃ r, Converges (fun fuel => raiseRotation fuel rotation) r ∧ 0 ≤ r := by
  obtain ⟨r, hr, hc, -⟩ := whileFuel_converges (fun r : ℚ => decide (r < 0))
    (fun r => r + 2 * M_PI) (fun r => ⌈(0 - r) / (2 * M_PI)⌉.toNat) (fun _ => True)
    (fun s _ hc => by
      refine ⟨?_, trivial⟩
      have hlt : s < 0 := by simpa using hc
      exact countLoop_measure 0 (2 * M_PI) s M_PI_pos hlt)
    rotation trivial
  exact ⟨r, hr, by simpa using hc⟩

theorem stripLoop_converges (d : ℚ) (Min Max : Vector2d) (hd : 0 < d) :
    ∃ r, Converges (stripLoop d Min Max) r := by
  obtain ⟨r, hr, -, -⟩ := whileFuel_converges
    (fun s : ℚ × List Vector2d => decide (s.1 < Max.x))
    (fun s => (s.1 + 2 * d,
      s.2 ++ [⟨s.1, Min.y⟩, ⟨s.1 + d, Min.y⟩, ⟨s.1 + d, Max.y⟩, ⟨s.1 + 2 * d, Max.y⟩]))
    (fun s => ⌈(Max.x - s.1) / (2 * d)⌉.toNat) (fun _ => True)
    (fun s _ hc => by
      refine ⟨?_, trivial⟩
      have hlt : s.1 < Max.x := by simpa using hc
      exact countLoop_measure Max.x (2 * d) s.1 (by linarith) hlt)
    (Min.x, []) trivial
  exact ⟨r, hr⟩

theorem linesLoop_converges (env : InfillEnv) (d rotation : ℚ) (center Min Max : Vector2d)
    (plane : CuttingPlane) (hd : 0 < d) :
    ∃ r, Converges (linesLoop env d rotation center Min Max plane) r := by
  obtain ⟨r, hr, -, -⟩ := whileFuel_converges
    (fun s : ℚ × Poly × List Poly => decide (s.1 < Max.x))
    (fun s =>
      let poly := env.rotate
        { s.2.1 with vertices := s.2.1.vertices ++ [⟨s.1, Min.y⟩, ⟨s.1, Max.y⟩] } center rotation
      (s.1 + d, poly, s.2.2 ++ [poly]))
    (fun s => ⌈(Max.x - s.1) / d⌉.toNat) (fun _ => True)
    (fun s _ hc => by
      refine ⟨?_, trivial⟩
      have hlt : s.1 < Max.x := by simpa using hc
      exact countLoop_measure Max.x d s.1 hd hlt)
    (Min.x, ⟨[], plane.Z, false⟩, []) trivial
  exact ⟨r, hr⟩

theorem buildPattern_converges (env : InfillEnv) (plane : CuttingPlane) (type : InfillType)
    (d rotation : ℚ) (hd : 0 < d) :
    ∃ cp, Converges (fun fuel => buildPattern env fuel plane type d rotation) cp := by
  cases type with
  | ParallelInfill =>
    obtain ⟨r, N, hN⟩ := stripLoop_converges d
      ⟨(plane.Min.x + plane.Max.x) / 2 + (plane.Min.x - (plane.Min.x + plane.Max.x) / 2) * 2,
        (plane.Min.y + plane.Max.y) / 2 + (plane.Min.y - (plane.Min.y + plane.Max.y) / 2) * 2⟩
      ⟨(plane.Min.x + plane.Max.x) / 2 + (plane.Max.x - (plane.Min.x + plane.Max.x) / 2) * 2,
        (plane.Min.y + plane.Max.y) / 2 + (plane.Max.y - (plane.Min.y + plane.Max.y) / 2) * 2⟩
      hd
    have key : ∀ fuel, N ≤ fuel → buildPattern env fuel plane InfillType.ParallelInfill d rotation =
        buildPattern env N plane InfillType.ParallelInfill d rotation := fun fuel hf => by
      simp only [buildPattern, hN fuel hf, hN N le_rfl]
    have hsome : ∃ cp, buildPattern env N plane InfillType.ParallelInfill d rotation = some cp := by
      simp only [buildPattern, hN N le_rfl]
      exact ⟨_, rfl⟩
    obtain ⟨cp, hcp⟩ := hsome
    exact ⟨cp, N, fun fuel hf => (key fuel hf).trans hcp⟩
  | SupportInfill =>
    obtain ⟨r, N, hN⟩ := stripLoop_converges d
      ⟨(plane.Min.x + plane.Max.x) / 2 + (plane.Min.x - (plane.Min.x + plane.Max.x) / 2) * 2,
        (plane.Min.y + plane.Max.y) / 2 + (plane.Min.y - (plane.Min.y + plane.Max.y) / 2) * 2⟩
      ⟨(plane.Min.x + plane.Max.x) / 2 + (plane.Max.x - (plane.Min.x + plane.Max.x) / 2) * 2,
        (plane.Min.y + plane.Max.y) / 2 + (plane.Max.y - (plane.Min.y + plane.Max.y) / 2) * 2⟩
      hd
    have key : ∀ fuel, N ≤ fuel → buildPattern env fuel plane InfillType.SupportInfill d rotation =
        buildPattern env N plane InfillType.SupportInfill d rotation := fun fuel hf => by
      simp only [buildPattern, hN fuel hf, hN N le_rfl]
    have hsome : ∃ cp, buildPattern env N plane InfillType.SupportInfill d rotation = some cp := by
      simp only [buildPattern, hN N le_rfl]
      exact ⟨_, rfl⟩
    obtain ⟨cp, hcp⟩ := hsome
    exact ⟨cp, N, fun fuel hf => (key fuel hf).trans hcp⟩
  | LinesInfill =>
    obtain ⟨r, N, hN⟩ := linesLoop_converges env d rotation
      ⟨(plane.Min.x + plane.Max.x) / 2, (plane.Min.y + plane.Max.y) / 2⟩
      ⟨(plane.Min.x + plane.Max.x) / 2 + (plane.Min.x - (plane.Min.x + plane.Max.x) / 2) * 2,
        (plane.Min.y + plane.Max.y) / 2 + (plane.Min.y - (plane.Min.y + plane.Max.y) / 2) * 2⟩
      ⟨(plane.Min.x + plane.Max.x) / 2 + (plane.Max.x - (plane.Min.x + plane.Max.x) / 2) * 2,
        (plane.Min.y + plane.Max.y) / 2 + (plane.Max.y - (plane.Min.y + plane.Max.y) / 2) * 2⟩
      plane hd
    have key : ∀ fuel, N ≤ fuel → buildPattern env fuel plane InfillType.LinesInfill d rotation =
        buildPattern env N plane InfillType.LinesInfill d rotation := fun fuel hf => by
      simp only [buildPattern, hN fuel hf, hN N le_rfl]
    have hsome : ∃ cp, buildPattern env N plane InfillType.LinesInfill d rotation = some cp := by
      simp only [buildPattern, hN N le_rfl]
      exact ⟨_, rfl⟩
    obtain ⟨cp, hcp⟩ := hsome
    exact ⟨cp, N, fun fuel hf => (key fuel hf).trans hcp⟩
  | other code => exact ⟨[], 0, fun fuel _ => rfl⟩

theorem normalizeRotation_converges (rotation : ℚ) :
    ∃ a, Converges (fun fuel => normalizeRotation fuel rotation) a ∧
      ∃ r1, Converges (fun fuel => reduceRotation fuel rotation) r1 ∧
        Converges (fun fuel => raiseRotation fuel r1) a := by
  obtain ⟨r1, ⟨N1, h1⟩, -⟩ := reduceRotation_converges rotation
  obtain ⟨a, ⟨N2, h2⟩, -⟩ := raiseRotation_converges r1
  refine ⟨a, ⟨max N1 N2, fun fuel hf => ?_⟩, r1, ⟨N1, h1⟩, ⟨N2, h2⟩⟩
  simp only [normalizeRotation, h1 fuel (le_trans (le_max_left _ _) hf),
    h2 fuel (le_trans (le_max_right _ _) hf)]

theorem whileFuel_stop {σ : Type} (cond : σ → Bool) (body : σ → σ) (fuel : Nat) (s : σ)
    (h : cond s = false) : whileFuel cond body fuel s = some s := by
  cases fuel <;> simp [whileFuel, h]

theorem find?_first {α : Type} (f : α → Bool) (before : List α) (p : α) (after : List α)
    (hb : ∀ q ∈ before, f q = false) (hp : f p = true) :
    (before ++ p :: after).find? f = some p := by
  induction before with
  | nil => simp [List.find?, hp]
  | cons b bs ih =>
    have hb1 : f b = false := hb b (List.mem_cons_self _ _)
    simp only [List.cons_append, List.find?, hb1]
    exact ih (fun q hq => hb q (List.mem_cons_of_mem _ hq))

theorem patternMatches_iff (type : InfillType) (d a : ℚ) (q : pattern) :
    patternMatches type d a q = true ↔
      q.type = type ∧ |q.distance - d| < 1 / 100 ∧ |q.angle - a| < 1 / 100 := by
  simp [patternMatches, and_assoc]

/-- C10 (amended). For a positive spacing, `Infill::makeInfillPattern` returns (for every
sufficiently large fuel, with one result). With `a` the normalized angle: if some cached entry
has the same style, a spacing within `0.01` and an angle within `0.01` of the request, the call
returns the stored polygons of the first such entry and leaves the cache unchanged; otherwise it
appends exactly one new entry, holding the request and the returned pattern, after the
unaltered existing entries. The cache is left unchanged exactly in the first case. -/
theorem makeInfillPattern_cache (env : InfillEnv) (self : Infill) (savedPatterns : List pattern)
    (type : InfillType) (infillDistance offsetDistance rotation : ℚ)
    (hd : 0 < infillDistance) :
    ∃ a res,
      Converges (fun fuel => normalizeRotation fuel rotation) a ∧
      Converges (fun fuel => makeInfillPattern env fuel self savedPatterns type infillDistance
        offsetDistance rotation) res ∧
      res.infill = { self with type := type, angle := a } ∧
      (∀ before p after, savedPatterns = before ++ p :: after →
        (∀ q ∈ before,
          ¬ (q.type = type ∧ |q.distance - infillDistance| < 1 / 100 ∧
            |q.angle - a| < 1 / 100)) →
        (p.type = type ∧ |p.distance - infillDistance| < 1 / 100 ∧ |p.angle - a| < 1 / 100) →
        res.cpolys = p.cpolys ∧ res.savedPatterns = savedPatterns) ∧
      ((∀ q ∈ savedPatterns,
          ¬ (q.type = type ∧ |q.distance - infillDistance| < 1 / 100 ∧
            |q.angle - a| < 1 / 100)) →
        res.savedPatterns = savedPatterns ++ [⟨type, a, infillDistance, res.cpolys⟩]) ∧
      (res.savedPatterns = savedPatterns ↔
        ∃ q ∈ savedPatterns,
          q.type = type ∧ |q.distance - infillDistance| < 1 / 100 ∧
            |q.angle - a| < 1 / 100) := by
  obtain ⟨a, hnorm, r1, ⟨N1, h1⟩, ⟨N2, h2⟩⟩ := normalizeRotation_converges rotation
  obtain ⟨cp, N3, h3⟩ := buildPattern_converges env self.plane type infillDistance a hd
  cases hfind : savedPatterns.find? (patternMatches type infillDistance a) with
  | some p0 =>
    have hex : ∃ q ∈ savedPatterns, q.type = type ∧ |q.distance - infillDistance| < 1 / 100 ∧
        |q.angle - a| < 1 / 100 :=
      ⟨p0, List.mem_of_find?_eq_some hfind,
        (patternMatches_iff _ _ _ _).mp (List.find?_some hfind)⟩
    refine ⟨a, ⟨{ self with type := type, angle := a }, savedPatterns, p0.cpolys⟩, hnorm,
      ⟨max N1 N2, fun fuel hf => ?_⟩, rfl, ?_, ?_, ?_⟩
    · simp only [makeInfillPattern, h1 fuel (le_trans (le_max_left _ _) hf),
        h2 fuel (le_trans (le_max_right _ _) hf), hfind]
    · intro before p after hdec hb hp
      have := find?_first (patternMatches type infillDistance a) before p after
        (fun q hq => by
          have := hb q hq
          rw [← patternMatches_iff] at this
          simpa using this)
        ((patternMatches_iff _ _ _ _).mpr hp)
      rw [← hdec, hfind] at this
      exact ⟨by rw [Option.some.inj this], rfl⟩
    · intro hnone
      obtain ⟨q, hq, hm⟩ := hex
      exact absurd hm (hnone q hq)
    · exact ⟨fun _ => hex, fun _ => rfl⟩
  | none =>
    have hnone : ∀ q ∈ savedPatterns, ¬ (q.type = type ∧
        |q.distance - infillDistance| < 1 / 100 ∧ |q.angle - a| < 1 / 100) := by
      intro q hq
      rw [← patternMatches_iff]
      exact List.find?_eq_none.mp hfind q hq
    refine ⟨a, ⟨{ self with type := type, angle := a },
      savedPatterns ++ [⟨type, a, infillDistance, cp⟩], cp⟩, hnorm,
      ⟨max (max N1 N2) N3, fun fuel hf => ?_⟩, rfl, ?_, fun _ => rfl, ?_⟩
    · have hf1 : N1 ≤ fuel := le_trans (le_trans (le_max_left _ _) (le_max_left _ _)) hf
      have hf2 : N2 ≤ fuel := le_trans (le_trans (le_max_right _ _) (le_max_left _ _)) hf
      have hf3 : N3 ≤ fuel := le_trans (le_max_right _ _) hf
      simp only [makeInfillPattern, h1 fuel hf1, h2 fuel hf2, hfind, h3 fuel hf3]
    · intro before p after hdec _ hp
      exact absurd hp (hnone p (by rw [hdec]; simp))
    · constructor
      · intro h
        have := congrArg List.length h
        simp at this
      · rintro ⟨q, hq, hm⟩
        exact absurd hm (hnone q hq)

theorem makeInfillPattern_cache_witness :
    ∃ a res,
      Converges (fun fuel => normalizeRotation fuel (301 / 1000)) a ∧
      Converges (fun fuel => makeInfillPattern sampleEnv fuel
        ⟨⟨⟨0, 0⟩, ⟨4, 4⟩, 0⟩, InfillType.LinesInfill, 0, []⟩
        [⟨InfillType.ParallelInfill, 3 / 10, 2, [[(0, 0)]]⟩]
        InfillType.ParallelInfill 2 0 (301 / 1000)) res ∧
      res.infill = { (⟨⟨⟨0, 0⟩, ⟨4, 4⟩, 0⟩, InfillType.LinesInfill, 0, []⟩ : Infill) with
        type := InfillType.ParallelInfill, angle := a } ∧
      (∀ before p after,
        [(⟨InfillType.ParallelInfill, 3 / 10, 2, [[(0, 0)]]⟩ : pattern)] = before ++ p :: after →
        (∀ q ∈ before,
          ¬ (q.type = InfillType.ParallelInfill ∧ |q.distance - 2| < 1 / 100 ∧
            |q.angle - a| < 1 / 100)) →
        (p.type = InfillType.ParallelInfill ∧ |p.distance - 2| < 1 / 100 ∧
          |p.angle - a| < 1 / 100) →
        res.cpolys = p.cpolys ∧
          res.savedPatterns = [⟨InfillType.ParallelInfill, 3 / 10, 2, [[(0, 0)]]⟩]) ∧
      ((∀ q ∈ [(⟨InfillType.ParallelInfill, 3 / 10, 2, [[(0, 0)]]⟩ : pattern)],
          ¬ (q.type = InfillType.ParallelInfill ∧ |q.distance - 2| < 1 / 100 ∧
            |q.angle - a| < 1 / 100)) →
        res.savedPatterns = [⟨InfillType.ParallelInfill, 3 / 10, 2, [[(0, 0)]]⟩] ++
          [⟨InfillType.ParallelInfill, a, 2, res.cpolys⟩]) ∧
      (res.savedPatterns = [⟨InfillType.ParallelInfill, 3 / 10, 2, [[(0, 0)]]⟩] ↔
        ∃ q ∈ [(⟨InfillType.ParallelInfill, 3 / 10, 2, [[(0, 0)]]⟩ : pattern)],
          q.type = InfillType.ParallelInfill ∧ |q.distance - 2| < 1 / 100 ∧
            |q.angle - a| < 1 / 100) :=
  makeInfillPattern_cache sampleEnv ⟨⟨⟨0, 0⟩, ⟨4, 4⟩, 0⟩, InfillType.LinesInfill, 0, []⟩
    [⟨InfillType.ParallelInfill, 3 / 10, 2, [[(0, 0)]]⟩] InfillType.ParallelInfill 2 0
    (301 / 1000) (by norm_num)

/-- The scenario of the specification on a `4 × 4` plane: `(ParallelInfill, 2.0, 0.30)` on an
empty cache stores one pattern; the same request again and the request with angle `0.301` both
return that stored pattern and leave the cache as it is; the request with angle `0.32` misses
and appends a second entry after the first. -/
theorem infill_cache_scenario :
    ((makeInfillPattern sampleEnv 10 ⟨⟨⟨0, 0⟩, ⟨4, 4⟩, 0⟩, InfillType.LinesInfill, 0, []⟩ []
      InfillType.ParallelInfill 2 0 (3 / 10)).bind (fun r1 =>
        (makeInfillPattern sampleEnv 10 r1.infill r1.savedPatterns
          InfillType.ParallelInfill 2 0 (3 / 10)).bind (fun r2 =>
        (makeInfillPattern sampleEnv 10 r2.infill r2.savedPatterns
          InfillType.ParallelInfill 2 0 (301 / 1000)).bind (fun r3 =>
        (makeInfillPattern sampleEnv 10 r3.infill r3.savedPatterns
          InfillType.ParallelInfill 2 0 (32 / 100)).map (fun r4 =>
            decide (r1.savedPatterns.length = 1 ∧
              r2.cpolys = r1.cpolys ∧ r2.savedPatterns = r1.savedPatterns ∧
              r3.cpolys = r1.cpolys ∧ r3.savedPatterns = r1.savedPatterns ∧
              r4.savedPatterns.length = 2 ∧ r4.savedPatterns.take 1 = r1.savedPatterns)))))) =
      some true := by
  decide!

/-- C10 (as stated) fails for spacing `0`: on an empty cache and a plane of positive width the
request is a miss, and the strip loop `for (x = Min.x; x < Max.x; x += 2*infillDistance)` never
ends, so no pattern is built and no entry is appended, whatever the fuel. -/
theorem makeInfillPattern_zero_spacing :
    ¬ ∃ (fuel : Nat) (res : InfillResult), makeInfillPattern sampleEnv fuel
      ⟨⟨⟨0, 0⟩, ⟨1, 1⟩, 0⟩, InfillType.ParallelInfill, 0, []⟩ []
      InfillType.ParallelInfill 0 0 0 = some res := by
  rintro ⟨fuel, res, hres⟩
  revert hres
  have h1 : reduceRotation fuel 0 = some 0 :=
    whileFuel_stop _ _ fuel 0 (by simp; linarith [M_PI_pos])
  have h2 : raiseRotation fuel 0 = some 0 := whileFuel_stop _ _ fuel 0 (by simp)
  have h3 : stripLoop 0 ⟨(0 + 1) / 2 + (0 - (0 + 1) / 2) * 2, (0 + 1) / 2 + (0 - (0 + 1) / 2) * 2⟩
      ⟨(0 + 1) / 2 + (1 - (0 + 1) / 2) * 2, (0 + 1) / 2 + (1 - (0 + 1) / 2) * 2⟩ fuel = none := by
    unfold stripLoop
    apply whileFuel_diverges _ _ (fun s : ℚ × List Vector2d => s.1 = -1 / 2)
    · intro s hs
      simp only [hs]
      norm_num
    · norm_num
  simp only [makeInfillPattern, h1, h2, List.find?, buildPattern, h3]
  exact fun h => Option.noConfusion h

/-! ## `addtoshape` and `splitshapes` -/

theorem count_false_le : ∀ (l1 l2 : List Bool), l1.length = l2.length →
    (∀ k, l1.getD k false = true → l2.getD k false = true) →
    l2.count false ≤ l1.count false := by
  intro l1
  induction l1 with
  | nil =>
    intro l2 hlen _
    cases l2 with
    | nil => simp
    | cons b bs => simp at hlen
  | cons a as ih =>
    intro l2 hlen himp
    cases l2 with
    | nil => simp at hlen
    | cons b bs =>
      have h0 := himp 0
      have hrest := ih bs (by simpa using hlen) (fun k hk => by
        have := himp (k + 1)
        simpa using this (by simpa using hk))
      simp only [List.getD_cons_zero] at h0
      cases a <;> cases b <;> simp_all [List.count_cons]
      omega

theorem count_false_set : ∀ (l : List Bool) (i : Nat), i < l.length → l.getD i false = false →
    (l.set i true).count false + 1 = l.count false := by
  intro l
  induction l with
  | nil => intro i hi; simp at hi
  | cons a as ih =>
    intro i hi hu
    cases i with
    | zero =>
      simp at hu
      subst hu
      simp [List.count_cons]
    | succ i =>
      have := ih i (by simpa using hi) (by simpa using hu)
      cases a <;> simp [List.count_cons] <;> omega

theorem getD_set_bool (d : List Bool) (i k : Nat) (hi : i < d.length) :
    (d.set i true).getD k false = true ↔ (d.getD k false = true ∨ k = i) := by
  by_cases hki : k = i
  · subst hki
    simp [List.getElem?_set, hi]
  · have : i ≠ k := fun e => hki e.symm
    simp [List.getElem?_set_ne this, hki]

theorem dfsPost_refl {adj : List (List Nat)} {n root : Nat} {done : List Bool}
    (hlen : done.length = n) : DfsPost adj n root done [] done :=
  ⟨hlen, fun k => by simp, List.nodup_nil, fun k hk => by simp at hk,
    fun k hk => by simp at hk⟩

theorem dfsPost_mono {adj : List (List Nat)} {n root : Nat} {done done2 : List Bool}
    {new : List Nat} (h : DfsPost adj n root done new done2) (k : Nat)
    (hk : done.getD k false = true) : done2.getD k false = true :=
  (h.marks k).mpr (Or.inl hk)

theorem dfsPost_trans {adj : List (List Nat)} {n root : Nat} {done done1 done2 : List Bool}
    {new1 new2 : List Nat} (h1 : DfsPost adj n root done new1 done1)
    (h2 : DfsPost adj n root done1 new2 done2) :
    DfsPost adj n root done (new1 ++ new2) done2 := by
  refine ⟨h2.len, ?_, ?_, ?_, ?_⟩
  · intro k
    rw [h2.marks k, h1.marks k, List.mem_append, or_assoc]
  · refine List.Nodup.append h1.nodup h2.nodup ?_
    intro k hk1 hk2
    have hf := (h2.fresh k hk2).1
    have ht := (h1.marks k).mpr (Or.inr hk1)
    rw [hf] at ht
    exact Bool.false_ne_true ht
  · intro k hk
    rcases List.mem_append.mp hk with hk | hk
    · exact h1.fresh k hk
    · obtain ⟨f1, f2, f3⟩ := h2.fresh k hk
      refine ⟨?_, f2, f3⟩
      by_contra hc
      have ht : done.getD k false = true := by simpa using hc
      have := dfsPost_mono h1 k ht
      rw [f1] at this
      exact Bool.false_ne_true this
  · intro k hk j hj
    rcases List.mem_append.mp hk with hk | hk
    · exact dfsPost_mono h2 j (h1.closed k hk j hj)
    · exact h2.closed k hk j hj

theorem dfsPost_count {adj : List (List Nat)} {n root : Nat} {done done2 : List Bool}
    {new : List Nat} (hlen : done.length = n) (h : DfsPost adj n root done new done2) :
    done2.count false ≤ done.count false :=
  count_false_le done done2 (by rw [hlen, h.len]) (fun k hk => dfsPost_mono h k hk)

/-- The loop over `adj[i]` inside `addtoshape`, given the specification of the recursive calls
(`ih`) at the fuel that is left. -/
theorem addtoshape_fold {adj : List (List Nat)} {n root i fuel : Nat}
    (ih : ∀ (j : Nat) (tr : List Nat) (done : List Bool), done.length = n → j < n →
      Reach adj root j → done.count false < fuel →
      ∃ new done2, addtoshape adj fuel j (tr, done) = some (tr ++ new, done2) ∧
        DfsPost adj n root done new done2 ∧ done2.getD j false = true) :
    ∀ (js : List Nat), (∀ j ∈ js, j < n ∧ Reach adj root j) →
      ∀ (tr : List Nat) (done : List Bool), done.length = n → done.getD i false = true →
        done.count false < fuel →
        ∃ new done2,
          js.foldlM (fun s j => if j ≠ i then addtoshape adj fuel j s else some s) (tr, done)
            = some (tr ++ new, done2) ∧
          DfsPost adj n root done new done2 ∧ ∀ j ∈ js, done2.getD j false = true := by
  intro js
  induction js with
  | nil =>
    intro _ tr done hlen _ _
    exact ⟨[], done, by simp, dfsPost_refl hlen, fun j hj => by simp at hj⟩
  | cons j js ihl =>
    intro hjs tr done hlen hi hc
    have hjs2 : ∀ j ∈ js, j < n ∧ Reach adj root j :=
      fun k hk => hjs k (List.mem_cons_of_mem _ hk)
    by_cases hji : j = i
    · obtain ⟨new, done2, h1, h2, h3⟩ := ihl hjs2 tr done hlen hi hc
      refine ⟨new, done2, ?_, h2, ?_⟩
      · rw [List.foldlM_cons]
        simp only [hji, ne_eq, not_true_eq_false, if_false]
        exact h1
      · intro k hk
        rcases List.mem_cons.mp hk with rfl | hk
        · rw [hji]; exact dfsPost_mono h2 i hi
        · exact h3 k hk
    · obtain ⟨hjn, hjr⟩ := hjs j (List.mem_cons_self _ _)
      obtain ⟨new1, done1, e1, p1, m1⟩ := ih j tr done hlen hjn hjr hc
      obtain ⟨new2, done2, e2, p2, m2⟩ := ihl hjs2 (tr ++ new1) done1 p1.len
        (dfsPost_mono p1 i hi) (lt_of_le_of_lt (dfsPost_count hlen p1) hc)
      refine ⟨new1 ++ new2, done2, ?_, dfsPost_trans p1 p2, ?_⟩
      · rw [List.foldlM_cons]
        simp only [ne_eq, hji, not_false_eq_true, if_true, e1]
        rw [← List.append_assoc]
        exact e2
      · intro k hk
        rcases List.mem_cons.mp hk with rfl | hk
        · exact dfsPost_mono p2 k m1
        · exact m2 k hk

/-- Specification of `addtoshape`: with more fuel than unmarked triangles the call returns; it
appends exactly the triangles it marks, all of them reachable, and leaves every one of them
with all neighbours marked. -/
theorem addtoshape_spec {adj : List (List Nat)} {n : Nat} (root : Nat)
    (hadj : ∀ i j, j ∈ adj.getD i [] → j < n) :
    ∀ (fuel i : Nat) (tr : List Nat) (done : List Bool), done.length = n → i < n →
      Reach adj root i → done.count false < fuel →
      ∃ new done2, addtoshape adj fuel i (tr, done) = some (tr ++ new, done2) ∧
        DfsPost adj n root done new done2 ∧ done2.getD i false = true := by
  intro fuel
  induction fuel with
  | zero => intro i tr done _ _ _ hc; omega
  | succ fuel ih =>
    intro i tr done hlen hi hr hc
    by_cases hd : done.getD i false = true
    · refine ⟨[], done, ?_, dfsPost_refl hlen, hd⟩
      rw [addtoshape, if_pos hd, List.append_nil]
    · have hdf : done.getD i false = false := by simpa using hd
      have hil : i < done.length := by rw [hlen]; exact hi
      have hcnt := count_false_set done i hil hdf
      have hjs : ∀ j ∈ adj.getD i [], j < n ∧ Reach adj root j := fun j hj =>
        ⟨hadj i j hj, Relation.ReflTransGen.tail hr hj⟩
      obtain ⟨new, done2, e, p, m⟩ := addtoshape_fold (i := i) ih (adj.getD i []) hjs
        (tr ++ [i]) (done.set i true) (by rw [List.length_set, hlen])
        ((getD_set_bool done i i hil).mpr (Or.inr rfl)) (by omega)
      refine ⟨i :: new, done2, ?_, ?_, (p.marks i).mpr
        (Or.inl ((getD_set_bool done i i hil).mpr (Or.inr rfl)))⟩
      · rw [addtoshape, if_neg hd]
        show List.foldlM _ (tr ++ [i], done.set i true) (adj.getD i []) = _
        rw [e, List.append_assoc]
        rfl
      · refine ⟨p.len, ?_, ?_, ?_, ?_⟩
        · intro k
          rw [p.marks k, getD_set_bool done i k hil, List.mem_cons, or_assoc]
        · refine List.nodup_cons.mpr ⟨?_, p.nodup⟩
          intro hmem
          have := (p.fresh i hmem).1
          rw [(getD_set_bool done i i hil).mpr (Or.inr rfl)] at this
          exact Bool.false_ne_true this.symm
        · intro k hk
          rcases List.mem_cons.mp hk with rfl | hk
          · exact ⟨hdf, hi, hr⟩
          · obtain ⟨f1, f2, f3⟩ := p.fresh k hk
            refine ⟨?_, f2, f3⟩
            by_contra hc2
            have ht : done.getD k false = true := by simpa using hc2
            have := (getD_set_bool done i k hil).mpr (Or.inl ht)
            rw [f1] at this
            exact Bool.false_ne_true this
        · intro k hk j hj
          rcases List.mem_cons.mp hk with rfl | hk
          · exact m j hj
          · exact p.closed k hk j hj

theorem connectedAt_symm {Triangle : Type} (isConnectedTo : Triangle → Triangle → Bool)
    (triangles : List Triangle)
    (hsym : ∀ a ∈ triangles, ∀ b ∈ triangles, isConnectedTo a b = isConnectedTo b a)
    (i j : Nat) :
    connectedAt isConnectedTo triangles i j = connectedAt isConnectedTo triangles j i := by
  unfold connectedAt
  cases hi : triangles[i]? with
  | none => cases hj : triangles[j]? <;> rfl
  | some a =>
    cases hj : triangles[j]? with
    | none => rfl
    | some b =>
      exact hsym a (List.getElem?_mem hi) b (List.getElem?_mem hj)

theorem getD_set_list (adj : List (List Nat)) (k i : Nat) (x : List Nat) (hk : k < adj.length) :
    (adj.set k x).getD i [] = if i = k then x else adj.getD i [] := by
  by_cases hik : i = k
  · subst hik
    simp [List.getElem?_set, hk]
  · have : k ≠ i := fun e => hik e.symm
    simp [List.getElem?_set_ne this, hik]

/-- Invariant of the adjacency loop after the passes `0..k-1`, for a symmetric connection
test: the lists built so far hold exactly the other triangles connected to theirs. -/
theorem buildAdj_fold {Triangle : Type} (isConnectedTo : Triangle → Triangle → Bool)
    (triangles : List Triangle)
    (hsym : ∀ a ∈ triangles, ∀ b ∈ triangles, isConnectedTo a b = isConnectedTo b a) :
    ∀ k, k ≤ triangles.length →
      ((List.range k).foldl
        (fun adj i => adj.set i ((List.range triangles.length).filter (fun j =>
          decide (i ≠ j) &&
            ((decide (j < i) && (adj.getD j []).contains i) ||
              connectedAt isConnectedTo triangles i j))))
        (List.replicate triangles.length [])).length = triangles.length ∧
      (∀ i, i < k → ∀ j, j ∈ ((List.range k).foldl
        (fun adj i => adj.set i ((List.range triangles.length).filter (fun j =>
          decide (i ≠ j) &&
            ((decide (j < i) && (adj.getD j []).contains i) ||
              connectedAt isConnectedTo triangles i j))))
        (List.replicate triangles.length [])).getD i [] ↔
          (j < triangles.length ∧ i ≠ j ∧ connectedAt isConnectedTo triangles i j = true)) ∧
      (∀ i, k ≤ i → ((List.range k).foldl
        (fun adj i => adj.set i ((List.range triangles.length).filter (fun j =>
          decide (i ≠ j) &&
            ((decide (j < i) && (adj.getD j []).contains i) ||
              connectedAt isConnectedTo triangles i j))))
        (List.replicate triangles.length [])).getD i [] = []) := by
  intro k
  induction k with
  | zero =>
    intro _
    refine ⟨by simp, fun i hi => absurd hi (Nat.not_lt_zero i), fun i _ => ?_⟩
    by_cases h : i < triangles.length <;> simp [List.getElem?_replicate, h]
  | succ k ih =>
    intro hk
    obtain ⟨h1, h2, h3⟩ := ih (by omega)
    rw [List.range_succ, List.foldl_append, List.foldl_cons, List.foldl_nil]
    generalize (List.range k).foldl
        (fun adj i => adj.set i ((List.range triangles.length).filter (fun j =>
          decide (i ≠ j) &&
            ((decide (j < i) && (adj.getD j []).contains i) ||
              connectedAt isConnectedTo triangles i j))))
        (List.replicate triangles.length []) = adj at h1 h2 h3 ⊢
    have hkl : k < adj.length := by omega
    refine ⟨by rw [List.length_set, h1], ?_, ?_⟩
    · intro i hi j
      rw [getD_set_list _ _ _ _ hkl]
      by_cases hik : i = k
      · subst hik
        rw [if_pos rfl, List.mem_filter, List.mem_range]
        constructor
        · rintro ⟨hj, hc⟩
          simp only [Bool.and_eq_true, Bool.or_eq_true, decide_eq_true_eq] at hc
          refine ⟨hj, hc.1, ?_⟩
          rcases hc.2 with ⟨hji, hmem⟩ | hc2
          · have := (h2 j hji i).mp (by simpa using hmem)
            rw [connectedAt_symm isConnectedTo triangles hsym]
            exact this.2.2
          · exact hc2
        · rintro ⟨hj, hne, hc⟩
          refine ⟨hj, ?_⟩
          simp only [Bool.and_eq_true, Bool.or_eq_true, decide_eq_true_eq]
          exact ⟨hne, Or.inr hc⟩
      · rw [if_neg hik]
        exact h2 i (by omega) j
    · intro i hi
      rw [getD_set_list _ _ _ _ hkl, if_neg (by omega)]
      exact h3 i (by omega)

theorem buildAdj_spec {Triangle : Type} (isConnectedTo : Triangle → Triangle → Bool)
    (triangles : List Triangle)
    (hsym : ∀ a ∈ triangles, ∀ b ∈ triangles, isConnectedTo a b = isConnectedTo b a) :
    (buildAdj isConnectedTo triangles ⟨true⟩).length = triangles.length ∧
    ∀ i j, j ∈ (buildAdj isConnectedTo triangles ⟨true⟩).getD i [] ↔
      (i < triangles.length ∧ j < triangles.length ∧ i ≠ j ∧
        connectedAt isConnectedTo triangles i j = true) := by
  obtain ⟨h1, h2, h3⟩ := buildAdj_fold isConnectedTo triangles hsym triangles.length le_rfl
  refine ⟨h1, fun i j => ?_⟩
  unfold buildAdj loopIndices
  simp only [if_true]
  by_cases hi : i < triangles.length
  · rw [h2 i hi j]
    exact ⟨fun h => ⟨hi, h⟩, fun h => h.2⟩
  · rw [h3 i (by omega)]
    simp [hi]

theorem reach_symm {adj : List (List Nat)}
    (hsym : ∀ i j, j ∈ adj.getD i [] → i ∈ adj.getD j []) {a b : Nat} (h : Reach adj a b) :
    Reach adj b a := by
  induction h with
  | refl => exact Relation.ReflTransGen.refl
  | tail _ hbc ih => exact Relation.ReflTransGen.head (hsym _ _ hbc) ih

theorem closed_reach {adj : List (List Nat)} {d : List Bool}
    (hcl : ∀ u, d.getD u false = true → ∀ v ∈ adj.getD u [], d.getD v false = true)
    {a b : Nat} (ha : d.getD a false = true) (h : Reach adj a b) : d.getD b false = true := by
  induction h with
  | refl => exact ha
  | tail _ hbc ih => exact hcl _ ih _ hbc

theorem shapesInv_init (adj : List (List Nat)) (n : Nat) :
    ShapesInv adj n 0 ([], List.replicate n false) := by
  have hf : ∀ u, (List.replicate n false).getD u false = false := by
    intro u
    by_cases h : u < n <;> simp [List.getElem?_replicate, h]
  refine ⟨by simp, ?_, fun i hi => absurd hi (Nat.not_lt_zero i), ?_, by simp, by simp,
    by simp⟩
  · intro u hu
    rw [hf u] at hu
    exact absurd hu Bool.false_ne_true
  · intro u
    rw [hf u]
    simp

theorem shapesInv_step {adj : List (List Nat)} {n : Nat}
    (hadj : ∀ i j, j ∈ adj.getD i [] → j < n)
    (hsym : ∀ i j, j ∈ adj.getD i [] → i ∈ adj.getD j [])
    {fuel : Nat} (hfuel : n < fuel) {k : Nat} (hk : k < n)
    {s : List (List Nat) × List Bool} (h : ShapesInv adj n k s) :
    ∃ s2, (if s.2.getD k false = true then some s
        else
          match addtoshape adj fuel k ([], s.2) with
          | none => none
          | some r => some (s.1 ++ [r.1], r.2)) = some s2 ∧
      ShapesInv adj n (k + 1) s2 := by
  by_cases hd : s.2.getD k false = true
  · refine ⟨s, by rw [if_pos hd], h.len, h.closed, ?_, h.marks, h.nodup, h.bound, h.comp⟩
    intro i hi
    by_cases hik : i = k
    · rw [hik]; exact hd
    · exact h.before i (by omega)
  · have hcount : s.2.count false < fuel := by
      have := List.count_le_length false s.2
      rw [h.len] at this
      omega
    obtain ⟨new, done2, e, p, m⟩ := addtoshape_spec k hadj fuel k [] s.2 h.len hk
      Relation.ReflTransGen.refl hcount
    rw [List.nil_append] at e
    refine ⟨(s.1 ++ [new], done2), by rw [if_neg hd, e], p.len, ?_, ?_, ?_, ?_, ?_, ?_⟩
    · intro u hu v hv
      rcases (p.marks u).mp hu with hu | hu
      · exact dfsPost_mono p v (h.closed u hu v hv)
      · exact p.closed u hu v hv
    · intro i hi
      by_cases hik : i = k
      · rw [hik]; exact m
      · exact dfsPost_mono p i (h.before i (by omega))
    · intro u
      show done2.getD u false = true ↔ u ∈ (s.1 ++ [new]).flatten
      rw [p.marks u, h.marks u]
      simp
    · show (s.1 ++ [new]).flatten.Nodup
      rw [List.flatten_append]
      simp only [List.flatten_cons, List.flatten_nil, List.append_nil]
      refine List.Nodup.append h.nodup p.nodup ?_
      intro u hu1 hu2
      have := (h.marks u).mpr hu1
      rw [(p.fresh u hu2).1] at this
      exact Bool.false_ne_true this
    · intro u hu
      change u ∈ (s.1 ++ [new]).flatten at hu
      rw [List.flatten_append] at hu
      simp only [List.flatten_cons, List.flatten_nil, List.append_nil, List.mem_append] at hu
      rcases hu with hu | hu
      · exact h.bound u hu
      · exact (p.fresh u hu).2.1
    · intro c hc
      change c ∈ s.1 ++ [new] at hc
      rcases List.mem_append.mp hc with hc | hc
      · exact h.comp c hc
      · rw [List.mem_singleton] at hc
        subst hc
        refine ⟨k, fun v => ⟨fun hv => (p.fresh v hv).2.2, fun hv => ?_⟩⟩
        have hcl2 : ∀ u, done2.getD u false = true →
            ∀ w ∈ adj.getD u [], done2.getD w false = true := by
          intro u hu w hw
          rcases (p.marks u).mp hu with hu | hu
          · exact dfsPost_mono p w (h.closed u hu w hw)
          · exact p.closed u hu w hw
        rcases (p.marks v).mp (closed_reach hcl2 m hv) with hdv | hnew
        · exact absurd (closed_reach h.closed hdv (reach_symm hsym hv)) hd
        · exact hnew

theorem buildShapes_fold {adj : List (List Nat)} {n : Nat}
    (hadj : ∀ i j, j ∈ adj.getD i [] → j < n)
    (hsym : ∀ i j, j ∈ adj.getD i [] → i ∈ adj.getD j [])
    {fuel : Nat} (hfuel : n < fuel) :
    ∀ k, k ≤ n → ∃ s,
      (List.range k).foldlM
        (fun s i =>
          if s.2.getD i false = true then some s
          else
            match addtoshape adj fuel i ([], s.2) with
            | none => none
            | some r => some (s.1 ++ [r.1], r.2))
        (([], List.replicate n false) : List (List Nat) × List Bool) = some s ∧
      ShapesInv adj n k s := by
  intro k
  induction k with
  | zero => intro _; exact ⟨_, rfl, shapesInv_init adj n⟩
  | succ k ih =>
    intro hk
    obtain ⟨s, hs, hinv⟩ := ih (by omega)
    obtain ⟨s2, hs2, hinv2⟩ := shapesInv_step hadj hsym hfuel (by omega) hinv
    refine ⟨s2, ?_, hinv2⟩
    rw [List.range_succ, List.foldlM_append, hs]
    simp only [Option.bind_eq_bind, Option.some_bind, List.foldlM_cons, List.foldlM_nil]
    rw [hs2]
    rfl

theorem reach_iff_adjacent {Triangle : Type} (isConnectedTo : Triangle → Triangle → Bool)
    (triangles : List Triangle) {adj : List (List Nat)}
    (hspec : ∀ i j, j ∈ adj.getD i [] ↔
      (i < triangles.length ∧ j < triangles.length ∧ i ≠ j ∧
        connectedAt isConnectedTo triangles i j = true)) (u v : Nat) :
    Reach adj u v ↔ Relation.ReflTransGen (Adjacent isConnectedTo triangles) u v := by
  constructor
  · intro h
    refine Relation.ReflTransGen.mono ?_ h
    intro a b hab
    obtain ⟨h1, h2, -, h4⟩ := (hspec a b).mp hab
    exact ⟨h1, h2, h4⟩
  · intro h
    induction h with
    | refl => exact Relation.ReflTransGen.refl
    | @tail b c _ hbc ih =>
      by_cases hbc2 : b = c
      · rw [← hbc2]; exact ih
      · exact Relation.ReflTransGen.tail ih ((hspec b c).mpr ⟨hbc.1, hbc.2.1, hbc2, hbc.2.2⟩)

/-- C8. With a symmetric `isConnectedTo`, a progress object and no stop request,
`Shape::splitshapes` returns (the recursion of `addtoshape` is never deeper than the number of
triangles plus one) and the index lists of the shapes it creates partition the triangles into
the connected components of the adjacency relation: their concatenation is a permutation of
all indices, and two triangles are in a common shape exactly when a chain of pairwise adjacent
triangles joins them. -/
theorem splitshapes_components {Triangle : Type} (isConnectedTo : Triangle → Triangle → Bool)
    (triangles : List Triangle) (shapes : List (List Triangle)) (progress : ViewProgress)
    (fuel : Nat)
    (hsym : ∀ a ∈ triangles, ∀ b ∈ triangles, isConnectedTo a b = isConnectedTo b a)
    (hcont : progress.do_continue = true) (hfuel : triangles.length < fuel) :
    ∃ comps, splitIndices isConnectedTo triangles (some progress) fuel = some comps ∧
      splitshapes isConnectedTo triangles shapes (some progress) fuel =
        some (shapes ++ comps.map (fun current => current.filterMap (fun i => triangles[i]?))) ∧
      comps.flatten.Perm (List.range triangles.length) ∧
      ∀ u v, u < triangles.length → v < triangles.length →
        ((∃ c ∈ comps, u ∈ c ∧ v ∈ c) ↔
          Relation.ReflTransGen (Adjacent isConnectedTo triangles) u v) := by
  have hp : progress = ⟨true⟩ := by
    cases progress
    simpa using hcont
  subst hp
  obtain ⟨-, hspec⟩ := buildAdj_spec isConnectedTo triangles hsym
  have hadj : ∀ i j, j ∈ (buildAdj isConnectedTo triangles ⟨true⟩).getD i [] →
      j < triangles.length := fun i j h => ((hspec i j).mp h).2.1
  have hsymAdj : ∀ i j, j ∈ (buildAdj isConnectedTo triangles ⟨true⟩).getD i [] →
      i ∈ (buildAdj isConnectedTo triangles ⟨true⟩).getD j [] := by
    intro i j h
    obtain ⟨h1, h2, h3, h4⟩ := (hspec i j).mp h
    exact (hspec j i).mpr ⟨h2, h1, Ne.symm h3,
      by rw [connectedAt_symm isConnectedTo triangles hsym]; exact h4⟩
  obtain ⟨s, hs, hinv⟩ := buildShapes_fold hadj hsymAdj hfuel triangles.length le_rfl
  have hidx : splitIndices isConnectedTo triangles (some ⟨true⟩) fuel = some s.1 := by
    simp only [splitIndices, buildShapes, loopIndices, if_true]
    rw [hs]
  refine ⟨s.1, hidx, by simp only [splitshapes, hidx], ?_, ?_⟩
  · have hsub : List.range triangles.length ⊆ s.1.flatten := fun u hu =>
      (hinv.marks u).mp (hinv.before u (List.mem_range.mp hu))
    have hsub2 : s.1.flatten ⊆ List.range triangles.length := fun u hu =>
      List.mem_range.mpr (hinv.bound u hu)
    exact (List.subperm_of_subset hinv.nodup hsub2).perm_of_length_le
      (List.subperm_of_subset (List.nodup_range _) hsub).length_le
  · intro u v hu _
    rw [← reach_iff_adjacent isConnectedTo triangles hspec]
    constructor
    · rintro ⟨c, hc, huc, hvc⟩
      obtain ⟨root, hroot⟩ := hinv.comp c hc
      exact Relation.ReflTransGen.trans (reach_symm hsymAdj ((hroot u).mp huc))
        ((hroot v).mp hvc)
    · intro hr
      have hmem : u ∈ s.1.flatten := (hinv.marks u).mp (hinv.before u hu)
      obtain ⟨c, hc, huc⟩ := List.mem_flatten.mp hmem
      obtain ⟨root, hroot⟩ := hinv.comp c hc
      exact ⟨c, hc, huc, (hroot v).mpr (Relation.ReflTransGen.trans ((hroot u).mp huc) hr)⟩

theorem splitshapes_components_witness :
    ∃ comps,
      splitIndices (fun a b : Nat => a + 1 == b || b + 1 == a) [0, 1, 5, 2, 6, 9]
        (some ⟨true⟩) 7 = some comps ∧
      splitshapes (fun a b : Nat => a + 1 == b || b + 1 == a) [0, 1, 5, 2, 6, 9] []
        (some ⟨true⟩) 7 =
        some ([] ++ comps.map (fun current =>
          current.filterMap (fun i => [0, 1, 5, 2, 6, 9][i]?))) ∧
      comps.flatten.Perm (List.range 6) ∧
      ∀ u v, u < 6 → v < 6 →
        ((∃ c ∈ comps, u ∈ c ∧ v ∈ c) ↔
          Relation.ReflTransGen
            (Adjacent (fun a b : Nat => a + 1 == b || b + 1 == a) [0, 1, 5, 2, 6, 9]) u v) :=
  splitshapes_components (fun a b : Nat => a + 1 == b || b + 1 == a) [0, 1, 5, 2, 6, 9] []
    ⟨true⟩ 7 (by decide) rfl (by decide)

theorem splitshapes_example :
    splitshapes (fun a b : Nat => a + 1 == b || b + 1 == a) [0, 1, 5, 2, 6, 9] []
      (some ⟨true⟩) 7 = some [[0, 1, 2], [5, 6], [9]] := by
  decide

/-! ## `fived_handle_reply` -/

theorem char_eq_of_toNat {c : Char} {n : Nat} (h : c.toNat = n) : c = Char.ofNat n := by
  rw [← h]
  exact (Char.ofNat_toNat c).symm

/-- A character whose lower-case form is a given lower-case letter is that letter or its
capital. -/
theorem toLower_eq_cases (c : Char) (l : Char) (hl : 97 ≤ l.toNat ∧ l.toNat ≤ 122)
    (h : c.toLower = l) : c = l ∨ c = Char.ofNat (l.toNat - 32) := by
  unfold Char.toLower at h
  simp only at h
  by_cases hr : c.toNat ≥ 65 ∧ c.toNat ≤ 90
  · rw [if_pos hr] at h
    right
    have h2 : (Char.ofNat (c.toNat + 32)).toNat = l.toNat := by rw [h]
    have h3 : (Char.ofNat (c.toNat + 32)).toNat = c.toNat + 32 := by
      obtain ⟨h65, h90⟩ := hr
      generalize c.toNat = n at h65 h90
      interval_cases n <;> rfl
    rw [h3] at h2
    exact char_eq_of_toNat (by omega)
  · rw [if_neg hr] at h
    exact Or.inl h

theorem first_char_of_prefix (w : String) (c0 : Char) (hw : w.toList.head? = some c0)
    (reply : List Char) (h : strncasecmp_eq w reply = true) :
    ∃ c rest, reply = c :: rest ∧ c.toLower = c0 := by
  unfold strncasecmp_eq at h
  rw [decide_eq_true_eq] at h
  cases reply with
  | nil =>
    rw [List.take_nil, List.map_nil] at h
    rw [← h] at hw
    simp at hw
  | cons c rest =>
    refine ⟨c, rest, rfl, ?_⟩
    have hlen : w.length = w.toList.length := rfl
    cases hwl : w.toList with
    | nil => rw [hwl] at hw; simp at hw
    | cons a as =>
      rw [hwl] at hw h hlen
      rw [hlen, List.length_cons, List.take_succ_cons, List.map_cons] at h
      simp only [List.head?_cons, Option.some.injEq] at hw
      rw [← hw]
      exact (List.cons.inj h).1

theorem not_prefix_of_first (w : String) (c0 l : Char) (hw : w.toList.head? = some c0)
    (hne : l ≠ c0) (c : Char) (rest : List Char) (hc : c.toLower = l) :
    strncasecmp_eq w (c :: rest) = false := by
  by_contra hcon
  have ht : strncasecmp_eq w (c :: rest) = true := by simpa using hcon
  obtain ⟨c2, rest2, heq, hc2⟩ := first_char_of_prefix w c0 hw (c :: rest) ht
  obtain ⟨h1, -⟩ := List.cons.inj heq
  rw [← h1, hc] at hc2
  exact hne hc2

/-- Every reply that begins with `ok` is rejected at its first character when `nbytes > 0`:
the loop starts at the `o`, which is no field letter. -/
theorem fived_ok_rejected {F : Type} (strtof : List Char → F × Nat) (dev : rr_dev)
    (reply : List Char) (nbytes : Nat) (h : strncasecmp_eq "ok" reply = true)
    (hn : 0 < nbytes) :
    fived_handle_reply strtof dev reply nbytes =
      some ⟨[DevCall.emit_error rr_error.RR_E_UNKNOWN_REPLY], RetVal.of_emit_error⟩ := by
  obtain ⟨c, rest, rfl, hc⟩ := first_char_of_prefix "ok" 'o' rfl reply h
  have hf : fieldOf c = none := by
    rcases toLower_eq_cases c 'o' (by decide) hc with rfl | rfl <;> decide
  unfold fived_handle_reply
  rw [if_pos h]
  obtain ⟨k, rfl⟩ : ∃ k, nbytes = k + 1 := ⟨nbytes - 1, by omega⟩
  rw [okLoop, if_pos hn]
  simp only [List.getD_cons_zero, hf, List.nil_append]

/-- C18: the claimed behaviour fails on the code. On the reply of the specification,
`"ok T:200.1 B:60.0"`, `fived_handle_reply` makes no callback: the loop of the `ok` branch
starts at the `o` of `ok`, the `switch` takes its `default` case, and the call returns what
`rr_dev_emit_error(RR_E_UNKNOWN_REPLY)` returns. -/
theorem fived_ok_telemetry_rejected :
    fived_handle_reply decimalStrtof ⟨10, true⟩ "ok T:200.1 B:60.0".toList 17 =
      some ⟨[DevCall.emit_error rr_error.RR_E_UNKNOWN_REPLY], RetVal.of_emit_error⟩ := by
  decide!

/-- C19 (amended). For every reply that begins with `rs` or `resend`, with `n` the number that
starts at the first digit `1`-`9` (`0` when there is none): the call resends line `n` exactly
when `n` is less than the line counter and the character just before that digit is not `-`;
in every other case it emits the unsent-resend error. -/
theorem fived_resend {F : Type} (strtof : List Char → F × Nat) (dev : rr_dev)
    (reply : List Char) (nbytes : Nat)
    (h : strncasecmp_eq "rs" reply = true ∨ strncasecmp_eq "resend" reply = true) :
    fived_handle_reply strtof dev reply nbytes =
      some (if strtoll (reply.drop (strcspn_digits reply)) < dev.lineno ∧
          reply.getD (strcspn_digits reply - 1) '\x00' ≠ '-'
        then ⟨[DevCall.resend (strtoll (reply.drop (strcspn_digits reply)))], RetVal.of_resend⟩
        else ⟨[DevCall.emit_error rr_error.RR_E_UNSENT_RESEND], RetVal.of_emit_error⟩) := by
  have hfirst : ∃ c rest, reply = c :: rest ∧ c.toLower = 'r' := by
    rcases h with h | h
    · exact first_char_of_prefix "rs" 'r' rfl reply h
    · exact first_char_of_prefix "resend" 'r' rfl reply h
  obtain ⟨c, rest, rfl, hc⟩ := hfirst
  have hok : strncasecmp_eq "ok" (c :: rest) = false :=
    not_prefix_of_first "ok" 'o' 'r' rfl (by decide) c rest hc
  have hdig : strcspn_digits (c :: rest) ≠ 0 := by
    unfold strcspn_digits
    have hnd : (!("123456789".toList.contains c)) = true := by
      rcases toLower_eq_cases c 'r' (by decide) hc with rfl | rfl <;> decide
    rw [List.takeWhile_cons, hnd]
    simp
  unfold fived_handle_reply
  rw [hok]
  simp only [Bool.false_eq_true, if_false, h, if_true, hdig, ne_eq, not_false_eq_true]
  split <;> rfl

theorem fived_resend_witness :
    fived_handle_reply decimalStrtof ⟨10, true⟩ "rs N5".toList 5 =
      some (if strtoll ("rs N5".toList.drop (strcspn_digits "rs N5".toList)) < (10 : Int) ∧
          "rs N5".toList.getD (strcspn_digits "rs N5".toList - 1) '\x00' ≠ '-'
        then ⟨[DevCall.resend (strtoll ("rs N5".toList.drop (strcspn_digits "rs N5".toList)))],
          RetVal.of_resend⟩
        else ⟨[DevCall.emit_error rr_error.RR_E_UNSENT_RESEND], RetVal.of_emit_error⟩) :=
  fived_resend decimalStrtof ⟨10, true⟩ "rs N5".toList 5 (Or.inl (by decide))

/-- The two replies of the specification: `"rs N5"` with line counter `10` resends line `5`;
with line counter `3` it yields the unsent-resend error. -/
theorem fived_resend_scenario :
    fived_handle_reply decimalStrtof ⟨10, true⟩ "rs N5".toList 5 =
      some ⟨[DevCall.resend 5], RetVal.of_resend⟩ ∧
    fived_handle_reply decimalStrtof ⟨3, true⟩ "rs N5".toList 5 =
      some ⟨[DevCall.emit_error rr_error.RR_E_UNSENT_RESEND], RetVal.of_emit_error⟩ := by
  decide!

/-- C19 (as stated) fails. In `"rs N-5"` the line number `5` is below the line counter `10` and
is not followed by `-`, yet the call emits the unsent-resend error; in `"rs N5-"` the number
is followed by a bare `-`, yet line `5` is resent. The code tests the character before the
number, not the one after it. -/
theorem fived_resend_dash_position :
    (strtoll ("rs N-5".toList.drop (strcspn_digits "rs N-5".toList)) = 5 ∧
      charAfterNumber "rs N-5".toList ≠ '-' ∧
      fived_handle_reply decimalStrtof ⟨10, true⟩ "rs N-5".toList 6 =
        some ⟨[DevCall.emit_error rr_error.RR_E_UNSENT_RESEND], RetVal.of_emit_error⟩) ∧
    (strtoll ("rs N5-".toList.drop (strcspn_digits "rs N5-".toList)) = 5 ∧
      charAfterNumber "rs N5-".toList = '-' ∧
      fived_handle_reply decimalStrtof ⟨10, true⟩ "rs N5-".toList 6 =
        some ⟨[DevCall.resend 5], RetVal.of_resend⟩) := by
  decide!

/-- C20. For every reply that begins, in any letter case, with `start`, `fived_handle_reply`
makes exactly one call on the device, `rr_dev_reset_lineno`, and returns `0`: no telemetry
callback, no error, and nothing else is done to the device. -/
theorem fived_start {F : Type} (strtof : List Char → F × Nat) (dev : rr_dev)
    (reply : List Char) (nbytes : Nat) (h : strncasecmp_eq "start" reply = true) :
    fived_handle_reply strtof dev reply nbytes =
      some ⟨[DevCall.reset_lineno], RetVal.zero⟩ := by
  obtain ⟨c, rest, rfl, hc⟩ := first_char_of_prefix "start" 's' rfl reply h
  have hok : strncasecmp_eq "ok" (c :: rest) = false :=
    not_prefix_of_first "ok" 'o' 's' rfl (by decide) c rest hc
  have hrs : strncasecmp_eq "rs" (c :: rest) = false :=
    not_prefix_of_first "rs" 'r' 's' rfl (by decide) c rest hc
  have hre : strncasecmp_eq "resend" (c :: rest) = false :=
    not_prefix_of_first "resend" 'r' 's' rfl (by decide) c rest hc
  have hbang : strncmp_eq "!!" (c :: rest) = false := by
    unfold strncmp_eq
    rw [decide_eq_false_iff_not]
    intro hcon
    have hlen : "!!".length = 2 := rfl
    rw [hlen, List.take_succ_cons] at hcon
    have hc2 : c = '!' := (List.cons.inj hcon).1
    rw [hc2] at hc
    exact absurd hc (by decide)
  unfold fived_handle_reply
  simp only [hok, hrs, hre, hbang, h, Bool.false_eq_true, or_self, if_false, if_true]

theorem fived_start_witness :
    fived_handle_reply decimalStrtof ⟨10, true⟩ "Start".toList 5 =
      some ⟨[DevCall.reset_lineno], RetVal.zero⟩ :=
  fived_start decimalStrtof ⟨10, true⟩ "Start".toList 5 (by decide)

/-! ## `Layer::setSupportPolygons` -/

theorem supportStep_last (cleanup : Poly → ℚ → Poly) (Area : Poly → ℚ)
    (getMinMax : Poly → Vector2d × Vector2d) (thickness : ℚ) (s : SupportState)
    (l : List Poly) (p : Poly) (tail : List Poly) (hs : s.supportPolygons = l ++ p :: tail) :
    (supportStep cleanup Area getMinMax thickness s l.length).supportPolygons =
      l ++ ((if 10 * thickness * thickness ≤ |Area (cleanup p (thickness / CLEANFACTOR))|
        then [cleanup p (thickness / CLEANFACTOR)] else []) ++ tail) := by
  have hget : s.supportPolygons.getD l.length ⟨[], 0, false⟩ = p := by
    rw [hs, List.getD_eq_getElem?_getD, List.getElem?_append_right (le_refl _)]
    simp
  have hset : ∀ q, s.supportPolygons.set l.length q = l ++ q :: tail := by
    intro q
    rw [hs]
    simp
  unfold supportStep
  simp only [hget, hset]
  by_cases hsmall : |Area (cleanup p (thickness / CLEANFACTOR))| < 10 * thickness * thickness
  · rw [if_pos hsmall, if_neg (not_le.mpr hsmall)]
    simp [List.eraseIdx_append_of_length_le]
  · rw [if_neg hsmall, if_pos (not_lt.mp hsmall)]
    simp

theorem setSupportPolygons_fold (cleanup : Poly → ℚ → Poly) (Area : Poly → ℚ)
    (getMinMax : Poly → Vector2d × Vector2d) (thickness : ℚ) :
    ∀ (l tail : List Poly) (s : SupportState), s.supportPolygons = l ++ tail →
      ((List.range l.length).reverse.foldl (supportStep cleanup Area getMinMax thickness)
        s).supportPolygons =
        (l.map (fun p => cleanup p (thickness / CLEANFACTOR))).filter
          (fun p => decide (10 * thickness * thickness ≤ |Area p|)) ++ tail := by
  intro l
  induction l using List.reverseRecOn with
  | nil => intro tail s hs; simpa using hs
  | append_singleton l p ih =>
    intro tail s hs
    rw [List.length_append, List.length_singleton, List.range_succ, List.reverse_append,
      List.reverse_singleton, List.singleton_append, List.foldl_cons]
    rw [List.append_assoc, List.singleton_append] at hs
    rw [ih _ _ (supportStep_last cleanup Area getMinMax thickness s l p tail hs)]
    rw [List.map_append, List.filter_append, List.append_assoc]
    congr 1
    by_cases hbig : 10 * thickness * thickness ≤ |Area (cleanup p (thickness / CLEANFACTOR))|
    · simp [hbig]
    · simp [hbig]

/-- C15. After `Layer::setSupportPolygons(polys)` the support polygons are exactly the
cleaned-up input polygons whose absolute area is at least `10 * thickness^2`, in their original
order. -/
theorem setSupportPolygons_filter (cleanup : Poly → ℚ → Poly) (Area : Poly → ℚ)
    (getMinMax : Poly → Vector2d × Vector2d) (thickness : ℚ) (Min Max : Vector2d)
    (polys : List Poly) :
    (setSupportPolygons cleanup Area getMinMax thickness Min Max polys).supportPolygons =
      (polys.map (fun p => cleanup p (thickness / CLEANFACTOR))).filter
        (fun p => decide (10 * thickness ^ 2 ≤ |Area p|)) := by
  have h := setSupportPolygons_fold cleanup Area getMinMax thickness polys [] ⟨polys, Min, Max⟩
    (by simp)
  rw [List.append_nil] at h
  unfold setSupportPolygons
  rw [h]
  have e : 10 * thickness ^ 2 = 10 * thickness * thickness := by ring
  simp only [e]

/-! ## Bridge angles -/

theorem isBridgeAngle_unique {dir : Vector2d} {t u : ℝ}
    (ht : IsBridgeAngle dir t) (hu : IsBridgeAngle dir u) : u = t := by
  rcases ht with ⟨h1, rfl⟩ | ⟨h1, rfl⟩ <;> rcases hu with ⟨h2, rfl⟩ | ⟨h2, rfl⟩
  · rfl
  · exact absurd h1 h2
  · exact absurd h2 h1
  · rfl

theorem isBridgeAngle_exists (dir : Vector2d) : ∃ t, IsBridgeAngle dir t := by
  by_cases h : Complex.arg ⟨(dir.x : ℝ), (dir.y : ℝ)⟩ < 0
  · exact ⟨_, Or.inl ⟨h, rfl⟩⟩
  · exact ⟨_, Or.inr ⟨h, rfl⟩⟩

theorem isBridgeAngle_range {dir : Vector2d} {t : ℝ} (ht : IsBridgeAngle dir t) :
    0 ≤ t ∧ t ≤ Real.pi ∧ (t = Real.pi ↔ dir.x < 0 ∧ dir.y = 0) := by
  have hlo := Complex.neg_pi_lt_arg ⟨(dir.x : ℝ), (dir.y : ℝ)⟩
  have hhi := Complex.arg_le_pi ⟨(dir.x : ℝ), (dir.y : ℝ)⟩
  have hpi := @Complex.arg_eq_pi_iff ⟨(dir.x : ℝ), (dir.y : ℝ)⟩
  simp only [Rat.cast_lt_zero, Rat.cast_eq_zero] at hpi
  rcases ht with ⟨h1, rfl⟩ | ⟨h1, rfl⟩
  · refine ⟨by linarith, by linarith, ?_⟩
    constructor
    · intro h
      exfalso
      linarith
    · intro h
      have := hpi.2 h
      have hp := Real.pi_pos
      exfalso
      linarith
  · exact ⟨not_lt.1 h1, hhi, hpi⟩

theorem bridgeDir_pair (c0 c1 : Vector2d) :
    bridgeDir [c0, c1] = ⟨0 + (c1.x - c0.x), 0 + (c1.y - c0.y)⟩ := by
  simp [bridgeDir, vertexAt, List.range_succ, List.range']

theorem isBridgeAngle_parallel {dir : Vector2d} {t : ℝ} (ht : IsBridgeAngle dir t)
    (hne : dir ≠ ⟨0, 0⟩) :
    ∃ k : ℝ, k ≠ 0 ∧ (dir.x : ℝ) = k * Real.cos t ∧ (dir.y : ℝ) = k * Real.sin t := by
  have hz : (⟨(dir.x : ℝ), (dir.y : ℝ)⟩ : ℂ) ≠ 0 := by
    intro h
    apply hne
    have hx : (dir.x : ℝ) = 0 := congrArg Complex.re h
    have hy : (dir.y : ℝ) = 0 := congrArg Complex.im h
    cases dir
    simp only [Rat.cast_eq_zero] at hx hy
    simp [hx, hy]
  have habs : Complex.abs ⟨(dir.x : ℝ), (dir.y : ℝ)⟩ ≠ 0 := by
    simpa using hz
  have hc := Complex.abs_mul_cos_arg ⟨(dir.x : ℝ), (dir.y : ℝ)⟩
  have hs := Complex.abs_mul_sin_arg ⟨(dir.x : ℝ), (dir.y : ℝ)⟩
  simp only at hc hs
  rcases ht with ⟨_, rfl⟩ | ⟨_, rfl⟩
  · refine ⟨-Complex.abs ⟨(dir.x : ℝ), (dir.y : ℝ)⟩, neg_ne_zero.2 habs, ?_, ?_⟩
    · rw [Real.cos_add_pi]; linarith
    · rw [Real.sin_add_pi]; linarith
  · exact ⟨Complex.abs ⟨(dir.x : ℝ), (dir.y : ℝ)⟩, habs, hc.symm, hs.symm⟩

theorem isBridgeAngle_neg_x_axis : IsBridgeAngle (bridgeDir [⟨1, 0⟩, ⟨0, 0⟩]) Real.pi := by
  have hd : bridgeDir [⟨1, 0⟩, ⟨0, 0⟩] = ⟨-1, 0⟩ := by decide!
  have hz : (⟨((-1 : ℚ) : ℝ), ((0 : ℚ) : ℝ)⟩ : ℂ) = -1 := by
    apply Complex.ext <;> simp
  rw [hd]
  refine Or.inr ⟨?_, ?_⟩
  · show ¬ Complex.arg ⟨((-1 : ℚ) : ℝ), ((0 : ℚ) : ℝ)⟩ < 0
    rw [hz, Complex.arg_neg_one]
    exact not_lt.2 Real.pi_pos.le
  · show Real.pi = Complex.arg ⟨((-1 : ℚ) : ℝ), ((0 : ℚ) : ℝ)⟩
    rw [hz, Complex.arg_neg_one]

/-- C13 (counterexample). With the two pillar centres `(1,0)` and `(0,0)` the summed difference
is `(-1, 0)`, `atan2 (0, -1) = π` is not negative, and the stored bridge angle is `π` itself,
which is outside the half-open interval `[0, π)`. -/
theorem calcBridgeAngles_reaches_pi :
    ∃ t : ℝ, IsBridgeAngle (bridgeDir [⟨1, 0⟩, ⟨0, 0⟩]) t ∧
      (∀ u, IsBridgeAngle (bridgeDir [⟨1, 0⟩, ⟨0, 0⟩]) u → u = t) ∧
      ¬ (0 ≤ t ∧ t < Real.pi) :=
  ⟨Real.pi, isBridgeAngle_neg_x_axis,
    fun _ hu => isBridgeAngle_unique isBridgeAngle_neg_x_axis hu, fun h => lt_irrefl _ h.2⟩

/-- C13 (amended). For every list of pillar centres `Layer::calcBridgeAngles` stores exactly one
angle `t`; it lies in the closed interval `[0, π]`, and it equals `π` exactly when the summed
centre difference points along the negative x axis. -/
theorem calcBridgeAngles_range (centers : List Vector2d) :
    ∃ t : ℝ, IsBridgeAngle (bridgeDir centers) t ∧
      (∀ u, IsBridgeAngle (bridgeDir centers) u → u = t) ∧
      0 ≤ t ∧ t ≤ Real.pi ∧
      (t = Real.pi ↔ (bridgeDir centers).x < 0 ∧ (bridgeDir centers).y = 0) := by
  obtain ⟨t, ht⟩ := isBridgeAngle_exists (bridgeDir centers)
  exact ⟨t, ht, fun _ hu => isBridgeAngle_unique ht hu, isBridgeAngle_range ht⟩

/-- C14. For exactly two pillars with distinct centres `c0` and `c1` the stored bridge angle `t`
is aligned with the axis through the centres: `c1 - c0 = k * (cos t, sin t)` for a non-zero real
`k`, so the unit vector `(cos t, sin t)` is parallel to `c1 - c0`. -/
theorem calcBridgeAngles_two_pillars (c0 c1 : Vector2d) (h : c0 ≠ c1) :
    ∃ t : ℝ, IsBridgeAngle (bridgeDir [c0, c1]) t ∧
      (∀ u, IsBridgeAngle (bridgeDir [c0, c1]) u → u = t) ∧
      ∃ k : ℝ, k ≠ 0 ∧ ((c1.x - c0.x : ℚ) : ℝ) = k * Real.cos t ∧
        ((c1.y - c0.y : ℚ) : ℝ) = k * Real.sin t := by
  obtain ⟨t, ht⟩ := isBridgeAngle_exists (bridgeDir [c0, c1])
  refine ⟨t, ht, fun _ hu => isBridgeAngle_unique ht hu, ?_⟩
  have hne : bridgeDir [c0, c1] ≠ ⟨0, 0⟩ := by
    rw [bridgeDir_pair]
    intro h0
    apply h
    have hx : 0 + (c1.x - c0.x) = 0 := congrArg Vector2d.x h0
    have hy : 0 + (c1.y - c0.y) = 0 := congrArg Vector2d.y h0
    cases c0; cases c1
    simp only [Vector2d.mk.injEq] at *
    constructor <;> linarith
  obtain ⟨k, hk, hx, hy⟩ := isBridgeAngle_parallel ht hne
  rw [bridgeDir_pair] at hx hy
  simp only [zero_add] at hx hy
  exact ⟨k, hk, hx, hy⟩

theorem calcBridgeAngles_two_pillars_witness :
    (⟨0, 0⟩ : Vector2d) ≠ ⟨3, 4⟩ ∧
    ∃ t : ℝ, IsBridgeAngle (bridgeDir [⟨0, 0⟩, ⟨3, 4⟩]) t ∧
      (∀ u, IsBridgeAngle (bridgeDir [⟨0, 0⟩, ⟨3, 4⟩]) u → u = t) ∧
      ∃ k : ℝ, k ≠ 0 ∧ (((3 : ℚ) - 0 : ℚ) : ℝ) = k * Real.cos t ∧
        (((4 : ℚ) - 0 : ℚ) : ℝ) = k * Real.sin t :=
  ⟨by decide!, calcBridgeAngles_two_pillars ⟨0, 0⟩ ⟨3, 4⟩ (by decide!)⟩

/-! ## Fill regions -/

theorem regionOf_map_inf_le {R : Type} [GeneralizedBooleanAlgebra R] (F : R) (ns : List R) :
    regionOf (ns.map (fun n => F ⊓ n)) ≤ F ⊓ regionOf ns := by
  induction ns with
  | nil => simp [regionOf]
  | cons n t ih =>
    have ih2 : regionOf (t.map (fun n => F ⊓ n)) ≤ F ⊓ regionOf t := ih
    show (F ⊓ n) ⊔ regionOf (t.map (fun n => F ⊓ n)) ≤ F ⊓ (n ⊔ regionOf t)
    exact sup_le (inf_le_inf_left _ le_sup_left) (ih2.trans (inf_le_inf_left _ le_sup_right))

theorem pairwiseDisjoint_iff {R : Type} [GeneralizedBooleanAlgebra R] (l : FillRegions R) :
    l.PairwiseDisjoint ↔
      Disjoint l.fillPolygons l.fullFillPolygons ∧ Disjoint l.fillPolygons l.bridgePolygons ∧
      Disjoint l.fillPolygons l.decorPolygons ∧ Disjoint l.fullFillPolygons l.bridgePolygons ∧
      Disjoint l.fullFillPolygons l.decorPolygons ∧
      Disjoint l.bridgePolygons l.decorPolygons := by
  simp only [FillRegions.PairwiseDisjoint, disjoint_iff]

/-- `addBridgePolygons` keeps the four regions pairwise disjoint. -/
theorem addBridgePolygons_disjoint {R : Type} [GeneralizedBooleanAlgebra R] (l : FillRegions R)
    (newexpolys : List R) (h : l.PairwiseDisjoint) :
    (addBridgePolygons l newexpolys).PairwiseDisjoint := by
  unfold addBridgePolygons
  split
  · exact h
  · rw [pairwiseDisjoint_iff] at h ⊢
    obtain ⟨hFU, hFB, hFD, hUB, hUD, hBD⟩ := h
    have hB := regionOf_map_inf_le l.fillPolygons newexpolys
    refine ⟨hFU.mono_left sdiff_le, ?_, hFD.mono_left sdiff_le, ?_, hUD, ?_⟩
    · exact disjoint_sdiff_self_left.mono_right (hB.trans inf_le_right)
    · exact hFU.symm.mono_right (hB.trans inf_le_left)
    · exact hFD.mono_left (hB.trans inf_le_left)

/-- `addFullPolygons` without `decor` keeps the four regions pairwise disjoint. -/
theorem addFullPolygons_disjoint {R : Type} [GeneralizedBooleanAlgebra R] (l : FillRegions R)
    (newpolys : List R) (h : l.PairwiseDisjoint) :
    (addFullPolygons l newpolys false).PairwiseDisjoint := by
  unfold addFullPolygons
  split
  · exact h
  · rw [pairwiseDisjoint_iff] at h ⊢
    obtain ⟨hFU, hFB, hFD, hUB, hUD, hBD⟩ := h
    simp only [Bool.false_eq_true, if_false]
    refine ⟨?_, hFB.mono_left sdiff_le, hFD.mono_left sdiff_le, ?_, ?_, hBD⟩
    · exact disjoint_sup_right.2
        ⟨hFU.mono_left sdiff_le, disjoint_sdiff_self_left.mono_right inf_le_right⟩
    · exact disjoint_sup_left.2 ⟨hUB, hFB.mono_left inf_le_left⟩
    · exact disjoint_sup_left.2 ⟨hUD, hFD.mono_left inf_le_left⟩

/-- `mergeFullPolygons` keeps the four regions pairwise disjoint. -/
theorem mergeFullPolygons_disjoint {R : Type} [GeneralizedBooleanAlgebra R] (l : FillRegions R)
    (h : l.PairwiseDisjoint) : (mergeFullPolygons l).PairwiseDisjoint := by
  unfold mergeFullPolygons
  rw [pairwiseDisjoint_iff] at h ⊢
  obtain ⟨hFU, hFB, hFD, hUB, hUD, hBD⟩ := h
  exact ⟨hFU.mono_left sdiff_le, hFB.mono_left sdiff_le, hFD.mono_left sdiff_le, hUB, hUD, hBD⟩

/-- `addFullPolygons` with `decor`: every pair but normal fill / full fill stays disjoint, and
the overlap of the new normal fill with the new full fill is the old full fill outside the new
polygons. -/
theorem addFullPolygons_decor {R : Type} [GeneralizedBooleanAlgebra R] (l : FillRegions R)
    (newpolys : List R) (hne : newpolys.length ≠ 0) (h : l.PairwiseDisjoint) :
    (addFullPolygons l newpolys true).fillPolygons ⊓
        (addFullPolygons l newpolys true).fullFillPolygons =
      l.fullFillPolygons \ regionOf newpolys ∧
    Disjoint (addFullPolygons l newpolys true).fillPolygons
      (addFullPolygons l newpolys true).bridgePolygons ∧
    Disjoint (addFullPolygons l newpolys true).fillPolygons
      (addFullPolygons l newpolys true).decorPolygons ∧
    Disjoint (addFullPolygons l newpolys true).fullFillPolygons
      (addFullPolygons l newpolys true).bridgePolygons ∧
    Disjoint (addFullPolygons l newpolys true).fullFillPolygons
      (addFullPolygons l newpolys true).decorPolygons ∧
    Disjoint (addFullPolygons l newpolys true).bridgePolygons
      (addFullPolygons l newpolys true).decorPolygons := by
  rw [pairwiseDisjoint_iff] at h
  obtain ⟨hFU, hFB, hFD, hUB, hUD, hBD⟩ := h
  simp only [addFullPolygons, hne, if_false, if_true]
  have hU : l.fullFillPolygons \ ((l.fillPolygons ⊔ l.fullFillPolygons) ⊓ regionOf newpolys) =
      l.fullFillPolygons \ regionOf newpolys := by
    rw [sdiff_inf, sdiff_eq_bot_iff.2 (le_sup_right : l.fullFillPolygons ≤ _), bot_sup_eq]
  rw [hU]
  have hSB : Disjoint (l.fillPolygons ⊔ l.fullFillPolygons) l.bridgePolygons :=
    disjoint_sup_left.2 ⟨hFB, hUB⟩
  have hSD : Disjoint (l.fillPolygons ⊔ l.fullFillPolygons) l.decorPolygons :=
    disjoint_sup_left.2 ⟨hFD, hUD⟩
  refine ⟨?_, hSB.mono_left sdiff_le, ?_, hUB.mono_left sdiff_le, ?_, ?_⟩
  · exact inf_eq_right.2 (sdiff_le_sdiff_right le_sup_right)
  · exact disjoint_sup_right.2
      ⟨hSD.mono_left sdiff_le, disjoint_sdiff_self_left.mono_right inf_le_right⟩
  · exact disjoint_sup_right.2
      ⟨hUD.mono_left sdiff_le, disjoint_sdiff_self_left.mono_right inf_le_right⟩
  · exact disjoint_sup_right.2 ⟨hBD, hSB.symm.mono_right inf_le_left⟩

/-- C17 (failing input). Regions are finite sets of cells.  Normal fill `{0}`, full fill `{1}`,
no bridge and no decor are pairwise disjoint; after `addFullPolygons` with `decor = true` and
the single new polygon `{0}` the normal fill is `{1}` and the full fill is still `{1}`, so the
regions are no longer pairwise disjoint. -/
theorem addFullPolygons_decor_overlap :
    (⟨{0}, {1}, ∅, ∅⟩ : FillRegions (Finset ℕ)).PairwiseDisjoint ∧
    (addFullPolygons (⟨{0}, {1}, ∅, ∅⟩ : FillRegions (Finset ℕ)) [{0}] true).fillPolygons = {1} ∧
    (addFullPolygons (⟨{0}, {1}, ∅, ∅⟩ : FillRegions (Finset ℕ)) [{0}] true).fullFillPolygons
      = {1} ∧
    ¬ (addFullPolygons (⟨{0}, {1}, ∅, ∅⟩ : FillRegions (Finset ℕ)) [{0}] true).PairwiseDisjoint := by
  decide

/-! ## Shell rings -/

theorem innerShellLoop_spec (env : ShellEnv) (w c : ℚ) (n : Nat) (shrinked : List Poly)
    (shells : List (List Poly)) (thin : List Poly) :
    (innerShellLoop env w c n shrinked shells thin).1 =
        (fun r => (shellStep env w c r).1)^[n] shrinked ∧
    (innerShellLoop env w c n shrinked shells thin).2.1 =
        shells ++ (List.range n).map
          (fun k => (fun r => (shellStep env w c r).1)^[k + 1] shrinked) := by
  induction n generalizing shrinked shells thin with
  | zero => simp [innerShellLoop]
  | succ n ih =>
    obtain ⟨h1, h2⟩ := ih (shellStep env w c shrinked).1
      (shells ++ [(shellStep env w c shrinked).1]) (thin ++ (shellStep env w c shrinked).2)
    constructor
    · simp only [innerShellLoop]
      rw [h1]
      rfl
    · simp only [innerShellLoop]
      rw [h2, List.range_succ_eq_map, List.map_cons, List.map_map, List.append_assoc]
      rfl

/-- The ring vector after `MakeShells` without skins: ring `k` is the first ring after `k`
passes of the inner-shell step. -/
theorem MakeShells_rings (env : ShellEnv) (settings : ShellSettings) (l : ShellLayer)
    (hcount : 1 ≤ settings.shellcount) (hskins : l.skins ≤ 1) :
    (MakeShells env settings l).shellPolygons =
        (List.range settings.shellcount).map
          (fun k => (nextRing env settings l)^[k] (firstRing env settings l)) ∧
      (MakeShells env settings l).skinPolygons = l.skinPolygons := by
  have hs : ¬ l.skins > 1 := by omega
  have hc : settings.shellcount > 0 := by omega
  obtain ⟨n, hn⟩ : ∃ n, settings.shellcount = n + 1 := ⟨settings.shellcount - 1, by omega⟩
  have key := fun (a : List Poly) (b : List (List Poly)) (t : List Poly) =>
    (innerShellLoop_spec env settings.extrudedWidth
      (min ((1 / 2) * settings.extrudedWidth / CLEANFACTOR) (l.thickness / CLEANFACTOR))
      (settings.shellcount - 1) a b t).2
  constructor
  · unfold MakeShells
    simp only [hs, hc, if_true, if_false]
    split
    · simp only [key]
      rw [hn]
      simp [firstRing, nextRing, List.range_succ_eq_map, Function.comp_def]
      congr 1
      funext r
      simp [nextRing]
    · simp only [key]
      rw [hn]
      simp [firstRing, nextRing, List.range_succ_eq_map, Function.comp_def]
      congr 1
      funext r
      simp [nextRing]
  · unfold MakeShells
    simp only [hs, hc, if_true, if_false]
    split <;> rfl

theorem getD_map_range {α : Type} (f : Nat → α) (n i : Nat) (d : α) (h : i < n) :
    ((List.range n).map f).getD i d = f i := by
  rw [List.getD_eq_getElem?_getD, List.getElem?_map, List.getElem?_range h]
  rfl

/-- C16 (counterexample). For a square outline of half-width 10, extrusion width 1 and two
shells, `MakeShells` stores the square of half-width `10 - 2/M_PI` at index 0 and the square of
half-width `9 - 2/M_PI` at index 1: ring 1 is the inward offset of ring 0 by one extrusion
width, ring 0 is not the inward offset of ring 1, and `GetOuterShell` returns ring 0 while
`GetInnerShell` returns ring 1: the rings are ordered outer-to-inner. -/
theorem MakeShells_outer_first :
    (MakeShells squareEnv twoShells squareLayer).shellPolygons =
      [[square (10 - 2 / M_PI)], [square (9 - 2 / M_PI)]] ∧
    squareEnv.getOffset [square (10 - 2 / M_PI)] (-1) = [square (9 - 2 / M_PI)] ∧
    squareEnv.getOffset [square (9 - 2 / M_PI)] (-1) ≠ [square (10 - 2 / M_PI)] ∧
    GetOuterShell (MakeShells squareEnv twoShells squareLayer) = [square (10 - 2 / M_PI)] ∧
    GetInnerShell (MakeShells squareEnv twoShells squareLayer) = [square (9 - 2 / M_PI)] := by
  decide!

/-- C16 (amended). After `MakeShells` with shell count at least 2 and no skins the layer holds
exactly `shellcount` rings ordered outer-to-inner: ring 0 is the outline after the global
offset (thin parts removed, cleaned up, extrusion factor set), every ring `i + 1` is obtained
from ring `i` by an inward offset of one extrusion width followed by the removal of thin parts
and cleanup; `GetOuterShell` returns ring 0 and `GetInnerShell` the last ring. -/
theorem MakeShells_outer_to_inner (env : ShellEnv) (settings : ShellSettings) (l : ShellLayer)
    (hcount : 2 ≤ settings.shellcount) (hskins : l.skins ≤ 1) (hnoskin : l.skinPolygons = []) :
    (MakeShells env settings l).shellPolygons.length = settings.shellcount ∧
    (MakeShells env settings l).shellPolygons.getD 0 [] = firstRing env settings l ∧
    (∀ i, i + 1 < settings.shellcount →
      (MakeShells env settings l).shellPolygons.getD (i + 1) [] =
        (FindThinpolys env
          (env.getOffset ((MakeShells env settings l).shellPolygons.getD i [])
            (-settings.extrudedWidth))
          settings.extrudedWidth).1.map
          (fun p => env.cleanup p
            (min ((1 / 2) * settings.extrudedWidth / CLEANFACTOR)
              (l.thickness / CLEANFACTOR)))) ∧
    GetOuterShell (MakeShells env settings l) =
      (MakeShells env settings l).shellPolygons.getD 0 [] ∧
    GetInnerShell (MakeShells env settings l) =
      (MakeShells env settings l).shellPolygons.getD (settings.shellcount - 1) [] := by
  obtain ⟨hr, hsk⟩ := MakeShells_rings env settings l (by omega) hskins
  obtain ⟨n, hn⟩ : ∃ n, settings.shellcount = n + 1 := ⟨settings.shellcount - 1, by omega⟩
  refine ⟨?_, ?_, ?_, ?_, ?_⟩
  · rw [hr]; simp
  · rw [hr, getD_map_range _ _ _ _ (by omega)]
    rfl
  · intro i hi
    rw [hr, getD_map_range _ _ _ _ hi, getD_map_range _ _ _ _ (by omega),
      Function.iterate_succ_apply']
    rfl
  · unfold GetOuterShell
    rw [hsk, hnoskin, hr, hn, List.range_succ_eq_map]
    simp
  · unfold GetInnerShell
    rw [hr, hn, List.range_succ, List.map_append, List.getLast?_append]
    simp [List.getD_eq_getElem?_getD, List.getElem?_append_right]

theorem MakeShells_outer_to_inner_witness :
    2 ≤ twoShells.shellcount ∧ squareLayer.skins ≤ 1 ∧ squareLayer.skinPolygons = [] ∧
    (MakeShells squareEnv twoShells squareLayer).shellPolygons.length = twoShells.shellcount ∧
    (MakeShells squareEnv twoShells squareLayer).shellPolygons.getD 0 [] =
      firstRing squareEnv twoShells squareLayer ∧
    (∀ i, i + 1 < twoShells.shellcount →
      (MakeShells squareEnv twoShells squareLayer).shellPolygons.getD (i + 1) [] =
        (FindThinpolys squareEnv
          (squareEnv.getOffset ((MakeShells squareEnv twoShells squareLayer).shellPolygons.getD i [])
            (-twoShells.extrudedWidth))
          twoShells.extrudedWidth).1.map
          (fun p => squareEnv.cleanup p
            (min ((1 / 2) * twoShells.extrudedWidth / CLEANFACTOR)
              (squareLayer.thickness / CLEANFACTOR)))) ∧
    GetOuterShell (MakeShells squareEnv twoShells squareLayer) =
      (MakeShells squareEnv twoShells squareLayer).shellPolygons.getD 0 [] ∧
    GetInnerShell (MakeShells squareEnv twoShells squareLayer) =
      (MakeShells squareEnv twoShells squareLayer).shellPolygons.getD
        (twoShells.shellcount - 1) [] :=
  ⟨by decide, by decide, rfl,
    MakeShells_outer_to_inner squareEnv twoShells squareLayer (by decide) (by decide) rfl⟩

/-! ## `GetShellPolygonsCirc` -/

/-- For `-n ≤ number` (and fewer than `2^31` rings) `GetShellPolygonsCirc` returns the ring at
index `number mod n`. -/
theorem GetShellPolygonsCirc_above (shellPolygons : List (List Poly)) (number : Int)
    (hn : 1 ≤ shellPolygons.length) (hsize : shellPolygons.length < 2 ^ 31)
    (hlo : -(shellPolygons.length : Int) ≤ number) (hhi : number < 2 ^ 31) :
    GetShellPolygonsCirc shellPolygons number =
      shellPolygons[(number % (shellPolygons.length : Int)).toNat]? := by
  unfold GetShellPolygonsCirc
  have h0 : ¬ shellPolygons.length = 0 := by omega
  simp only [h0, if_false]
  have hidx : toSizeT (toInt32
      (((shellPolygons.length + toSizeT number) % 2 ^ 64 % shellPolygons.length : Nat) : Int)) =
      (number % (shellPolygons.length : Int)).toNat := by
    have hlt : (shellPolygons.length + toSizeT number) % 2 ^ 64 % shellPolygons.length <
        shellPolygons.length := Nat.mod_lt _ (by omega)
    have hsum : ((shellPolygons.length + toSizeT number) % 2 ^ 64 : Nat) =
        ((shellPolygons.length : Int) + number).toNat := by
      unfold toSizeT
      by_cases hneg : number < 0
      · have h1 : number % 2 ^ 64 = number + 2 ^ 64 := by
          rw [← Int.add_emod_self]
          exact Int.emod_eq_of_lt (by omega) (by omega)
        rw [h1]
        omega
      · have h1 : number % 2 ^ 64 = number := Int.emod_eq_of_lt (by omega) (by omega)
        rw [h1]
        omega
    have hmod : (((shellPolygons.length + toSizeT number) % 2 ^ 64 % shellPolygons.length : Nat)
        : Int) = number % (shellPolygons.length : Int) := by
      rw [hsum]
      have hnn : 0 ≤ (shellPolygons.length : Int) + number := by omega
      rw [Int.natCast_mod, Int.toNat_of_nonneg hnn, Int.add_emod_self_left]
    rw [hmod]
    have hnonneg : 0 ≤ number % (shellPolygons.length : Int) :=
      Int.emod_nonneg _ (by omega)
    have hlt2 : number % (shellPolygons.length : Int) < shellPolygons.length :=
      Int.emod_lt_of_pos _ (by omega)
    unfold toInt32 toSizeT
    have h2 : (number % (shellPolygons.length : Int) + 2 ^ 31) % 2 ^ 32 =
        number % (shellPolygons.length : Int) + 2 ^ 31 :=
      Int.emod_eq_of_lt (by omega) (by omega)
    rw [h2]
    have h3 : (number % (shellPolygons.length : Int) + 2 ^ 31 - 2 ^ 31) % 2 ^ 64 =
        number % (shellPolygons.length : Int) := by
      rw [add_sub_cancel_right]
      exact Int.emod_eq_of_lt hnonneg (by omega)
    rw [h3]
  rw [hidx]

/-- C27 (failing input). With three rings and `number = -4` the sum `3 + (2^64 - 4)` does not
wrap, its remainder by 3 is 0, and `GetShellPolygonsCirc` returns ring 0, whereas
`-4 mod 3 = 2`. -/
theorem GetShellPolygonsCirc_below :
    GetShellPolygonsCirc threeRings (-4) = some [square 3] ∧
    ((-4 : Int) % 3).toNat = 2 ∧ threeRings[2]? = some [square 1] ∧
    GetShellPolygonsCirc threeRings (-4) ≠ threeRings[((-4 : Int) % 3).toNat]? := by
  decide!

/-! ## Bridging segments of `CleanupConnectSegments` -/

/-- C21 (failing input). Vertices `0..3` at `(0,0)`, `(1,0)`, `(5,0)`, `(6,0)` and the lines
`0 → 2`, `1 → 3`, `1 → 3` give the signed degrees `+1`, `+2`, `-1`, `-2`.  The call appends the
bridging segments `1 → 0` and `2 → 3`: the first joins two vertices of positive signed degree,
the second two vertices of negative signed degree. -/
theorem CleanupConnectSegments_same_sign :
    signedDegree [⟨0, 2⟩, ⟨1, 3⟩, ⟨1, 3⟩] 0 = 1 ∧ signedDegree [⟨0, 2⟩, ⟨1, 3⟩, ⟨1, 3⟩] 1 = 2 ∧
    signedDegree [⟨0, 2⟩, ⟨1, 3⟩, ⟨1, 3⟩] 2 = -1 ∧
    signedDegree [⟨0, 2⟩, ⟨1, 3⟩, ⟨1, 3⟩] 3 = -2 ∧
    CleanupConnectSegments [⟨0, 0⟩, ⟨1, 0⟩, ⟨5, 0⟩, ⟨6, 0⟩] [⟨0, 2⟩, ⟨1, 3⟩, ⟨1, 3⟩] false =
      (true, [⟨0, 2⟩, ⟨1, 3⟩, ⟨1, 3⟩] ++ [⟨1, 0⟩, ⟨2, 3⟩]) := by
  decide!

theorem nearestStep_dist {vertices : List Vector2d} {vt d : List Int} {n : Nat}
    {st : Option ℚ × Nat} (j : Nat)
    (h : ∀ x, st.1 = some x →
      x = (vertexAt vertices n).squared_distance (vertexAt vertices (d.getD st.2 0).toNat)) :
    ∀ x, (nearestStep vertices vt d n st j).1 = some x →
      x = (vertexAt vertices n).squared_distance
        (vertexAt vertices (d.getD (nearestStep vertices vt d n st j).2 0).toNat) := by
  unfold nearestStep
  split
  · exact h
  · simp only
    split
    · exact h
    · split
      · intro x hx
        simp only [Option.some.injEq] at hx
        exact hx.symm
      · split
        · intro x hx
          simp only [Option.some.injEq] at hx
          exact hx.symm
        · exact h

theorem findNearest_dist (vertices : List Vector2d) (vt d : List Int) (i n : Nat) :
    ∀ x, (findNearest vertices vt d i n).1 = some x →
      x = (vertexAt vertices n).squared_distance
        (vertexAt vertices (d.getD (findNearest vertices vt d i n).2 0).toNat) := by
  unfold findNearest
  generalize List.range' (i + 1) (d.length - (i + 1)) = js
  have hgen : ∀ (js : List Nat) (st : Option ℚ × Nat),
      (∀ x, st.1 = some x →
        x = (vertexAt vertices n).squared_distance (vertexAt vertices (d.getD st.2 0).toNat)) →
      ∀ x, (js.foldl (nearestStep vertices vt d n) st).1 = some x →
        x = (vertexAt vertices n).squared_distance
          (vertexAt vertices (d.getD (js.foldl (nearestStep vertices vt d n) st).2 0).toNat) := by
    intro js
    induction js with
    | nil => intro st h; exact h
    | cons j t ih =>
      intro st h
      rw [List.foldl_cons]
      exact ih _ (nearestStep_dist j h)
  exact hgen js (none, 0) (fun x hx => by simp at hx)

theorem squared_distance_comm (p q : Vector2d) : p.squared_distance q = q.squared_distance p := by
  unfold Vector2d.squared_distance
  ring

theorem connectStep_budget (vertices : List Vector2d) (vt : List Int)
    (st : List Int × List Segment) (i : Nat) :
    connectStep vertices vt false st i = st ∨
    ∃ s : Segment, (connectStep vertices vt false st i).2 = st.2 ++ [s] ∧
      (vertexAt vertices s.start.toNat).squared_distance (vertexAt vertices s.end_.toNat)
        ≤ 100 := by
  unfold connectStep
  split
  · exact Or.inl rfl
  · simp only
    split
    · exact Or.inl rfl
    · split
      · exact Or.inl rfl
      · rename_i hd
        right
        simp only [Bool.not_false, Bool.true_and, Bool.not_eq_true] at hd
        have hdist := findNearest_dist vertices vt st.1 i (st.1.getD i 0).toNat
        cases hf : (findNearest vertices vt st.1 i (st.1.getD i 0).toNat).1 with
        | none => rw [hf] at hd; simp [distExceeds] at hd
        | some x =>
          rw [hf] at hd
          simp only [distExceeds, decide_eq_false_iff_not, not_lt] at hd
          have hx := hdist x hf
          refine ⟨_, rfl, ?_⟩
          split
          · simp only [Segment.Swap, Int.toNat_ofNat]
            rw [squared_distance_comm, ← hx]
            exact hd
          · simp only [Int.toNat_ofNat]
            rw [← hx]
            exact hd

/-- C22 (counterexample). The slicing path calls `CleanupConnectSegments` with
`connect_all = true`.  For the sample mesh with one wall from `(0,0)` to `(50,0)` the cut gives
the line `0 → 1`; the call appends the bridging segment `1 → 0`, whose endpoints are 50 apart
(squared distance `2500 > 100`), and `getPolygonsAtZ` returns true with the polygon built from
the closed sequence. -/
theorem getPolygonsAtZ_long_bridge :
    (getCutlines wallGeometry longWall () 0 [] 0 [] (1 / 2) 1).vertices = [⟨0, 0⟩, ⟨50, 0⟩] ∧
    (CleanupSharedSegments (getCutlines wallGeometry longWall () 0 [] 0 [] (1 / 2) 1).lines).2 =
      [⟨0, 1⟩] ∧
    CleanupConnectSegments [⟨0, 0⟩, ⟨50, 0⟩] [⟨0, 1⟩] true = (true, [⟨0, 1⟩] ++ [⟨1, 0⟩]) ∧
    (vertexAt [⟨0, 0⟩, ⟨50, 0⟩] 1).squared_distance (vertexAt [⟨0, 0⟩, ⟨50, 0⟩] 0) = 2500 ∧
    getPolygonsAtZ wallGeometry longWall () 0 [] 0 [] (1 / 2) 1 =
      some ⟨true, [⟨[⟨0, 0⟩, ⟨50, 0⟩], 0, false⟩], 0, []⟩ := by
  decide!

/-- C22 (amended). Called with `connect_all = false`, `CleanupConnectSegments` keeps the given
segments and appends only bridging segments whose endpoints are at squared distance at most
`100` (at most 10 mm apart). -/
theorem CleanupConnectSegments_budget (vertices : List Vector2d) (lines : List Segment) :
    ∃ extra : List Segment,
      (CleanupConnectSegments vertices lines false).2 = lines ++ extra ∧
      ∀ s ∈ extra,
        (vertexAt vertices s.start.toNat).squared_distance (vertexAt vertices s.end_.toNat)
          ≤ 100 := by
  have hfold : ∀ (is : List Nat) (st : List Int × List Segment),
      (∃ extra : List Segment, st.2 = lines ++ extra ∧ ∀ s ∈ extra,
        (vertexAt vertices s.start.toNat).squared_distance (vertexAt vertices s.end_.toNat)
          ≤ 100) →
      ∃ extra : List Segment,
        (is.foldl (connectStep vertices (vertexTypes vertices.length lines) false) st).2 =
          lines ++ extra ∧ ∀ s ∈ extra,
        (vertexAt vertices s.start.toNat).squared_distance (vertexAt vertices s.end_.toNat)
          ≤ 100 := by
    intro is
    induction is with
    | nil => intro st h; exact h
    | cons i t ih =>
      intro st h
      rw [List.foldl_cons]
      apply ih
      obtain ⟨extra, he, hall⟩ := h
      rcases connectStep_budget vertices (vertexTypes vertices.length lines) st i with hs | hs
      · rw [hs]; exact ⟨extra, he, hall⟩
      · obtain ⟨s, hs1, hs2⟩ := hs
        refine ⟨extra ++ [s], ?_, ?_⟩
        · rw [hs1, he, List.append_assoc]
        · intro s2 hs3
          rcases List.mem_append.1 hs3 with h1 | h1
          · exact hall s2 h1
          · rw [List.mem_singleton.1 h1]; exact hs2
  unfold CleanupConnectSegments
  simp only
  split
  · exact ⟨[], by simp, by simp⟩
  · exact hfold _ _ ⟨[], by simp, by simp⟩

/-! ## Pairing of unit-degree dangling vertices -/

theorem dangling_even {n : Nat} {lines : List Segment} (hv : ValidSegments n lines)
    (hunit : ∀ u ∈ danglingVertices n lines,
      signedDegree lines u = 1 ∨ signedDegree lines u = -1) :
    (danglingVertices n lines).length % 2 = 0 := by
  have hgen : ∀ m, m ≤ n → ∃ t : Int,
      ((((List.range m).filter (fun (v : Nat) => decide (signedDegree lines (v : Int) ≠ 0))).length : Nat) : Int)
        = ∑ v in Finset.range m, signedDegree lines (v : Int) + 2 * t := by
    intro m
    induction m with
    | zero => intro _; exact ⟨0, by simp⟩
    | succ m ih =>
      intro hm
      obtain ⟨t, ht⟩ := ih (by omega)
      rw [List.range_succ, List.filter_append, List.length_append, Finset.sum_range_succ]
      by_cases h0 : signedDegree lines (m : Int) = 0
      · refine ⟨t, ?_⟩
        simp only [List.filter_cons, List.filter_nil, h0, ne_eq, not_true_eq_false,
          decide_False, Bool.false_eq_true, if_false, List.length_nil]
        push_cast
        rw [ht]
        ring
      · have hmem : m ∈ danglingVertices n lines := by
          simp only [danglingVertices, List.mem_filter, List.mem_range, ne_eq,
            decide_eq_true_eq]
          exact ⟨by omega, h0⟩
        simp only [List.filter_cons, List.filter_nil, h0, ne_eq, not_false_eq_true,
          decide_True, if_true, List.length_singleton]
        push_cast
        rcases hunit m hmem with h1 | h1
        · exact ⟨t, by rw [ht, h1]; ring⟩
        · exact ⟨t + 1, by rw [ht, h1]; ring⟩
  obtain ⟨t, ht⟩ := hgen n le_rfl
  rw [sum_signedDegree hv] at ht
  unfold danglingVertices
  omega

theorem countP_drop_set_neg : ∀ (l : List Int) (k m : Nat), m ≤ k → k < l.length →
    0 ≤ l.getD k 0 →
    ((l.set k (-1)).drop m).countP (fun x => decide (0 ≤ x)) + 1 =
      (l.drop m).countP (fun x => decide (0 ≤ x)) := by
  intro l
  induction l with
  | nil => intro k m _ hk; simp at hk
  | cons a t ih =>
    intro k m hmk hk h0
    cases k with
    | zero =>
      have hm : m = 0 := by omega
      subst hm
      have ha : 0 ≤ a := by simpa using h0
      simp [List.countP_cons, ha]
    | succ k =>
      have hk2 : k < t.length := by simpa using hk
      have h02 : 0 ≤ t.getD k 0 := by simpa using h0
      cases m with
      | zero =>
        have := ih k 0 (Nat.zero_le _) hk2 h02
        simp only [List.drop_zero] at this
        simp only [List.set_cons_succ, List.drop_zero, List.countP_cons]
        omega
      | succ m =>
        have := ih k m (by omega) hk2 h02
        simpa using this

theorem countP_drop_succ (l : List Int) (i : Nat) (hi : i < l.length) :
    (l.drop i).countP (fun x => decide (0 ≤ x)) =
      (l.drop (i + 1)).countP (fun x => decide (0 ≤ x)) + (if 0 ≤ l.getD i 0 then 1 else 0) := by
  rw [List.drop_eq_getElem_cons hi, List.countP_cons]
  have : l.getD i 0 = l[i] := by
    rw [List.getD_eq_getElem?_getD, List.getElem?_eq_getElem hi]
    rfl
  rw [this]
  simp

/-- What one pass of the pairing loop does when every dangling vertex has degree `+1` or `-1`
and no distance budget interferes: a marked entry is skipped, an unmarked one is paired with a
later unmarked entry of different degree. -/
theorem connectStep_cases {vertices : List Vector2d} {lines : List Segment} {D0 vt : List Int}
    {connect_all : Bool} {i : Nat} {st : List Int × List Segment}
    (hD : Detached vertices.length lines D0)
    (hvt : ∀ v : Nat, vt.getD v 0 = signedDegree lines v)
    (hunit : ∀ v : Int, signedDegree lines v = 0 ∨ signedDegree lines v = 1 ∨
      signedDegree lines v = -1)
    (hbud : connect_all = true ∨ ∀ u v : Nat, signedDegree lines u ≠ 0 →
      signedDegree lines v ≠ 0 → signedDegree lines u ≠ signedDegree lines v →
      (vertexAt vertices u).squared_distance (vertexAt vertices v) ≤ 100)
    (h : ConnInv vertices.length lines D0 i st) (hi : i < D0.length) :
    (st.1.getD i 0 < 0 ∧ connectStep vertices vt connect_all st i = st) ∨
    ∃ k, i < k ∧ k < D0.length ∧ 0 ≤ st.1.getD i 0 ∧ 0 ≤ st.1.getD k 0 ∧
      signedDegree lines (st.1.getD i 0) ≠ 0 ∧ signedDegree lines (st.1.getD k 0) ≠ 0 ∧
      signedDegree lines (st.1.getD i 0) ≠ signedDegree lines (st.1.getD k 0) ∧
      connectStep vertices vt connect_all st i =
        (st.1.set k (-1),
          st.2 ++ [if 0 < signedDegree lines (st.1.getD i 0)
            then (⟨st.1.getD k 0, st.1.getD i 0⟩ : Segment)
            else ⟨st.1.getD i 0, st.1.getD k 0⟩]) := by
  by_cases hneg : st.1.getD i 0 < 0
  · left
    refine ⟨hneg, ?_⟩
    unfold connectStep
    rw [if_pos hneg]
  · right
    have hex := partner_exists hD hvt hunit h hi hneg
    obtain ⟨⟨k1, k2⟩, ⟨c1, c2⟩, hdq⟩ := findNearest_ok vertices hex
    have he0 : 0 ≤ st.1.getD i 0 := by omega
    have hp0 : 0 ≤ st.1.getD (findNearest vertices vt st.1 i (st.1.getD i 0).toNat).2 0 := by
      omega
    have hecast : (((st.1.getD i 0).toNat : Nat) : Int) = st.1.getD i 0 :=
      Int.toNat_of_nonneg he0
    have hpcast :
        (((st.1.getD (findNearest vertices vt st.1 i (st.1.getD i 0).toNat).2 0).toNat : Nat)
          : Int) = st.1.getD (findNearest vertices vt st.1 i (st.1.getD i 0).toNat).2 0 :=
      Int.toNat_of_nonneg hp0
    rw [hvt, hvt, hecast, hpcast] at c2
    rw [h.len] at k2
    have hedeg : signedDegree lines (st.1.getD i 0) ≠ 0 := by
      have := (hD.range i hi).2.2
      rcases h.marks i hi with h1 | h1
      · rw [h1]; exact this
      · omega
    have hpdeg : signedDegree lines
        (st.1.getD (findNearest vertices vt st.1 i (st.1.getD i 0).toNat).2 0) ≠ 0 := by
      have := (hD.range _ k2).2.2
      rcases h.marks _ k2 with h1 | h1
      · rw [h1]; exact this
      · omega
    have hdist : (!connect_all &&
        distExceeds (findNearest vertices vt st.1 i (st.1.getD i 0).toNat).1 100) = false := by
      rcases hbud with hca | hb
      · simp [hca]
      · have := hb (st.1.getD i 0).toNat
          (st.1.getD (findNearest vertices vt st.1 i (st.1.getD i 0).toNat).2 0).toNat
          (by rw [hecast]; exact hedeg) (by rw [hpcast]; exact hpdeg)
          (by rw [hecast, hpcast]; exact c2)
        rw [hdq]
        simp only [distExceeds, Bool.and_eq_false_imp, decide_eq_false_iff_not, not_lt]
        exact fun _ => this
    refine ⟨_, k1, k2, he0, hp0, hedeg, hpdeg, c2, ?_⟩
    rw [connectStep_paired hneg (by omega) hdist, hvt, hecast]
    simp [Segment.Swap]

theorem bridge_fold {vertices : List Vector2d} {lines : List Segment} {D0 vt : List Int}
    (hv : ValidSegments vertices.length lines)
    (hD : Detached vertices.length lines D0)
    (hvt : ∀ v : Nat, vt.getD v 0 = signedDegree lines v)
    (hunit : ∀ v : Int, signedDegree lines v = 0 ∨ signedDegree lines v = 1 ∨
      signedDegree lines v = -1) :
    ∀ k, k ≤ D0.length → ∃ extra : List Segment,
      ((List.range k).foldl (connectStep vertices vt true) (D0, lines)).2 = lines ++ extra ∧
      (∀ s ∈ extra, signedDegree lines s.start = -1 ∧ signedDegree lines s.end_ = 1) ∧
      2 * extra.length +
        (((List.range k).foldl (connectStep vertices vt true) (D0, lines)).1.drop k).countP
          (fun x => decide (0 ≤ x)) = D0.length := by
  intro k
  induction k with
  | zero =>
    intro _
    refine ⟨[], by simp, by simp, ?_⟩
    simp only [List.range_zero, List.foldl_nil, List.drop_zero, List.length_nil, mul_zero,
      zero_add]
    rw [List.countP_eq_length]
    intro a ha
    obtain ⟨j, hj, rfl⟩ := List.getElem_of_mem ha
    have := (hD.range j hj).1
    rw [List.getD_eq_getElem?_getD, List.getElem?_eq_getElem hj] at this
    simpa using this
  | succ k ih =>
    intro hk
    obtain ⟨extra, he, hdir, hcount⟩ := ih (by omega)
    have hinv := connect_fold true hv hD hvt hunit (Or.inl rfl) k (by omega)
    rw [List.range_succ, List.foldl_append, List.foldl_cons, List.foldl_nil]
    generalize (List.range k).foldl (connectStep vertices vt true) (D0, lines) = st
      at he hcount hinv
    have hlen : k < st.1.length := by rw [hinv.len]; omega
    have hsucc := countP_drop_succ st.1 k hlen
    rcases connectStep_cases hD hvt hunit (Or.inl rfl) hinv (by omega) with ⟨hneg, hs⟩ | hs
    · rw [hs]
      refine ⟨extra, he, hdir, ?_⟩
      rw [if_neg (by omega)] at hsucc
      omega
    · obtain ⟨j, hkj, hj, he0, hp0, hed, hpd, hne, hs⟩ := hs
      rw [hs]
      refine ⟨extra ++ [_], by rw [he, List.append_assoc], ?_, ?_⟩
      · intro s hs2
        rcases List.mem_append.1 hs2 with h1 | h1
        · exact hdir s h1
        · rw [List.mem_singleton.1 h1]
          rcases hunit (st.1.getD k 0) with a0 | a1 | a1 <;>
            rcases hunit (st.1.getD j 0) with b0 | b1 | b1
          all_goals first
            | exact absurd a0 hed
            | exact absurd b0 hpd
            | exact absurd (a1.trans b1.symm) hne
            | (rw [if_pos (by rw [a1]; decide)]; exact ⟨b1, a1⟩)
            | (rw [if_neg (by rw [a1]; decide)]; exact ⟨a1, b1⟩)
      · have hset := countP_drop_set_neg st.1 j (k + 1) (by omega)
          (by rw [hinv.len]; exact hj) hp0
        rw [if_pos he0] at hsucc
        simp only [List.length_append, List.length_singleton]
        omega

/-- C28. If the segment indices are valid, every dangling vertex has signed degree exactly `+1`
or `-1` and `connect_all` is true, `CleanupConnectSegments` returns true, keeps the original
segments as a prefix of the list, appends exactly one bridging segment per pair (half the number
of dangling vertices), each directed from a vertex of signed degree `-1` to a vertex of signed
degree `+1`, and afterwards every vertex has signed degree zero. -/
theorem CleanupConnectSegments_pairs (vertices : List Vector2d) (lines : List Segment)
    (hv : ValidSegments vertices.length lines)
    (hunit : ∀ u ∈ danglingVertices vertices.length lines,
      signedDegree lines u = 1 ∨ signedDegree lines u = -1) :
    ∃ extra : List Segment,
      CleanupConnectSegments vertices lines true = (true, lines ++ extra) ∧
      2 * extra.length = (danglingVertices vertices.length lines).length ∧
      (∀ s ∈ extra, signedDegree lines s.start = -1 ∧ signedDegree lines s.end_ = 1) ∧
      ∀ v : Int, signedDegree (lines ++ extra) v = 0 := by
  have heven := dangling_even hv hunit
  have hin : ∀ v : Int, signedDegree lines v ≠ 0 →
      ∃ u : Nat, (u : Int) = v ∧ u ∈ danglingVertices vertices.length lines := by
    intro v hne
    have h0 : 0 ≤ v := by
      by_contra hc
      exact hne (signedDegree_outside hv v (Or.inl (by omega)))
    have hn : v < vertices.length := by
      by_contra hc
      exact hne (signedDegree_outside hv v (Or.inr (by omega)))
    obtain ⟨u, rfl⟩ := Int.eq_ofNat_of_zero_le h0
    refine ⟨u, rfl, ?_⟩
    simp only [danglingVertices, List.mem_filter, List.mem_range, ne_eq, decide_eq_true_eq]
    exact ⟨by exact_mod_cast hn, hne⟩
  have hunit2 : ∀ v : Int, signedDegree lines v = 0 ∨ signedDegree lines v = 1 ∨
      signedDegree lines v = -1 := by
    intro v
    by_cases hne : signedDegree lines v = 0
    · exact Or.inl hne
    · obtain ⟨u, rfl, hu⟩ := hin v hne
      exact Or.inr (hunit u hu)
  have hinv := connect_fold true hv (detached_dangling hv) (vertexTypes_getD hv) hunit2
    (Or.inl rfl) _ le_rfl
  obtain ⟨extra, he, hdir, hcount⟩ := bridge_fold hv (detached_dangling hv)
    (vertexTypes_getD hv) hunit2 _ le_rfl
  refine ⟨extra, ?_, ?_, hdir, ?_⟩
  · unfold CleanupConnectSegments
    simp only [detachedPoints_vertexTypes hv, List.length_map, heven]
    simp only [List.length_map] at he
    simp only [ne_eq, not_true_eq_false, if_false, he]
  · rw [List.drop_eq_nil_of_le (by rw [hinv.len])] at hcount
    simpa using hcount
  · intro v
    rw [← he]
    apply hinv.settled v
    rintro ⟨j, h1, h2, -⟩
    omega

theorem CleanupConnectSegments_pairs_witness :
    ValidSegments 4 [⟨0, 1⟩, ⟨2, 3⟩] ∧
    (∀ u ∈ danglingVertices 4 [⟨0, 1⟩, ⟨2, 3⟩],
      signedDegree [⟨0, 1⟩, ⟨2, 3⟩] u = 1 ∨ signedDegree [⟨0, 1⟩, ⟨2, 3⟩] u = -1) ∧
    ∃ extra : List Segment,
      CleanupConnectSegments [⟨0, 0⟩, ⟨1, 0⟩, ⟨20, 0⟩, ⟨30, 0⟩] [⟨0, 1⟩, ⟨2, 3⟩] true =
        (true, [⟨0, 1⟩, ⟨2, 3⟩] ++ extra) ∧
      2 * extra.length = (danglingVertices 4 [⟨0, 1⟩, ⟨2, 3⟩]).length ∧
      (∀ s ∈ extra, signedDegree [⟨0, 1⟩, ⟨2, 3⟩] s.start = -1 ∧
        signedDegree [⟨0, 1⟩, ⟨2, 3⟩] s.end_ = 1) ∧
      ∀ v : Int, signedDegree ([⟨0, 1⟩, ⟨2, 3⟩] ++ extra) v = 0 :=
  have hv : ValidSegments 4 [⟨0, 1⟩, ⟨2, 3⟩] := by
    intro l hl
    simp only [List.mem_cons, List.mem_singleton, List.not_mem_nil, or_false] at hl
    rcases hl with rfl | rfl <;> decide
  ⟨hv, by decide,
    CleanupConnectSegments_pairs [⟨0, 0⟩, ⟨1, 0⟩, ⟨20, 0⟩, ⟨30, 0⟩] [⟨0, 1⟩, ⟨2, 3⟩] hv
      (by decide)⟩

/-- The pairing of the sample input of the witness: vertex 0 is joined with its nearest
opposite vertex 1 and then vertex 2 with vertex 3. -/
theorem CleanupConnectSegments_pairs_example :
    CleanupConnectSegments [⟨0, 0⟩, ⟨1, 0⟩, ⟨20, 0⟩, ⟨30, 0⟩] [⟨0, 1⟩, ⟨2, 3⟩] true =
      (true, [⟨0, 1⟩, ⟨2, 3⟩] ++ [⟨1, 0⟩, ⟨3, 2⟩]) := by
  decide!

/-! ## `CleanupSharedSegments` -/

theorem foldl_eraseIdx_append {α : Type} : ∀ (ds : List Nat) (x t : List α),
    ds.Pairwise (· > ·) → (∀ r ∈ ds, r < x.length) →
    ds.foldl (fun ls r => ls.eraseIdx r) (x ++ t) =
      ds.foldl (fun ls r => ls.eraseIdx r) x ++ t := by
  intro ds
  induction ds with
  | nil => intro x t _ _; rfl
  | cons r ds ih =>
    intro x t hp hlt
    have hr : r < x.length := hlt r (List.mem_cons_self _ _)
    rw [List.foldl_cons, List.foldl_cons, List.eraseIdx_append_of_lt_length hr]
    rw [List.pairwise_cons] at hp
    apply ih _ _ hp.2
    intro r2 h2
    have := hp.1 r2 h2
    rw [List.length_eraseIdx_of_lt hr]
    omega

/-- Erasing the indices selected by `p`, from the highest to the lowest, keeps the entries at
the other indices in order. -/
theorem foldl_eraseIdx_filter {α : Type} (d : α) (p : Nat → Bool) (l : List α) :
    ((List.range l.length).filter p).reverse.foldl (fun ls r => ls.eraseIdx r) l =
      ((List.range l.length).filter (fun j => !p j)).map (fun j => l.getD j d) := by
  induction l using List.reverseRecOn with
  | nil => simp
  | append_singleton x a ih =>
    have hmap : ((List.range x.length).filter (fun j => !p j)).map
        (fun j => (x ++ [a]).getD j d) =
        ((List.range x.length).filter (fun j => !p j)).map (fun j => x.getD j d) := by
      apply List.map_congr_left
      intro j hj
      have hj2 : j < x.length := List.mem_range.1 (List.mem_filter.1 hj).1
      rw [List.getD_eq_getElem?_getD, List.getD_eq_getElem?_getD, List.getElem?_append_left hj2]
    have hlast : (x ++ [a]).getD x.length d = a := by
      rw [List.getD_eq_getElem?_getD, List.getElem?_append_right (le_refl _)]
      simp
    rw [List.length_append, List.length_singleton, List.range_succ, List.filter_append,
      List.filter_append, List.reverse_append, List.map_append, hmap]
    by_cases hp : p x.length = true
    · simp only [List.filter_cons, List.filter_nil, hp, if_true, Bool.not_true,
        Bool.false_eq_true, if_false, List.reverse_cons, List.reverse_nil, List.nil_append,
        List.map_nil, List.append_nil, List.singleton_append, List.foldl_cons]
      rw [List.eraseIdx_append_of_length_le (le_refl _)]
      simp only [Nat.sub_self, List.eraseIdx_cons_zero, List.append_nil]
      exact ih
    · simp only [List.filter_cons, List.filter_nil, hp, Bool.false_eq_true, if_false,
        Bool.not_eq_true', Bool.not_false, if_true, List.reverse_nil, List.nil_append,
        List.map_cons, List.map_nil, hlast]
      rw [foldl_eraseIdx_append, ih]
      · have hs : ((List.range x.length).filter p).Pairwise (· < ·) :=
          (List.pairwise_lt_range _).filter _
        exact List.pairwise_reverse.2 hs
      · intro r hr
        exact List.mem_range.1 (List.mem_filter.1 (List.mem_reverse.1 hr)).1

theorem sharedWith_refl (s : Segment) : sharedWith s s = true := by
  simp [sharedWith]

theorem sharedWith_trans {a b c : Segment} (h1 : sharedWith a b = true)
    (h2 : sharedWith b c = true) : sharedWith a c = true := by
  simp only [sharedWith, Bool.or_eq_true, Bool.and_eq_true, decide_eq_true_eq] at *
  rcases h1 with ⟨e1, e2⟩ | ⟨e1, e2⟩ <;> rcases h2 with ⟨f1, f2⟩ | ⟨f1, f2⟩
  · exact Or.inl ⟨e1.trans f1, e2.trans f2⟩
  · exact Or.inr ⟨e2.trans f1, e1.trans f2⟩
  · exact Or.inr ⟨e1.trans f1, e2.trans f2⟩
  · exact Or.inl ⟨e2.trans f1, e1.trans f2⟩

theorem CleanupSharedSegments_eq (lines : List Segment) :
    (CleanupSharedSegments lines).2 =
      ((List.range lines.length).filter (fun j =>
        !(List.range' (j + 1) (lines.length - (j + 1))).any
          (fun k => sharedWith (lineAt lines j) (lineAt lines k)))).map (lineAt lines) := by
  unfold CleanupSharedSegments linesToDelete
  have hsorted : List.Sorted (· ≤ ·) ((List.range lines.length).filter (fun j =>
      (List.range' (j + 1) (lines.length - (j + 1))).any
        (fun k => sharedWith (lineAt lines j) (lineAt lines k)))) :=
    (List.pairwise_le_range _).filter _
  simp only
  rw [hsorted.insertionSort_eq, foldl_eraseIdx_filter ⟨-1, -1⟩]
  rfl

theorem map_lineAt_range (lines : List Segment) :
    (List.range lines.length).map (lineAt lines) = lines := by
  apply List.ext_getElem
  · simp
  · intro i h1 h2
    simp [lineAt, List.getD_eq_getElem?_getD, List.getElem?_eq_getElem h2]

/-- C23. For every segment list `CleanupSharedSegments` returns true and leaves exactly the
sub-list, in the original order, of the segments that have no exact or reversed duplicate at a
later position; the result contains no two segments that are exact or reversed duplicates of
each other, and every input segment has an exact or reversed copy in the result. -/
theorem CleanupSharedSegments_spec (lines : List Segment) :
    (CleanupSharedSegments lines).1 = true ∧
    (CleanupSharedSegments lines).2 =
      ((List.range lines.length).filter (fun j =>
        !(List.range' (j + 1) (lines.length - (j + 1))).any
          (fun k => sharedWith (lineAt lines j) (lineAt lines k)))).map (lineAt lines) ∧
    (CleanupSharedSegments lines).2.Sublist lines ∧
    (CleanupSharedSegments lines).2.Pairwise (fun a b => sharedWith a b = false) ∧
    ∀ s ∈ lines, ∃ t ∈ (CleanupSharedSegments lines).2, sharedWith s t = true := by
  have heq := CleanupSharedSegments_eq lines
  refine ⟨rfl, heq, ?_, ?_, ?_⟩
  · rw [heq]
    have h := (List.filter_sublist (p := fun j =>
      !(List.range' (j + 1) (lines.length - (j + 1))).any
        (fun k => sharedWith (lineAt lines j) (lineAt lines k)))
      (List.range lines.length)).map (lineAt lines)
    rwa [map_lineAt_range] at h
  · rw [heq, List.pairwise_map]
    have hlt : ((List.range lines.length).filter (fun j =>
        !(List.range' (j + 1) (lines.length - (j + 1))).any
          (fun k => sharedWith (lineAt lines j) (lineAt lines k)))).Pairwise (· < ·) :=
      (List.pairwise_lt_range _).filter _
    refine hlt.imp_of_mem ?_
    intro a b ha hb hab
    have ha2 := (List.mem_filter.1 ha).2
    have hb2 : b < lines.length := List.mem_range.1 (List.mem_filter.1 hb).1
    simp only [Bool.not_eq_true', List.any_eq_false, List.mem_range'_1, and_imp] at ha2
    have := ha2 b (by omega) (by omega)
    simpa using this
  · have hcov : ∀ m j, lines.length - j ≤ m → j < lines.length →
        ∃ t ∈ (CleanupSharedSegments lines).2, sharedWith (lineAt lines j) t = true := by
      intro m
      induction m with
      | zero => intro j h1 h2; omega
      | succ m ih =>
        intro j h1 h2
        by_cases hdel : (List.range' (j + 1) (lines.length - (j + 1))).any
            (fun k => sharedWith (lineAt lines j) (lineAt lines k)) = true
        · rw [List.any_eq_true] at hdel
          obtain ⟨k, hk, hsh⟩ := hdel
          rw [List.mem_range'_1] at hk
          obtain ⟨t, ht, hkt⟩ := ih k (by omega) (by omega)
          exact ⟨t, ht, sharedWith_trans hsh hkt⟩
        · refine ⟨lineAt lines j, ?_, sharedWith_refl _⟩
          rw [heq, List.mem_map]
          refine ⟨j, List.mem_filter.2 ⟨List.mem_range.2 h2, ?_⟩, rfl⟩
          simpa using hdel
    intro s hs
    obtain ⟨j, hj, rfl⟩ := List.getElem_of_mem hs
    have : lineAt lines j = lines[j] := by
      simp [lineAt, List.getD_eq_getElem?_getD, List.getElem?_eq_getElem hj]
    rw [← this]
    exact hcov _ j le_rfl hj

/-- An instance of `CleanupSharedSegments`: of the exact copies at positions 0 and 3 and the
reversed pair at positions 1 and 2 the later ones are kept. -/
theorem CleanupSharedSegments_example :
    CleanupSharedSegments [⟨0, 1⟩, ⟨1, 2⟩, ⟨2, 1⟩, ⟨0, 1⟩, ⟨2, 0⟩] =
      (true, [⟨2, 1⟩, ⟨0, 1⟩, ⟨2, 0⟩]) := by
  decide

/-! ## Sequences appended by `getLineSequences` are non-empty -/

theorem linePass_nonempty {lines : List Segment} {s : SeqState} (h : SeqInv lines s)
    (hP : ∀ sq ∈ s.connectedlines, sq ≠ []) (hlt : s.donelines < lines.length) :
    ∀ sq ∈ (linePass lines s).connectedlines, sq ≠ [] := by
  cases hc : findConnections lines s.linedone s.sequence with
  | cons c rest =>
    rw [linePass_cons hc]
    split
    · intro sq hsq
      simp only [List.mem_append, List.mem_singleton] at hsq
      rcases hsq with h1 | h1
      · exact hP sq h1
      · rw [h1]; simp
    · exact hP
  | nil =>
    have hne : s.sequence ≠ [] := by
      intro he
      obtain ⟨l, hl, hu⟩ := exists_undone h hlt
      have : l ∈ findConnections lines s.linedone s.sequence :=
        mem_findConnections.mpr ⟨hl, hu, Or.inl he⟩
      rw [hc] at this
      simp at this
    rw [linePass_nil hc]
    intro sq hsq
    have hmem : sq ∈ s.connectedlines ++ [s.sequence] := by
      cases hf : firstUndone lines s.linedone <;> simpa [hf] using hsq
    simp only [List.mem_append, List.mem_singleton] at hmem
    rcases hmem with h1 | h1
    · exact hP sq h1
    · rw [h1]; exact hne

/-- C29. For every segment list `getLineSequences` returns true, and every index sequence it
appends to (an empty) `connectedlines` is non-empty, so that `front ()` and `back ()` are defined,
and holds only valid segment indices; the indices are pairwise distinct within a sequence and
across sequences. -/
theorem getLineSequences_sequences_nonempty (lines : List Segment) :
    ∃ cl, getLineSequences lines.length lines [] = some (true, cl) ∧
      (∀ sq ∈ cl, sq ≠ [] ∧ sq.head?.isSome = true ∧ sq.getLast?.isSome = true ∧
        sq.Nodup ∧ ∀ l ∈ sq, l < lines.length) ∧
      cl.flatten.Nodup := by
  obtain ⟨cl, hcl, hfl, hmem⟩ := getLineSequences_eq lines
  obtain ⟨-, hinv, hP, -, -⟩ := lineLoop_run (fun s => ∀ sq ∈ s.connectedlines, sq ≠ [])
    (fun s hs hp hlt => linePass_nonempty hs hp hlt)
    lines.length (lineInit lines []) (seqInv_init lines) (by simp [lineInit])
    (by simp [lineInit])
  have hnd : cl.flatten.Nodup := by rw [hfl]; exact hinv.nodup
  refine ⟨cl, hcl, ?_, hnd⟩
  intro sq hsq
  have hne : sq ≠ [] := by
    rcases hmem sq hsq with h1 | h1
    · exact hP sq h1
    · exact h1.2
  have hsub : ∀ l ∈ sq, l ∈ cl.flatten := fun l hl => List.mem_flatten.2 ⟨sq, hsq, hl⟩
  refine ⟨hne, ?_, ?_, ?_, ?_⟩
  · cases sq with
    | nil => exact absurd rfl hne
    | cons a t => rfl
  · cases hl : sq.getLast? with
    | none => exact absurd (List.getLast?_eq_none_iff.1 hl) hne
    | some a => rfl
  · exact (List.nodup_flatten.1 hnd).1 sq hsq
  · intro l hl
    have := hsub l hl
    rw [hfl] at this
    exact hinv.bound l this

/-- An instance: a closed triangle followed by an open chain of two lines. -/
theorem getLineSequences_sequences_example :
    getLineSequences 5 [⟨0, 1⟩, ⟨1, 2⟩, ⟨2, 0⟩, ⟨5, 6⟩, ⟨6, 7⟩] [] =
      some (true, [[0, 1, 2], [3, 4]]) := by
  decide

/-! ## The malformed-resend branch of `fived_handle_reply` -/

theorem okLoop_calls {F : Type} (strtof : List Char → F × Nat) (dev : rr_dev)
    (reply : List Char) (nbytes : Nat) (e : rr_error) (he : e ≠ rr_error.RR_E_UNKNOWN_REPLY) :
    ∀ (fuel i : Nat) (calls : List (DevCall F)) (r : HandleResult F),
      okLoop strtof dev reply nbytes fuel i calls = some r →
      DevCall.emit_error e ∉ calls → DevCall.emit_error e ∉ r.calls := by
  intro fuel
  induction fuel with
  | zero =>
    intro i calls r h hc
    unfold okLoop at h
    split at h
    · simp at h
    · simp only [Option.some.injEq] at h
      rw [← h]; exact hc
  | succ fuel ih =>
    intro i calls r h hc
    unfold okLoop at h
    split at h
    · split at h
      · split at h
        · refine ih _ _ r h ?_
          simp only [List.mem_append, List.mem_singleton, not_or]
          exact ⟨hc, by simp⟩
        · exact ih _ _ r h hc
      · exact ih _ _ r h hc
      · simp only [Option.some.injEq] at h
        rw [← h]
        simp only [List.mem_append, List.mem_singleton, not_or]
        refine ⟨hc, ?_⟩
        intro hcon
        exact he (DevCall.emit_error.inj hcon)
    · simp only [Option.some.injEq] at h
      rw [← h]; exact hc

/-- The first two characters of a reply that begins with `rs` or `resend` are letters. -/
theorem resend_prefix {reply : List Char}
    (h : strncasecmp_eq "rs" reply = true ∨ strncasecmp_eq "resend" reply = true) :
    ∃ c1 c2 rest, reply = c1 :: c2 :: rest ∧ c1.toLower = 'r' ∧
      (c2.toLower = 's' ∨ c2.toLower = 'e') := by
  rcases h with h | h
  · unfold strncasecmp_eq at h
    rw [decide_eq_true_eq] at h
    have hlen : "rs".length = 2 := rfl
    have hl : "rs".toList = ['r', 's'] := rfl
    rw [hlen, hl] at h
    match reply, h with
    | [], h => simp at h
    | [_], h => simp at h
    | c1 :: c2 :: rest, h =>
      simp only [List.take_succ_cons, List.take_zero, List.map_cons, List.map_nil,
        List.cons.injEq, and_true] at h
      exact ⟨c1, c2, rest, rfl, h.1, Or.inl h.2⟩
  · unfold strncasecmp_eq at h
    rw [decide_eq_true_eq] at h
    have hlen : "resend".length = 6 := rfl
    have hl : "resend".toList = ['r', 'e', 's', 'e', 'n', 'd'] := rfl
    rw [hlen, hl] at h
    match reply, h with
    | [], h => simp at h
    | [_], h => simp at h
    | c1 :: c2 :: rest, h =>
      simp only [List.take_succ_cons, List.map_cons, List.cons.injEq] at h
      exact ⟨c1, c2, rest, rfl, h.1, Or.inr h.2.1⟩

theorem strcspn_resend {reply : List Char}
    (h : strncasecmp_eq "rs" reply = true ∨ strncasecmp_eq "resend" reply = true) :
    2 ≤ strcspn_digits reply := by
  obtain ⟨c1, c2, rest, rfl, h1, h2⟩ := resend_prefix h
  have hn1 : (!("123456789".toList.contains c1)) = true := by
    rcases toLower_eq_cases c1 'r' (by decide) h1 with rfl | rfl <;> decide
  have hn2 : (!("123456789".toList.contains c2)) = true := by
    rcases h2 with h2 | h2
    · rcases toLower_eq_cases c2 's' (by decide) h2 with rfl | rfl <;> decide
    · rcases toLower_eq_cases c2 'e' (by decide) h2 with rfl | rfl <;> decide
  unfold strcspn_digits
  rw [List.takeWhile_cons, hn1, if_pos rfl, List.takeWhile_cons, hn2, if_pos rfl]
  simp

/-- The `rs` / `resend` branch of `fived_handle_reply`. -/
theorem fived_resend_branch {F : Type} (strtof : List Char → F × Nat) (dev : rr_dev)
    (reply : List Char) (nbytes : Nat)
    (h : strncasecmp_eq "rs" reply = true ∨ strncasecmp_eq "resend" reply = true) :
    fived_handle_reply strtof dev reply nbytes =
      some (if strtoll (reply.drop (strcspn_digits reply)) < dev.lineno ∧
          reply.getD (strcspn_digits reply - 1) '\x00' ≠ '-'
        then ⟨[DevCall.resend (strtoll (reply.drop (strcspn_digits reply)))], RetVal.of_resend⟩
        else ⟨[DevCall.emit_error rr_error.RR_E_UNSENT_RESEND], RetVal.of_emit_error⟩) := by
  obtain ⟨c, c2, rest, rfl, hc, -⟩ := resend_prefix h
  have hok : strncasecmp_eq "ok" (c :: c2 :: rest) = false :=
    not_prefix_of_first "ok" 'o' 'r' rfl (by decide) c (c2 :: rest) hc
  have hdig : strcspn_digits (c :: c2 :: rest) ≠ 0 := by
    have := strcspn_resend h
    omega
  unfold fived_handle_reply
  rw [hok]
  simp only [Bool.false_eq_true, if_false, h, if_true, hdig, ne_eq, not_false_eq_true]
  split <;> rfl

/-- C30. `fived_handle_reply` never reports the malformed-resend-request error.  For a reply
that begins (in any letter case) with `rs` or `resend`, the offset of the first character among
`1`-`9` is at least 2; and when the reply has no such character, the offset is the length of the
reply and the call resends line `0` if the line counter is positive and the last character of
the reply is not `-`, and emits the unsent-resend error otherwise. -/
theorem fived_never_malformed {F : Type} (strtof : List Char → F × Nat) (dev : rr_dev)
    (reply : List Char) (nbytes : Nat) :
    (∀ r, fived_handle_reply strtof dev reply nbytes = some r →
      DevCall.emit_error rr_error.RR_E_MALFORMED_RESEND_REQUEST ∉ r.calls) ∧
    (strncasecmp_eq "rs" reply = true ∨ strncasecmp_eq "resend" reply = true →
      2 ≤ strcspn_digits reply ∧
      ((∀ c ∈ reply, c ∉ "123456789".toList) →
        strcspn_digits reply = reply.length ∧
        fived_handle_reply strtof dev reply nbytes =
          some (if 0 < dev.lineno ∧ reply.getLast? ≠ some '-'
            then ⟨[DevCall.resend 0], RetVal.of_resend⟩
            else ⟨[DevCall.emit_error rr_error.RR_E_UNSENT_RESEND], RetVal.of_emit_error⟩))) := by
  constructor
  · intro r hr
    by_cases hrs : strncasecmp_eq "rs" reply = true ∨ strncasecmp_eq "resend" reply = true
    · rw [fived_resend_branch strtof dev reply nbytes hrs] at hr
      simp only [Option.some.injEq] at hr
      rw [← hr]
      split <;> simp
    · unfold fived_handle_reply at hr
      rw [if_neg hrs] at hr
      split at hr
      · exact okLoop_calls strtof dev reply nbytes _ (by decide) _ _ _ r hr (by simp)
      · split at hr
        · simp only [Option.some.injEq] at hr
          rw [← hr]; simp
        · split at hr <;>
          · simp only [Option.some.injEq] at hr
            rw [← hr]; simp
  · intro hrs
    refine ⟨strcspn_resend hrs, fun hnd => ?_⟩
    have hlen : strcspn_digits reply = reply.length := by
      unfold strcspn_digits
      congr 1
      rw [List.takeWhile_eq_self_iff]
      intro c hc
      have := hnd c hc
      simpa using this
    refine ⟨hlen, ?_⟩
    rw [fived_resend_branch strtof dev reply nbytes hrs, hlen, List.drop_length]
    have h0 : strtoll [] = 0 := by decide
    have hlast : reply.getD (reply.length - 1) '\x00' ≠ '-' ↔ reply.getLast? ≠ some '-' := by
      obtain ⟨c1, c2, rest, rfl, -, -⟩ := resend_prefix hrs
      rw [List.getLast?_eq_getElem?, List.getD_eq_getElem?_getD]
      have hlt : (c1 :: c2 :: rest).length - 1 < (c1 :: c2 :: rest).length := by simp
      rw [List.getElem?_eq_getElem hlt]
      simp
    rw [h0]
    simp only [hlast]

theorem fived_never_malformed_witness :
    (∀ r, fived_handle_reply decimalStrtof ⟨3, true⟩ "Resend".toList 6 = some r →
      DevCall.emit_error rr_error.RR_E_MALFORMED_RESEND_REQUEST ∉ r.calls) ∧
    (strncasecmp_eq "rs" "Resend".toList = true ∨
        strncasecmp_eq "resend" "Resend".toList = true →
      2 ≤ strcspn_digits "Resend".toList ∧
      ((∀ c ∈ "Resend".toList, c ∉ "123456789".toList) →
        strcspn_digits "Resend".toList = "Resend".toList.length ∧
        fived_handle_reply decimalStrtof ⟨3, true⟩ "Resend".toList 6 =
          some (if 0 < (3 : Int) ∧ "Resend".toList.getLast? ≠ some '-'
            then ⟨[DevCall.resend 0], RetVal.of_resend⟩
            else ⟨[DevCall.emit_error rr_error.RR_E_UNSENT_RESEND], RetVal.of_emit_error⟩))) :=
  fived_never_malformed decimalStrtof ⟨3, true⟩ "Resend".toList 6

/-- Replies without a digit `1`-`9`: `"Resend"` with line counter 3 resends line 0, with line
counter 0 it is an unsent resend, and so is `"rs -"` with line counter 3. -/
theorem fived_resend_line_zero :
    fived_handle_reply decimalStrtof ⟨3, true⟩ "Resend".toList 6 =
      some ⟨[DevCall.resend 0], RetVal.of_resend⟩ ∧
    fived_handle_reply decimalStrtof ⟨0, true⟩ "Resend".toList 6 =
      some ⟨[DevCall.emit_error rr_error.RR_E_UNSENT_RESEND], RetVal.of_emit_error⟩ ∧
    fived_handle_reply decimalStrtof ⟨3, true⟩ "rs -".toList 4 =
      some ⟨[DevCall.emit_error rr_error.RR_E_UNSENT_RESEND], RetVal.of_emit_error⟩ := by
  decide!

/-! ## Range of the normalized rotation angle -/

theorem converges_unique {α : Type} {f : Nat → Option α} {a : α} (h : Converges f a)
    {fuel : Nat} {b : α} (hb : f fuel = some b)
    (hmono : ∀ n m, n ≤ m → ∀ c, f n = some c → f m = some c) : b = a := by
  obtain ⟨N, hN⟩ := h
  have h1 := hN (max N fuel) (le_max_left _ _)
  have h2 := hmono fuel (max N fuel) (le_max_right _ _) b hb
  rw [h1] at h2
  exact (Option.some.inj h2).symm

theorem reduceRotation_spec (rotation : ℚ) :
    ∃ r, Converges (fun fuel => reduceRotation fuel rotation) r ∧ r ≤ 2 * M_PI ∧
      (∃ j : ℕ, rotation = r + j * (2 * M_PI) ∧ (j = 0 ∨ 0 < r)) ∧
      ((∃ k : ℕ, 0 < k ∧ rotation = k * (2 * M_PI)) → r = 2 * M_PI) := by
  obtain ⟨r, hr, hc, hj, hk⟩ := whileFuel_converges (fun r : ℚ => decide (2 * M_PI < r))
    (fun r => r - 2 * M_PI) (fun r => ⌈(0 - (-r)) / (2 * M_PI)⌉.toNat)
    (fun r => (∃ j : ℕ, rotation = r + j * (2 * M_PI) ∧ (j = 0 ∨ 0 < r)) ∧
      ((∃ k : ℕ, 0 < k ∧ rotation = k * (2 * M_PI)) → ∃ m : ℕ, 0 < m ∧ r = m * (2 * M_PI)))
    (fun s hp hc => by
      have hlt : 2 * M_PI < s := by simpa using hc
      have hpos := M_PI_pos
      refine ⟨?_, ?_, ?_⟩
      · have := countLoop_measure 0 (2 * M_PI) (-s) M_PI_pos (by linarith)
        have e : -(s - 2 * M_PI) = -s + 2 * M_PI := by ring
        show ⌈(0 - -(s - 2 * M_PI)) / (2 * M_PI)⌉.toNat < ⌈(0 - -s) / (2 * M_PI)⌉.toNat
        rw [e]
        exact this
      · obtain ⟨j, hj, -⟩ := hp.1
        refine ⟨j + 1, ?_, Or.inr (by show 0 < s - 2 * M_PI; linarith)⟩
        push_cast
        rw [hj]
        ring
      · intro hk
        obtain ⟨m, hm, hs⟩ := hp.2 hk
        have hm2 : 2 ≤ m := by
          by_contra hcon
          have : m = 1 := by omega
          rw [this] at hs
          simp at hs
          linarith
        refine ⟨m - 1, by omega, ?_⟩
        rw [hs, Nat.cast_sub (by omega)]
        push_cast
        ring)
    rotation ⟨⟨0, by simp, Or.inl rfl⟩, fun hk => hk⟩
  have hle : r ≤ 2 * M_PI := by simpa using hc
  refine ⟨r, hr, hle, hj, fun h => ?_⟩
  obtain ⟨m, hm, hs⟩ := hk h
  have hpos := M_PI_pos
  have hm1 : m = 1 := by
    by_contra hcon
    have h2 : (2 : ℚ) ≤ m := by exact_mod_cast (by omega : 2 ≤ m)
    nlinarith
  rw [hs, hm1]
  simp

theorem raiseRotation_spec (r1 : ℚ) (h1 : r1 ≤ 2 * M_PI) :
    ∃ a, Converges (fun fuel => raiseRotation fuel r1) a ∧ 0 ≤ a ∧ a ≤ 2 * M_PI ∧
      (0 ≤ r1 → a = r1) ∧ (r1 < 0 → a < 2 * M_PI) := by
  obtain ⟨a, ha, hc, hle, hp⟩ := whileFuel_converges (fun r : ℚ => decide (r < 0))
    (fun r => r + 2 * M_PI) (fun r => ⌈(0 - r) / (2 * M_PI)⌉.toNat)
    (fun r => r ≤ 2 * M_PI ∧ ((0 ≤ r1 → r = r1) ∧ (r1 < 0 → r < 2 * M_PI)))
    (fun s hp hc => by
      have hlt : s < 0 := by simpa using hc
      refine ⟨countLoop_measure 0 (2 * M_PI) s M_PI_pos hlt,
        by show s + 2 * M_PI ≤ 2 * M_PI; linarith, ?_, ?_⟩
      · intro h0
        have := hp.2.1 h0
        exfalso
        linarith
      · intro _
        show s + 2 * M_PI < 2 * M_PI
        linarith)
    r1 ⟨h1, fun _ => rfl, fun h => by linarith [M_PI_pos]⟩
  exact ⟨a, ha, by simpa using hc, hle, hp.1, hp.2⟩

theorem normalizeRotation_mono (rotation : ℚ) :
    ∀ n m, n ≤ m → ∀ c, normalizeRotation n rotation = some c →
      normalizeRotation m rotation = some c := by
  intro n m hnm c h
  unfold normalizeRotation at h ⊢
  cases h1 : reduceRotation n rotation with
  | none => rw [h1] at h; simp at h
  | some r1 =>
    rw [h1] at h
    have h2 := whileFuel_mono _ _ n rotation r1 h1 m hnm
    have h3 := whileFuel_mono _ _ n r1 c h m hnm
    unfold reduceRotation
    rw [h2]
    exact h3

theorem makeInfillPattern_angle {env : InfillEnv} {fuel : Nat} {self : Infill}
    {savedPatterns : List pattern} {type : InfillType} {d o rotation : ℚ} {res : InfillResult}
    (h : makeInfillPattern env fuel self savedPatterns type d o rotation = some res) :
    normalizeRotation fuel rotation = some res.infill.angle ∧
    (res.savedPatterns = savedPatterns ∨
      ∃ p, res.savedPatterns = savedPatterns ++ [p] ∧ p.angle = res.infill.angle) := by
  unfold makeInfillPattern at h
  unfold normalizeRotation
  cases h1 : reduceRotation fuel rotation with
  | none => rw [h1] at h; simp at h
  | some r1 =>
    rw [h1] at h
    simp only at h ⊢
    cases h2 : raiseRotation fuel r1 with
    | none => rw [h2] at h; simp at h
    | some r2 =>
      rw [h2] at h
      simp only at h
      cases h3 : savedPatterns.find? (patternMatches type d r2) with
      | some p =>
        rw [h3] at h
        simp only [Option.some.injEq] at h
        rw [← h]
        exact ⟨rfl, Or.inl rfl⟩
      | none =>
        rw [h3] at h
        simp only at h
        cases h4 : buildPattern env fuel self.plane type d r2 with
        | none => rw [h4] at h; simp at h
        | some cp =>
          rw [h4] at h
          simp only [Option.some.injEq] at h
          rw [← h]
          exact ⟨rfl, Or.inr ⟨_, rfl, rfl⟩⟩

/-- C24 (counterexample). The rotation `2*M_PI` is not greater than `2*M_PI` and not negative,
so neither loop changes it: `makeInfillPattern` stores the angle `2*M_PI` in the `Infill` and in
the new cache entry, outside the half-open interval `[0, 2*M_PI)`; the rotation `4*M_PI` is
reduced to the same value. -/
theorem makeInfillPattern_full_turn :
    (makeInfillPattern sampleEnv 10 ⟨⟨⟨0, 0⟩, ⟨4, 4⟩, 0⟩, InfillType.LinesInfill, 0, []⟩ []
      InfillType.ParallelInfill 1 0 (2 * M_PI)).map
        (fun res => (res.infill.angle, res.savedPatterns.map (fun p => p.angle))) =
      some (2 * M_PI, [2 * M_PI]) ∧
    (makeInfillPattern sampleEnv 10 ⟨⟨⟨0, 0⟩, ⟨4, 4⟩, 0⟩, InfillType.LinesInfill, 0, []⟩ []
      InfillType.ParallelInfill 1 0 (4 * M_PI)).map
        (fun res => (res.infill.angle, res.savedPatterns.map (fun p => p.angle))) =
      some (2 * M_PI, [2 * M_PI]) ∧
    ¬ (2 * M_PI < 2 * M_PI) := by
  decide!

/-- C24 (amended). For every rotation value the two normalization loops terminate, and the
normalized angle `a` lies in the closed interval `[0, 2*M_PI]`; it equals `2*M_PI` exactly when
the rotation is a positive multiple of `2*M_PI`.  Whenever `makeInfillPattern` returns, `a` is
the angle stored in the `Infill`, and the angle of the cache entry if one was added. -/
theorem normalizeRotation_range (rotation : ℚ) :
    ∃ a, Converges (fun fuel => normalizeRotation fuel rotation) a ∧
      0 ≤ a ∧ a ≤ 2 * M_PI ∧
      (a = 2 * M_PI ↔ ∃ k : ℕ, 0 < k ∧ rotation = k * (2 * M_PI)) ∧
      ∀ (env : InfillEnv) (fuel : Nat) (self : Infill) (savedPatterns : List pattern)
        (type : InfillType) (d o : ℚ) (res : InfillResult),
        makeInfillPattern env fuel self savedPatterns type d o rotation = some res →
        res.infill.angle = a ∧
        (res.savedPatterns = savedPatterns ∨
          ∃ p, res.savedPatterns = savedPatterns ++ [p] ∧ p.angle = a) := by
  obtain ⟨r1, ⟨N1, hN1⟩, hle, ⟨j, hj, hj2⟩, hk⟩ := reduceRotation_spec rotation
  obtain ⟨a, ⟨N2, hN2⟩, h0, h2, hsame, hneg⟩ := raiseRotation_spec r1 hle
  have hconv : Converges (fun fuel => normalizeRotation fuel rotation) a := by
    refine ⟨max N1 N2, fun fuel hf => ?_⟩
    simp only [normalizeRotation, hN1 fuel (le_trans (le_max_left _ _) hf),
      hN2 fuel (le_trans (le_max_right _ _) hf)]
  refine ⟨a, hconv, h0, h2, ⟨fun ha => ?_, fun hx => ?_⟩, ?_⟩
  · have hr1 : 0 ≤ r1 := by
      by_contra hcon
      have := hneg (by linarith)
      linarith
    have e := hsame hr1
    refine ⟨j + 1, by omega, ?_⟩
    rw [hj, ← e, ha]
    push_cast
    ring
  · have e := hk hx
    rw [hsame (by rw [e]; exact M_PI_pos.le), e]
  · intro env fuel self savedPatterns type d o res hres
    obtain ⟨hn, hsp⟩ := makeInfillPattern_angle hres
    have e := converges_unique hconv hn (normalizeRotation_mono rotation)
    rw [e] at hsp
    exact ⟨e, hsp⟩

/-! ## Line patterns and infill lines -/

/-- C25 (failing input). Plane box `(0,0)-(4,4)`, style `LinesInfill`, spacing 4, empty cache and
a quarter turn as rotation: the doubled box is `(-2,-2)-(6,6)` and two lines are built, at
`x = -2` and `x = 2`.  The first pattern polygon is the rotated first line; the second polygon
has four vertices: the two of the first line, rotated a second time, and the two of the second
line. -/
theorem makeInfillPattern_lines_accumulate :
    (makeInfillPattern quarterTurnEnv 10 ⟨⟨⟨0, 0⟩, ⟨4, 4⟩, 0⟩, InfillType.LinesInfill, 0, []⟩ []
      InfillType.LinesInfill 4 0 (M_PI / 2)).map (fun res => res.cpolys) =
      some [[(6, -2), (-2, -2)], [(6, 6), (6, -2), (6, 2), (-2, 2)]] ∧
    quarterTurnEnv.getClipperPolygons ⟨⟨0, 0⟩, ⟨4, 4⟩, 0⟩
      [quarterTurnEnv.rotate ⟨[⟨-2, -2⟩, ⟨-2, 6⟩], 0, false⟩ ⟨2, 2⟩ (M_PI / 2),
        quarterTurnEnv.rotate ⟨[⟨2, -2⟩, ⟨2, 6⟩], 0, false⟩ ⟨2, 2⟩ (M_PI / 2)] =
      [[(6, -2), (-2, -2)], [(6, 2), (-2, 2)]] := by
  decide!

theorem foldl_keep {α β : Type} (keep : α → Bool) (f : α → β) (is : List α) (acc : List β) :
    is.foldl (fun polys i => if keep i = true then polys ++ [f i] else polys) acc =
      acc ++ (is.filter keep).map f := by
  induction is generalizing acc with
  | nil => simp
  | cons i t ih =>
    rw [List.foldl_cons, ih]
    by_cases hk : keep i = true
    · simp [hk, List.filter_cons]
    · simp [hk, List.filter_cons]

/-- C26. For the parallel style `addInfillPoly (p)` appends, in edge order, exactly the
two-vertex lines `(v_i, v_(i+1 mod n))` of those edges `i` of `p` whose edge vector, rotated by
the negative fill angle, has `|x| < 0.1` and `|y| > 0.1`; an edge whose rotated vector has
`y = 0` (a cross edge) is never kept.  For every other style it appends `p` itself. -/
theorem addInfillPoly_lines (sin cos : ℚ → ℚ) (self : Infill) (p : Poly) :
    (self.type = InfillType.ParallelInfill →
      (addInfillPoly sin cos self p).infillpolys =
        self.infillpolys ++
          ((List.range p.vertices.length).filter (fun i =>
            decide (|(rotatedEdge (sin (-self.angle)) (cos (-self.angle)) p i).x| < 1 / 10 ∧
              |(rotatedEdge (sin (-self.angle)) (cos (-self.angle)) p i).y| > 1 / 10))).map
            (fun i => ⟨[vertexAt p.vertices i,
              vertexAt p.vertices ((i + 1) % p.vertices.length)], p.z, false⟩) ∧
      (∀ q ∈ (addInfillPoly sin cos self p).infillpolys, q ∈ self.infillpolys ∨
        ∃ i, i < p.vertices.length ∧
          q.vertices = [vertexAt p.vertices i,
            vertexAt p.vertices ((i + 1) % p.vertices.length)] ∧
          (rotatedEdge (sin (-self.angle)) (cos (-self.angle)) p i).y ≠ 0)) ∧
    (self.type ≠ InfillType.ParallelInfill →
      (addInfillPoly sin cos self p).infillpolys = self.infillpolys ++ [p]) ∧
    (addInfillPoly sin cos self p).type = self.type ∧
    (addInfillPoly sin cos self p).angle = self.angle := by
  have hmain : self.type = InfillType.ParallelInfill →
      (addInfillPoly sin cos self p).infillpolys =
        self.infillpolys ++
          ((List.range p.vertices.length).filter (fun i =>
            decide (|(rotatedEdge (sin (-self.angle)) (cos (-self.angle)) p i).x| < 1 / 10 ∧
              |(rotatedEdge (sin (-self.angle)) (cos (-self.angle)) p i).y| > 1 / 10))).map
            (fun i => ⟨[vertexAt p.vertices i,
              vertexAt p.vertices ((i + 1) % p.vertices.length)], p.z, false⟩) := by
    intro ht
    unfold addInfillPoly
    rw [if_pos ht]
    simp only
    rw [foldl_keep (keepsEdge (sin (-self.angle)) (cos (-self.angle)) p) (edgeLine p)]
    congr 1
    have hf : (List.range p.vertices.length).filter
        (keepsEdge (sin (-self.angle)) (cos (-self.angle)) p) =
        (List.range p.vertices.length).filter (fun i =>
          decide (|(rotatedEdge (sin (-self.angle)) (cos (-self.angle)) p i).x| < 1 / 10 ∧
            |(rotatedEdge (sin (-self.angle)) (cos (-self.angle)) p i).y| > 1 / 10)) := by
      apply List.filter_congr
      intro i _
      simp [keepsEdge]
    rw [hf]
    apply List.map_congr_left
    intro i hi
    have hi2 : i < p.vertices.length := List.mem_range.1 (List.mem_filter.1 hi).1
    simp only [edgeLine, getVertexCircular, Nat.mod_eq_of_lt hi2]
  refine ⟨fun ht => ⟨hmain ht, ?_⟩, ?_, ?_, ?_⟩
  · intro q hq
    rw [hmain ht, List.mem_append] at hq
    rcases hq with hq | hq
    · exact Or.inl hq
    · right
      obtain ⟨i, hi, rfl⟩ := List.mem_map.1 hq
      obtain ⟨hi1, hi2⟩ := List.mem_filter.1 hi
      refine ⟨i, List.mem_range.1 hi1, rfl, ?_⟩
      intro h0
      simp only [decide_eq_true_eq] at hi2
      rw [h0] at hi2
      norm_num at hi2
  · intro ht
    unfold addInfillPoly
    rw [if_neg ht]
  · unfold addInfillPoly
    split <;> rfl
  · unfold addInfillPoly
    split <;> rfl

/-- An instance of `addInfillPoly` at fill angle 0 (sine 0, cosine 1): of the four edges of the
rectangle `(0,0)-(1,2)` the two edges along the y axis are kept, the two cross edges are not;
with another style the rectangle itself is appended. -/
theorem addInfillPoly_example :
    (addInfillPoly (fun _ => 0) (fun _ => 1)
      ⟨⟨⟨0, 0⟩, ⟨4, 4⟩, 0⟩, InfillType.ParallelInfill, 0, []⟩
      ⟨[⟨0, 0⟩, ⟨1, 0⟩, ⟨1, 2⟩, ⟨0, 2⟩], 0, false⟩).infillpolys =
      [⟨[⟨1, 0⟩, ⟨1, 2⟩], 0, false⟩, ⟨[⟨0, 2⟩, ⟨0, 0⟩], 0, false⟩] ∧
    (addInfillPoly (fun _ => 0) (fun _ => 1)
      ⟨⟨⟨0, 0⟩, ⟨4, 4⟩, 0⟩, InfillType.SupportInfill, 0, []⟩
      ⟨[⟨0, 0⟩, ⟨1, 0⟩, ⟨1, 2⟩, ⟨0, 2⟩], 0, false⟩).infillpolys =
      [⟨[⟨0, 0⟩, ⟨1, 0⟩, ⟨1, 2⟩, ⟨0, 2⟩], 0, false⟩] := by
  decide!

/-! ## The strip of the parallel and support styles -/

theorem stripLoop_spans (d : ℚ) (Min Max : Vector2d) (hd : 0 < d) (hx : Min.x < Max.x) :
    ∃ r, Converges (stripLoop d Min Max) r ∧ Max.x ≤ r.1 ∧
      (⟨Min.x, Min.y⟩ : Vector2d) ∈ r.2 ∧ (⟨r.1, Max.y⟩ : Vector2d) ∈ r.2 := by
  obtain ⟨r, hr, hc, hp⟩ := whileFuel_converges
    (fun s : ℚ × List Vector2d => decide (s.1 < Max.x))
    (fun s => (s.1 + 2 * d,
      s.2 ++ [⟨s.1, Min.y⟩, ⟨s.1 + d, Min.y⟩, ⟨s.1 + d, Max.y⟩, ⟨s.1 + 2 * d, Max.y⟩]))
    (fun s => ⌈(Max.x - s.1) / (2 * d)⌉.toNat)
    (fun s => s.1 = Min.x ∨
      ((⟨Min.x, Min.y⟩ : Vector2d) ∈ s.2 ∧ (⟨s.1, Max.y⟩ : Vector2d) ∈ s.2))
    (fun s hp hc => by
      have hlt : s.1 < Max.x := by simpa using hc
      refine ⟨countLoop_measure Max.x (2 * d) s.1 (by linarith) hlt, Or.inr ⟨?_, ?_⟩⟩
      · rcases hp with hp | hp
        · simp [hp]
        · simp [hp.1]
      · simp)
    (Min.x, []) (Or.inl rfl)
  have hge : Max.x ≤ r.1 := by simpa using hc
  refine ⟨r, hr, hge, ?_⟩
  rcases hp with hp | hp
  · exfalso
    rw [hp] at hge
    linarith
  · exact hp

theorem buildPattern_strip (env : InfillEnv) (plane : CuttingPlane) (type : InfillType)
    (d a : ℚ) (htype : type = InfillType.ParallelInfill ∨ type = InfillType.SupportInfill)
    (hd : 0 < d) (hx : plane.Min.x < plane.Max.x) :
    ∃ strip : Poly,
      Converges (fun fuel => buildPattern env fuel plane type d a)
        (env.getClipperPolygons plane [env.rotate strip (boxCenter plane) a]) ∧
      Spans strip.vertices (doubledMin plane) (doubledMax plane) := by
  have hx2 : (doubledMin plane).x < (doubledMax plane).x := by
    simp only [doubledMin, doubledMax, boxCenter]
    linarith
  obtain ⟨r, ⟨N, hN⟩, hge, hmin, hmax⟩ :=
    stripLoop_spans d (doubledMin plane) (doubledMax plane) hd hx2
  refine ⟨⟨r.2 ++ [⟨(doubledMax plane).x, (doubledMin plane).y - d⟩,
      ⟨(doubledMin plane).x, (doubledMin plane).y - d⟩], plane.Z, false⟩, ⟨N, fun fuel hf => ?_⟩,
    ?_⟩
  · have h := hN fuel hf
    rcases htype with rfl | rfl
    · simp only [buildPattern]
      simp only [doubledMin, doubledMax, boxCenter] at h ⊢
      rw [h]
    · simp only [buildPattern]
      simp only [doubledMin, doubledMax, boxCenter] at h ⊢
      rw [h]
  · refine ⟨⟨_, List.mem_append_left _ hmin, le_refl _⟩,
      ⟨_, List.mem_append_left _ hmax, hge⟩,
      ⟨_, List.mem_append_left _ hmin, le_refl _⟩,
      ⟨_, List.mem_append_left _ hmax, le_refl _⟩⟩

/-- C11 (counterexample). A first call on the plane with box `(0,0)-(4,4)` (empty cache,
parallel style, spacing 1, angle 0) builds a strip for the doubled box `(-2,-2)-(6,6)` and
caches it.  A second call with the same style, spacing and angle from an `Infill` whose plane
has the box `(0,0)-(100,100)` is answered from the cache: it returns the same strip, all of
whose vertices have `x ≤ 6`, although the doubled box of its own plane reaches to `x = 150`. -/
theorem makeInfillPattern_cached_strip :
    ((makeInfillPattern sampleEnv 20 smallInfill [] InfillType.ParallelInfill 1 0 0).bind
      (fun first =>
        (makeInfillPattern sampleEnv 20 largeInfill first.savedPatterns
          InfillType.ParallelInfill 1 0 0).map
          (fun second => (decide (second.cpolys = first.cpolys),
            decide (second.savedPatterns = first.savedPatterns),
            second.cpolys.all (fun poly => poly.all (fun pt => decide (pt.1 ≤ 6))))))) =
      some (true, true, true) ∧
    (doubledMax largeInfill.plane).x = 150 := by
  decide!

/-- C11 (amended). For a parallel or support style, a positive spacing and a plane whose
bounding box has `Min.x < Max.x`, `makeInfillPattern` returns.  When no cache entry matches, the
returned pattern is the strip rotated about the centre of the box by the normalized angle, and
before rotation the strip spans the rectangle obtained by scaling the bounding box of the
calling `Infill`'s plane by 2 about its centre.  When a cache entry matches, the stored
polygons of the first matching entry are returned, whatever plane they were built for. -/
theorem makeInfillPattern_strip_spans (env : InfillEnv) (self : Infill)
    (savedPatterns : List pattern) (type : InfillType) (d o rotation : ℚ)
    (htype : type = InfillType.ParallelInfill ∨ type = InfillType.SupportInfill)
    (hd : 0 < d) (hx : self.plane.Min.x < self.plane.Max.x) :
    ∃ a res,
      Converges (fun fuel => normalizeRotation fuel rotation) a ∧
      Converges (fun fuel => makeInfillPattern env fuel self savedPatterns type d o rotation)
        res ∧
      ((∀ q ∈ savedPatterns,
          ¬ (q.type = type ∧ |q.distance - d| < 1 / 100 ∧ |q.angle - a| < 1 / 100)) →
        ∃ strip : Poly,
          res.cpolys =
            env.getClipperPolygons self.plane [env.rotate strip (boxCenter self.plane) a] ∧
          Spans strip.vertices (doubledMin self.plane) (doubledMax self.plane)) ∧
      (∀ p, savedPatterns.find? (patternMatches type d a) = some p →
        res.cpolys = p.cpolys) := by
  obtain ⟨a, hnorm, r1, ⟨N1, h1⟩, ⟨N2, h2⟩⟩ := normalizeRotation_converges rotation
  obtain ⟨strip, ⟨N3, h3⟩, hspan⟩ := buildPattern_strip env self.plane type d a htype hd hx
  cases hfind : savedPatterns.find? (patternMatches type d a) with
  | some p0 =>
    refine ⟨a, ⟨{ self with type := type, angle := a }, savedPatterns, p0.cpolys⟩, hnorm,
      ⟨max N1 N2, fun fuel hf => ?_⟩, ?_, ?_⟩
    · simp only [makeInfillPattern, h1 fuel (le_trans (le_max_left _ _) hf),
        h2 fuel (le_trans (le_max_right _ _) hf), hfind]
    · intro hnone
      have hm := (patternMatches_iff _ _ _ _).mp (List.find?_some hfind)
      exact absurd hm (hnone p0 (List.mem_of_find?_eq_some hfind))
    · intro p hp
      rw [hfind] at hp
      rw [Option.some.inj hp]
  | none =>
    refine ⟨a, ⟨{ self with type := type, angle := a },
      savedPatterns ++ [⟨type, a, d, env.getClipperPolygons self.plane
        [env.rotate strip (boxCenter self.plane) a]⟩],
      env.getClipperPolygons self.plane [env.rotate strip (boxCenter self.plane) a]⟩, hnorm,
      ⟨max (max N1 N2) N3, fun fuel hf => ?_⟩, fun _ => ⟨strip, rfl, hspan⟩, ?_⟩
    · have hf1 : N1 ≤ fuel := le_trans (le_trans (le_max_left _ _) (le_max_left _ _)) hf
      have hf2 : N2 ≤ fuel := le_trans (le_trans (le_max_right _ _) (le_max_left _ _)) hf
      have hf3 : N3 ≤ fuel := le_trans (le_max_right _ _) hf
      simp only [makeInfillPattern, h1 fuel hf1, h2 fuel hf2, hfind, h3 fuel hf3]
    · intro p hp
      rw [hfind] at hp
      cases hp

theorem makeInfillPattern_strip_spans_witness :
    (InfillType.ParallelInfill = InfillType.ParallelInfill ∨
      InfillType.ParallelInfill = InfillType.SupportInfill) ∧
    (0 : ℚ) < 1 ∧ smallInfill.plane.Min.x < smallInfill.plane.Max.x ∧
    ∃ a res,
      Converges (fun fuel => normalizeRotation fuel 0) a ∧
      Converges (fun fuel => makeInfillPattern sampleEnv fuel smallInfill []
        InfillType.ParallelInfill 1 0 0) res ∧
      ((∀ q ∈ ([] : List pattern),
          ¬ (q.type = InfillType.ParallelInfill ∧ |q.distance - 1| < 1 / 100 ∧
            |q.angle - a| < 1 / 100)) →
        ∃ strip : Poly,
          res.cpolys =
            sampleEnv.getClipperPolygons smallInfill.plane
              [sampleEnv.rotate strip (boxCenter smallInfill.plane) a] ∧
          Spans strip.vertices (doubledMin smallInfill.plane) (doubledMax smallInfill.plane)) ∧
      (∀ p, ([] : List pattern).find? (patternMatches InfillType.ParallelInfill 1 a) = some p →
        res.cpolys = p.cpolys) :=
  ⟨Or.inl rfl, by norm_num, by decide!,
    makeInfillPattern_strip_spans sampleEnv smallInfill [] InfillType.ParallelInfill 1 0 0
      (Or.inl rfl) (by norm_num) (by decide!)⟩

/-! ## Coverage after rotation -/

/-- C12 (failing input). Bounding box `(0,0)-(10,1)` and a quarter turn (cosine 0, sine 1): the
pattern rectangle `(-5,-1/2)-(15,3/2)` turned about the centre `(5,1/2)` covers only
`4 ≤ x ≤ 6`, so the corner `(0,0)` of the bounding box is not inside it. -/
theorem pattern_misses_corner :
    (0 : ℚ) ^ 2 + 1 ^ 2 = 1 ∧
    doubledMin ⟨⟨0, 0⟩, ⟨10, 1⟩, 0⟩ = ⟨-5, -1 / 2⟩ ∧
    doubledMax ⟨⟨0, 0⟩, ⟨10, 1⟩, 0⟩ = ⟨15, 3 / 2⟩ ∧
    inBox ⟨0, 0⟩ ⟨10, 1⟩ ⟨0, 0⟩ ∧
    ¬ inRotatedPattern ⟨⟨0, 0⟩, ⟨10, 1⟩, 0⟩ 0 1 ⟨0, 0⟩ := by
  refine ⟨by norm_num, by decide!, by decide!, ?_, ?_⟩
  · unfold inBox
    norm_num
  · rintro ⟨q, hq, he⟩
    have hx : (rotateAbout (boxCenter ⟨⟨0, 0⟩, ⟨10, 1⟩, 0⟩) 0 1 q).x = 0 := by rw [he]
    have hmax : (doubledMax ⟨⟨0, 0⟩, ⟨10, 1⟩, 0⟩).y = 3 / 2 := by decide!
    have hc : boxCenter ⟨⟨0, 0⟩, ⟨10, 1⟩, 0⟩ = ⟨5, 1 / 2⟩ := by decide!
    rw [hc] at hx
    simp only [rotateAbout] at hx
    have hy := hq.2.2.2
    rw [hmax] at hy
    linarith

/-- The pattern rectangle does cover the bounding box after every rotation when the box is not
too elongated: neither side longer than `√3` times the other. -/
theorem pattern_covers_compact_box (plane : CuttingPlane) (cs sn : ℚ) (p : Vector2d)
    (hc : cs ^ 2 + sn ^ 2 = 1)
    (hw : plane.Min.x ≤ plane.Max.x) (hh : plane.Min.y ≤ plane.Max.y)
    (h1 : (plane.Max.x - plane.Min.x) ^ 2 ≤ 3 * (plane.Max.y - plane.Min.y) ^ 2)
    (h2 : (plane.Max.y - plane.Min.y) ^ 2 ≤ 3 * (plane.Max.x - plane.Min.x) ^ 2)
    (hp : inBox plane.Min plane.Max p) : inRotatedPattern plane cs sn p := by
  obtain ⟨p1, p2, p3, p4⟩ := hp
  refine ⟨rotateAbout (boxCenter plane) cs (-sn) p, ?_, ?_⟩
  · have hsum : ((p.x - (boxCenter plane).x) * cs + (p.y - (boxCenter plane).y) * sn) ^ 2 +
        (-(p.x - (boxCenter plane).x) * sn + (p.y - (boxCenter plane).y) * cs) ^ 2 =
        (p.x - (boxCenter plane).x) ^ 2 + (p.y - (boxCenter plane).y) ^ 2 := by
      have : ((p.x - (boxCenter plane).x) * cs + (p.y - (boxCenter plane).y) * sn) ^ 2 +
          (-(p.x - (boxCenter plane).x) * sn + (p.y - (boxCenter plane).y) * cs) ^ 2 =
          ((p.x - (boxCenter plane).x) ^ 2 + (p.y - (boxCenter plane).y) ^ 2) *
            (cs ^ 2 + sn ^ 2) := by ring
      rw [this, hc, mul_one]
    have hdx : (p.x - (boxCenter plane).x) ^ 2 ≤ ((plane.Max.x - plane.Min.x) / 2) ^ 2 := by
      apply sq_le_sq'
      · simp only [boxCenter]; linarith
      · simp only [boxCenter]; linarith
    have hdy : (p.y - (boxCenter plane).y) ^ 2 ≤ ((plane.Max.y - plane.Min.y) / 2) ^ 2 := by
      apply sq_le_sq'
      · simp only [boxCenter]; linarith
      · simp only [boxCenter]; linarith
    have hA : ((p.x - (boxCenter plane).x) * cs + (p.y - (boxCenter plane).y) * sn) ^ 2 ≤
        (plane.Max.x - plane.Min.x) ^ 2 := by
      nlinarith [sq_nonneg (-(p.x - (boxCenter plane).x) * sn +
        (p.y - (boxCenter plane).y) * cs)]
    have hB : (-(p.x - (boxCenter plane).x) * sn + (p.y - (boxCenter plane).y) * cs) ^ 2 ≤
        (plane.Max.y - plane.Min.y) ^ 2 := by
      nlinarith [sq_nonneg ((p.x - (boxCenter plane).x) * cs +
        (p.y - (boxCenter plane).y) * sn)]
    have hA2 := abs_le_of_sq_le_sq' hA (by linarith)
    have hB2 := abs_le_of_sq_le_sq' hB (by linarith)
    simp only [inBox, doubledMin, doubledMax, rotateAbout]
    simp only [boxCenter] at hA2 hB2 ⊢
    refine ⟨?_, ?_, ?_, ?_⟩ <;> linarith [hA2.1, hA2.2, hB2.1, hB2.2]
  · have hx : (rotateAbout (boxCenter plane) cs sn
        (rotateAbout (boxCenter plane) cs (-sn) p)).x = p.x := by
      simp only [rotateAbout]
      linear_combination (p.x - (boxCenter plane).x) * hc
    have hy : (rotateAbout (boxCenter plane) cs sn
        (rotateAbout (boxCenter plane) cs (-sn) p)).y = p.y := by
      simp only [rotateAbout]
      linear_combination (p.y - (boxCenter plane).y) * hc
    cases p
    cases hr : rotateAbout (boxCenter plane) cs sn (rotateAbout (boxCenter plane) cs (-sn) _)
    rw [hr] at hx hy
    simp only at hx hy
    rw [hx, hy]

end Repsnapper
